import Mathlib

/-!
Verification development for the persistent B+Tree of `p2_bplustree_solution`.

The Rust sources are shallowly embedded:
* fixed-size on-page arrays (`[u32; N]`, `[(u32,u32); N]`, `[PagePointer; N]`)
  become Lean `List`s whose length is the array length in every well-formed
  page; indexing `a[i]` becomes `List.getD` (the source panics out of range,
  which is unreachable under the hypotheses of every theorem below);
* `u32` keys/values and `u64` page pointers become `Nat` (the code only
  compares keys and increments counters, so no wrap-around is reachable);
* the backing file becomes a `List Page` indexed by page number;
* fallible code (`BPlusResult`, `assert!`, panics, tag-mismatch on decode)
  returns `Option`, with `none` standing for any fatal outcome.
-/

namespace BPlus

/-- `PAGE_SIZE` from `page/mod.rs` (only documentary here: the embedding
addresses pages by index, not by byte offset). -/
def PAGE_SIZE : Nat := 4048

/-- The null page pointer (`NULL_IDX` in `page/mod.rs`). -/
def NULL_IDX : Nat := 0

/-- Index of the metadata page (`METADATA_IDX`). -/
def METADATA_IDX : Nat := 0

/-- Root directory page index in a fresh file (`DEFAULT_ROOT_IDX`). -/
def DEFAULT_ROOT_IDX : Nat := 1

/-- First data page index in a fresh file (`DEFAULT_PAGE0_IDX`). -/
def DEFAULT_PAGE0_IDX : Nat := 2

/-- Max keys per directory page (`dir_page.rs`). -/
def DIR_KEY_COUNT : Nat := 335

/-- Max pointers per directory page (`dir_page.rs`). -/
def DIR_PTR_COUNT : Nat := DIR_KEY_COUNT + 1

/-- Max records per leaf page (`leaf_page.rs`). -/
def LEAF_RECORD_COUNT : Nat := 502

/-- `u32::MAX`, used by `check_tree` as the initial upper bound. -/
def U32_MAX : Nat := 4294967295

/-- Rust `slice::copy_within(src..src+len, dst)`: copy `len` elements
starting at `src` over the positions starting at `dst` (memmove
semantics: the copied data is read from the original list). -/
def copyWithin (l : List α) (src len dst : Nat) : List α :=
  l.take dst ++ (l.drop src).take len ++ l.drop (dst + len)

/-- Rust `slice[dst .. dst+src.len()].copy_from_slice(src)`. -/
def setRange (l : List α) (dst : Nat) (src : List α) : List α :=
  l.take dst ++ src ++ l.drop (dst + src.length)

/-! ## Leaf pages (`page/leaf_page.rs`) -/

/-- `LeafPage`.  The `page_type` tag byte of the Rust struct is represented
by the `Page.leaf` constructor of the `Page` sum type below. -/
structure LeafPage where
  count : Nat
  key_value : List (Nat × Nat)
  next : Nat
  prev : Nat
deriving DecidableEq, Repr

namespace LeafPage

/-- `LeafPage::init`. -/
def init : LeafPage :=
  { count := 0
    key_value := List.replicate LEAF_RECORD_COUNT (0, 0)
    next := NULL_IDX
    prev := NULL_IDX }

/-- `LeafPage::is_full`. -/
def is_full (l : LeafPage) : Bool := l.count ≥ LEAF_RECORD_COUNT

/-- `LeafPage::is_underfull`. -/
def is_underfull (l : LeafPage) : Bool := l.count < LEAF_RECORD_COUNT / 2

/-- `LeafPage::can_allow_stolen_key`. -/
def can_allow_stolen_key (l : LeafPage) : Bool := l.count > LEAF_RECORD_COUNT / 2

/-- `LeafPage::get`. -/
def get (l : LeafPage) (idx : Nat) : Nat × Nat := l.key_value.getD idx (0, 0)

/-- Helper for `find_index`: scan the live records in order; on a slice
sorted strictly by key this computes exactly what
`slice::binary_search_by` guarantees (`Ok` of the matching index, or
`Err` of the insertion index). -/
def findIndexAux (key : Nat) : List (Nat × Nat) → Nat → Except Nat Nat
  | [], i => .error i
  | p :: rest, i =>
    if p.1 < key then findIndexAux key rest (i + 1)
    else if p.1 = key then .ok i
    else .error i

/-- `LeafPage::find_index`: `self.key_value[0..count].binary_search_by(probe.0.cmp(&key))`.
Modelled by the contract of `binary_search_by` on a sorted slice
(the only way the tree ever calls it). -/
def find_index (l : LeafPage) (key : Nat) : Except Nat Nat :=
  findIndexAux key (l.key_value.take l.count) 0

/-- `LeafPage::split`: keeps the lower half in `self` (zeroing the vacated
slots), returns the new right page.  Result is `(self, new_page)`. -/
def split (l : LeafPage) : LeafPage × LeafPage :=
  let my_size := LEAF_RECORD_COUNT / 2
  let new_size := LEAF_RECORD_COUNT - my_size
  let newPage : LeafPage :=
    { init with
      key_value := setRange init.key_value 0 ((l.key_value.drop my_size).take new_size)
      count := new_size }
  let self' : LeafPage :=
    { l with
      count := my_size
      key_value := l.key_value.take my_size ++
        List.replicate (LEAF_RECORD_COUNT - my_size) (0, 0) }
  (self', newPage)

/-- `LeafPage::find_value`. -/
def find_value (l : LeafPage) (key : Nat) : Option Nat :=
  match l.find_index key with
  | .ok idx => some (l.key_value.getD idx (0, 0)).2
  | .error _ => none

/-- `LeafPage::put`: update in place on a hit; insert at the search
position (shifting the suffix right) on a miss; `none` is the
`PageIsFullError` raised when the page is full and the key is new. -/
def put (l : LeafPage) (key value : Nat) : Option LeafPage :=
  match l.find_index key with
  | .ok idx =>
    some { l with key_value := l.key_value.set idx ((l.key_value.getD idx (0, 0)).1, value) }
  | .error idx =>
    if l.is_full then none
    else some
      { l with
        key_value := (copyWithin l.key_value idx (l.count - idx) (idx + 1)).set idx (key, value)
        count := l.count + 1 }

/-- `LeafPage::delete`: remove the key if present (shifting the suffix
left and zeroing the vacated slot); the `Bool` reports whether a
removal happened. -/
def delete (l : LeafPage) (key : Nat) : Bool × LeafPage :=
  match l.find_index key with
  | .ok idx =>
    (true,
      { l with
        key_value := (copyWithin l.key_value (idx + 1) (l.count - (idx + 1)) idx).set (l.count - 1) (0, 0)
        count := l.count - 1 })
  | .error _ => (false, l)

/-- `LeafPage::steal_high`: pop the last live pair (the source `assert!`
on `can_allow_stolen_key` is the `none` case). -/
def steal_high (l : LeafPage) : Option ((Nat × Nat) × LeafPage) :=
  if l.can_allow_stolen_key then
    some (l.key_value.getD (l.count - 1) (0, 0),
      { l with
        count := l.count - 1
        key_value := l.key_value.set (l.count - 1) (0, 0) })
  else none

/-- `LeafPage::steal_low`: pop the first live pair. -/
def steal_low (l : LeafPage) : Option ((Nat × Nat) × LeafPage) :=
  if l.can_allow_stolen_key then
    some (l.key_value.getD 0 (0, 0),
      { l with
        key_value := (copyWithin l.key_value 1 (l.count - 1) 0).set (l.count - 1) (0, 0)
        count := l.count - 1 })
  else none

/-- `LeafPage::merge_with`: append the other page's live pairs
(the source `assert!` on combined size is the `none` case). -/
def merge_with (l other : LeafPage) : Option LeafPage :=
  if l.count + other.count ≤ LEAF_RECORD_COUNT then
    some { l with
      key_value := setRange l.key_value l.count (other.key_value.take other.count)
      count := l.count + other.count }
  else none

/-- The live records of a leaf (`LeafPage::iter`). -/
def live (l : LeafPage) : List (Nat × Nat) := l.key_value.take l.count

end LeafPage

/-! ## Directory pages (`page/dir_page.rs`) -/

/-- `DirectoryPage`.  As with leaves, the tag byte is carried by the
`Page.dir` constructor. -/
structure DirectoryPage where
  count : Nat
  keys : List Nat
  pointers : List Nat
deriving DecidableEq, Repr

namespace DirectoryPage

/-- `DirectoryPage::init`. -/
def init : DirectoryPage :=
  { count := 0
    keys := List.replicate DIR_KEY_COUNT 0
    pointers := List.replicate DIR_PTR_COUNT NULL_IDX }

/-- The bounded binary-search loop inside `find_pointer_idx`. -/
def fpiAux (keys : List Nat) (key : Nat) (start e : Nat) : Nat :=
  if h : start < e - 1 then
    let mid := (e - start) / 2 + start
    if key < keys.getD mid 0 then fpiAux keys key start mid
    else if start = mid ∧ key < keys.getD (mid + 1) 0 then mid
    else fpiAux keys key mid e
  else start + 1
termination_by e - start
decreasing_by
  · have hd : (e - start) / 2 < e - start := Nat.div_lt_self (by omega) (by omega)
    omega
  · have hd : 1 ≤ (e - start) / 2 := (Nat.le_div_iff_mul_le (by omega)).mpr (by omega)
    omega

/-- `DirectoryPage::find_pointer_idx`. -/
def find_pointer_idx (d : DirectoryPage) (key : Nat) : Nat :=
  if d.count = 0 ∨ key < d.keys.getD 0 0 then 0
  else fpiAux d.keys key 0 d.count

/-- `DirectoryPage::find_pointer`. -/
def find_pointer (d : DirectoryPage) (key : Nat) : Nat :=
  d.pointers.getD (d.find_pointer_idx key) 0

/-- `DirectoryPage::is_full`. -/
def is_full (d : DirectoryPage) : Bool := d.count ≥ DIR_KEY_COUNT

/-- `DirectoryPage::is_underfull`. -/
def is_underfull (d : DirectoryPage) : Bool := d.count < DIR_KEY_COUNT / 2 - 1

/-- `DirectoryPage::can_allow_stolen_key`. -/
def can_allow_stolen_key (d : DirectoryPage) : Bool := d.count > DIR_KEY_COUNT / 2

/-- `DirectoryPage::split_at_ptr`: insert `(split_key, new_ptr)` after the
existing pointer `split_ptr`.  `none` covers both the `PageIsFullError`
and the source's `assert!(self.pointers[idx] == split_ptr)`. -/
def split_at_ptr (d : DirectoryPage) (split_ptr split_key new_ptr : Nat) :
    Option DirectoryPage :=
  if d.is_full then none
  else
    let idx := d.find_pointer_idx split_key
    if d.pointers.getD idx 0 = split_ptr then
      let keys' := if idx < d.count then copyWithin d.keys idx (d.count - idx) (idx + 1) else d.keys
      let ptrs' := if idx < d.count then copyWithin d.pointers (idx + 1) (d.count - idx) (idx + 2) else d.pointers
      some { count := d.count + 1
             keys := keys'.set idx split_key
             pointers := ptrs'.set (idx + 1) new_ptr }
    else none

/-- `DirectoryPage::split_page`: result is `(separator, self, new_page)`. -/
def split_page (d : DirectoryPage) : Nat × DirectoryPage × DirectoryPage :=
  let my_size := DIR_KEY_COUNT / 2
  let new_size := DIR_KEY_COUNT - my_size - 1
  let newPage : DirectoryPage :=
    { count := new_size
      keys := setRange (List.replicate DIR_KEY_COUNT 0) 0
        ((d.keys.drop (my_size + 1)).take (DIR_KEY_COUNT - (my_size + 1)))
      pointers := setRange (List.replicate DIR_PTR_COUNT NULL_IDX) 0
        ((d.pointers.drop (my_size + 1)).take (DIR_PTR_COUNT - (my_size + 1))) }
  let self' : DirectoryPage :=
    { count := my_size
      keys := d.keys.take (my_size + 1) ++ List.replicate (DIR_KEY_COUNT - (my_size + 1)) 0
      pointers := d.pointers.take (my_size + 1) ++
        List.replicate (DIR_PTR_COUNT - (my_size + 1)) NULL_IDX }
  (d.keys.getD my_size 0, self', newPage)

/-- `DirectoryPage::delete_idx`: remove pointer `idx` and key `idx-1`
(the source `assert!(idx > 0)` is the `none` case). -/
def delete_idx (d : DirectoryPage) (idx : Nat) : Option DirectoryPage :=
  if idx > 0 then
    some { count := d.count - 1
           keys := (copyWithin d.keys idx (d.count - idx) (idx - 1)).set (d.count - 1) 0
           pointers := (copyWithin d.pointers (idx + 1) (d.count - idx) idx).set d.count NULL_IDX }
  else none

/-- `DirectoryPage::steal_high_from` (called on the right sibling):
result is `(new_parent_key, self, other)`. -/
def steal_high_from (d other : DirectoryPage) (parent_key : Nat) :
    Option (Nat × DirectoryPage × DirectoryPage) :=
  if d.count < DIR_KEY_COUNT ∧ other.count > 0 then
    let self' : DirectoryPage :=
      { count := d.count + 1
        keys := (copyWithin d.keys 0 d.count 1).set 0 parent_key
        pointers := (copyWithin d.pointers 0 (d.count + 1) 1).set 0
          (other.pointers.getD other.count 0) }
    let ret := other.keys.getD (other.count - 1) 0
    let other' : DirectoryPage :=
      { count := other.count - 1
        keys := other.keys.set (other.count - 1) 0
        pointers := other.pointers.set other.count NULL_IDX }
    some (ret, self', other')
  else none

/-- `DirectoryPage::steal_low_from` (called on the left sibling):
result is `(new_parent_key, self, other)`. -/
def steal_low_from (d other : DirectoryPage) (parent_key : Nat) :
    Option (Nat × DirectoryPage × DirectoryPage) :=
  if d.count < DIR_KEY_COUNT ∧ other.count > 0 then
    let ret := other.keys.getD 0 0
    let self' : DirectoryPage :=
      { count := d.count + 1
        keys := d.keys.set d.count parent_key
        pointers := d.pointers.set (d.count + 1) (other.pointers.getD 0 0) }
    let other' : DirectoryPage :=
      { count := other.count - 1
        keys := (copyWithin other.keys 1 (other.count - 1) 0).set (other.count - 1) 0
        pointers := (copyWithin other.pointers 1 other.count 0).set other.count NULL_IDX }
    some (ret, self', other')
  else none

/-- `DirectoryPage::merge_with`: append `parent_key` and the right
sibling's keys/pointers. -/
def merge_with (d other : DirectoryPage) (parent_key : Nat) :
    Option DirectoryPage :=
  if d.count + other.count ≤ DIR_KEY_COUNT then
    some { count := d.count + other.count + 1
           keys := setRange (d.keys.set d.count parent_key) (d.count + 1)
             (other.keys.take other.count)
           pointers := setRange d.pointers (d.count + 1)
             (other.pointers.take (other.count + 1)) }
  else none

end DirectoryPage

/-! ## Metadata and free pages -/

/-- `MetadataPage` (`page/metadata_page.rs`). -/
structure MetadataPage where
  next_free_page : Nat
  root_page : Nat
  data_head : Nat
  data_tail : Nat
  pages_allocated : Nat
  depth : Nat
deriving DecidableEq, Repr

/-- `FreePage` (`page/free_page.rs`). -/
structure FreePage where
  next_free_page : Nat
deriving DecidableEq, Repr

/-- A disk page; the constructor plays the role of the on-disk type tag. -/
inductive Page where
  | meta (m : MetadataPage)
  | dir (d : DirectoryPage)
  | leaf (l : LeafPage)
  | free (f : FreePage)
deriving DecidableEq, Repr

/-- The page decoded from all-zero bytes (type tag 0 = metadata, all
fields zero); this is what reading an unwritten page slot yields. -/
def zeroPage : Page := .meta ⟨0, 0, 0, 0, 0, 0⟩

/-! ## The tree engine (`bplus_tree.rs`) -/

/-- `BPlusTree`: the backing file (as a list of pages) plus the cached
in-memory metadata page. -/
structure Tree where
  disk : List Page
  meta : MetadataPage
deriving DecidableEq, Repr

/-- Write a page at index `ptr` of the file: overwrite in range, extend
the file otherwise (a seek past the end zero-fills the gap). -/
def writePage (d : List Page) (ptr : Nat) (p : Page) : List Page :=
  if ptr < d.length then d.set ptr p
  else d ++ List.replicate (ptr - d.length) zeroPage ++ [p]

/-- Read the raw page at index `ptr` (past-the-end reads decode as zero
bytes). -/
def readPage (d : List Page) (ptr : Nat) : Page := d.getD ptr zeroPage

/-- `get_page::<LeafPage>`: `none` models the decode/tag-check failure. -/
def getLeaf (d : List Page) (ptr : Nat) : Option LeafPage :=
  match readPage d ptr with
  | .leaf l => some l
  | _ => none

/-- `get_page::<DirectoryPage>`. -/
def getDir (d : List Page) (ptr : Nat) : Option DirectoryPage :=
  match readPage d ptr with
  | .dir p => some p
  | _ => none

/-- `get_page::<FreePage>`. -/
def getFree (d : List Page) (ptr : Nat) : Option FreePage :=
  match readPage d ptr with
  | .free f => some f
  | _ => none

/-- `BPlusTree::put_page`. -/
def Tree.put_page (t : Tree) (ptr : Nat) (p : Page) : Tree :=
  { t with disk := writePage t.disk ptr p }

/-- `BPlusTree::put_meta`. -/
def Tree.put_meta (t : Tree) : Tree :=
  t.put_page METADATA_IDX (.meta t.meta)

/-- `BPlusTree::alloc_page`: pop the free-list head, or extend the file;
the metadata page is persisted, then the payload is written. -/
def Tree.alloc_page (t : Tree) (page : Page) : Option (Nat × Tree) :=
  if t.meta.next_free_page = NULL_IDX then
    let ptr := t.meta.pages_allocated
    let t1 : Tree := { t with meta := { t.meta with pages_allocated := t.meta.pages_allocated + 1 } }
    some (ptr, (t1.put_meta).put_page ptr page)
  else
    let ptr := t.meta.next_free_page
    match getFree t.disk ptr with
    | none => none
    | some free =>
      let t1 : Tree := { t with meta := { t.meta with next_free_page := free.next_free_page } }
      some (ptr, (t1.put_meta).put_page ptr page)

/-- `BPlusTree::free_page`: write a `FreePage` linking to the old head,
then persist the metadata with `ptr` as the new head. -/
def Tree.free_page (t : Tree) (ptr : Nat) : Tree :=
  let t1 := t.put_page ptr (.free ⟨t.meta.next_free_page⟩)
  let t2 : Tree := { t1 with meta := { t1.meta with next_free_page := ptr } }
  t2.put_meta

/-- The ordered trace of page writes `(index, page)` issued by one
`alloc_page` call (same code as `Tree.alloc_page`, recording each
`put_meta`/`put_page` in program order). -/
def Tree.alloc_page_writes (t : Tree) (page : Page) : Option (List (Nat × Page)) :=
  if t.meta.next_free_page = NULL_IDX then
    let ptr := t.meta.pages_allocated
    let m1 : MetadataPage := { t.meta with pages_allocated := t.meta.pages_allocated + 1 }
    some [(METADATA_IDX, .meta m1), (ptr, page)]
  else
    let ptr := t.meta.next_free_page
    match getFree t.disk ptr with
    | none => none
    | some free =>
      let m1 : MetadataPage := { t.meta with next_free_page := free.next_free_page }
      some [(METADATA_IDX, .meta m1), (ptr, page)]

/-- The ordered trace of page writes issued by one `free_page` call. -/
def Tree.free_page_writes (t : Tree) (ptr : Nat) : List (Nat × Page) :=
  [(ptr, .free ⟨t.meta.next_free_page⟩),
   (METADATA_IDX, .meta { t.meta with next_free_page := ptr })]

/-- The descent loop of `BPlusTree::find_page` (`n` remaining levels). -/
def findPageAux (disk : List Page) (key : Nat) (curr : Nat) : Nat → Option (List Nat)
  | 0 => some [curr]
  | n + 1 =>
    match getDir disk curr with
    | none => none
    | some dir => (findPageAux disk key (dir.find_pointer key) n).map (curr :: ·)

/-- `BPlusTree::find_page`: the root-to-leaf path for `key`. -/
def Tree.find_page (t : Tree) (key : Nat) : Option (List Nat) :=
  findPageAux t.disk key t.meta.root_page t.meta.depth

/-- `BPlusTree::get`. -/
def Tree.get (t : Tree) (key : Nat) : Option (Option Nat) :=
  match t.find_page key with
  | none => none
  | some v =>
    match getLeaf t.disk (v.getD (v.length - 1) 0) with
    | none => none
    | some page => some (page.find_value key)

/-- `BPlusTree::iter`: the iterator state is the current leaf page and
the index of the next record in it. -/
def Tree.iter (t : Tree) : Option (LeafPage × Nat) :=
  (getLeaf t.disk t.meta.data_head).map (fun l => (l, 0))

/-- `BPlusTreeIterator::next`.  The skip-empty-pages loop is bounded by
`fuel` (outer `none` = fatal: either the `expect` on a failed page read,
or fuel exhaustion on a cyclic chain, where the Rust loop diverges);
`some none` is the iterator reporting the end of the data. -/
def iterNext (disk : List Page) : Nat → LeafPage → Nat →
    Option (Option ((Nat × Nat) × LeafPage × Nat))
  | fuel, page, idx =>
    if idx ≥ page.count then
      if page.next = NULL_IDX then some none
      else
        match fuel with
        | 0 => none
        | fuel + 1 =>
          match getLeaf disk page.next with
          | none => none
          | some np => iterNext disk fuel np 0
    else some (some (page.get idx, page, idx + 1))

/-! ### Insertion (`put` and the split cascade) -/

mutual

/-- `BPlusTree::split_dir_entry`: insert `(split_key, new_child_ptr)`
into the parent directory of the page at the top of `ptr_stack`,
splitting the parent first if it is full.  `none` models panics
(stack underflow), tag mismatches, and the source asserts. -/
def Tree.split_dir_entry (t : Tree) (ptr_stack : List Nat)
    (split_key new_child_ptr : Nat) : Option Tree :=
  if ptr_stack.length < 2 then none
  else
    let child_ptr := ptr_stack.getD (ptr_stack.length - 1) 0
    let dir_ptr := ptr_stack.getD (ptr_stack.length - 2) 0
    match getDir t.disk dir_ptr with
    | none => none
    | some dir_page =>
      if dir_page.is_full then
        match t.split_dir dir_page (ptr_stack.take (ptr_stack.length - 1)) with
        | none => none
        | some (parent_split_key, new_dir_ptr, new_dir_page, dir_page', t1) =>
          if dir_page'.is_full ∨ new_dir_page.is_full then none
          else if split_key < parent_split_key then
            match dir_page'.split_at_ptr child_ptr split_key new_child_ptr with
            | none => none
            | some d' => some (t1.put_page dir_ptr (.dir d'))
          else
            match new_dir_page.split_at_ptr child_ptr split_key new_child_ptr with
            | none => none
            | some d' => some (t1.put_page new_dir_ptr (.dir d'))
      else
        match dir_page.split_at_ptr child_ptr split_key new_child_ptr with
        | none => none
        | some d' => some (t.put_page dir_ptr (.dir d'))
termination_by 2 * ptr_stack.length

/-- `BPlusTree::split_dir`: split the directory at the top of
`ptr_stack` in half; if it is the root, grow a new root, otherwise
insert the separator into the parent.  Result is
`(split_key, new_dir_ptr, new_dir_page, updated_self, tree)` (the Rust
function mutates `dir` in place and the caller keeps using it). -/
def Tree.split_dir (t : Tree) (dir : DirectoryPage) (ptr_stack : List Nat) :
    Option (Nat × Nat × DirectoryPage × DirectoryPage × Tree) :=
  if ptr_stack.length < 1 then none
  else
    let dir_ptr := ptr_stack.getD (ptr_stack.length - 1) 0
    if ptr_stack.length ≤ 1 then
      let (split_key, self', new_dir_page) := dir.split_page
      match t.alloc_page (.dir new_dir_page) with
      | none => none
      | some (new_dir_ptr, t1) =>
        let t2 := t1.put_page dir_ptr (.dir self')
        let new_root : DirectoryPage :=
          { count := 1
            keys := DirectoryPage.init.keys.set 0 split_key
            pointers := (DirectoryPage.init.pointers.set 0 dir_ptr).set 1 new_dir_ptr }
        match t2.alloc_page (.dir new_root) with
        | none => none
        | some (new_root_ptr, t3) =>
          let t4 : Tree :=
            { t3 with meta := { t3.meta with root_page := new_root_ptr, depth := t3.meta.depth + 1 } }
          some (split_key, new_dir_ptr, new_dir_page, self', t4.put_meta)
    else
      let (split_key, self', new_dir_page) := dir.split_page
      match t.alloc_page (.dir new_dir_page) with
      | none => none
      | some (new_dir_ptr, t1) =>
        let t2 := t1.put_page dir_ptr (.dir self')
        match t2.split_dir_entry ptr_stack split_key new_dir_ptr with
        | none => none
        | some t3 => some (split_key, new_dir_ptr, new_dir_page, self', t3)
termination_by 2 * ptr_stack.length + 1

end

/-- `BPlusTree::split_leaf`: split a full leaf, fix the doubly-linked
chain (and `data_tail`), write both halves, and push the separator into
the parent.  Result is `(split_key, new_leaf_ptr, new_leaf, updated_self, tree)`. -/
def Tree.split_leaf (t : Tree) (leaf : LeafPage) (ptr_stack : List Nat) :
    Option (Nat × Nat × LeafPage × LeafPage × Tree) :=
  if ¬ leaf.is_full then none
  else if ptr_stack.length < 1 then none
  else
    let leaf_ptr := ptr_stack.getD (ptr_stack.length - 1) 0
    let (self1, new0) := leaf.split
    let split_key := (new0.get 0).1
    let new1 : LeafPage := { new0 with prev := leaf_ptr, next := self1.next }
    match t.alloc_page (.leaf new1) with
    | none => none
    | some (new_leaf_ptr, t1) =>
      let step2 : Option Tree :=
        if new1.next = NULL_IDX then
          some (Tree.put_meta { t1 with meta := { t1.meta with data_tail := new_leaf_ptr } })
        else
          match getLeaf t1.disk new1.next with
          | none => none
          | some old_next => some (t1.put_page new1.next (.leaf { old_next with prev := new_leaf_ptr }))
      match step2 with
      | none => none
      | some t2 =>
        let self2 : LeafPage := { self1 with next := new_leaf_ptr }
        let t3 := t2.put_page leaf_ptr (.leaf self2)
        match t3.split_dir_entry ptr_stack split_key new_leaf_ptr with
        | none => none
        | some t4 => some (split_key, new_leaf_ptr, new1, self2, t4)

/-- `BPlusTree::put`. -/
def Tree.put (t : Tree) (key value : Nat) : Option Tree :=
  match t.find_page key with
  | none => none
  | some ptr_stack =>
    let leaf_ptr := ptr_stack.getD (ptr_stack.length - 1) 0
    match getLeaf t.disk leaf_ptr with
    | none => none
    | some leaf =>
      if leaf.is_full then
        match t.split_leaf leaf ptr_stack with
        | none => none
        | some (split_key, new_leaf_ptr, new_leaf, leaf', t') =>
          if leaf'.is_full ∨ new_leaf.is_full then none
          else if key < split_key then
            match leaf'.put key value with
            | none => none
            | some leaf'' => some (t'.put_page leaf_ptr (.leaf leaf''))
          else
            match new_leaf.put key value with
            | none => none
            | some nl' => some (t'.put_page new_leaf_ptr (.leaf nl'))
      else
        match leaf.put key value with
        | none => none
        | some leaf' => some (t.put_page leaf_ptr (.leaf leaf'))

/-! ### Deletion (`delete` and the merge cascade) -/

/-- `BPlusTree::merge_dir_page`: rebalance the directory at the top of
`ptr_stack` after it became underfull — collapse the root, or
borrow from / merge with an adjacent sibling directory and recurse. -/
def Tree.merge_dir_page (t : Tree) (ptr_stack : List Nat) (key : Nat) : Option Tree :=
  if ptr_stack.length < 1 then none
  else
    let dir_ptr := ptr_stack.getD (ptr_stack.length - 1) 0
    match getDir t.disk dir_ptr with
    | none => none
    | some dir_page =>
      if ptr_stack.length ≤ 1 then
        if dir_page.count ≥ 1 then some t
        else if t.meta.depth = 1 then some t
        else
          let t1 := Tree.put_meta
            { t with meta := { t.meta with
                root_page := dir_page.pointers.getD 0 0
                depth := t.meta.depth - 1 } }
          some (t1.free_page (ptr_stack.getD 0 0))
      else
        let parent_ptr := ptr_stack.getD (ptr_stack.length - 2) 0
        match getDir t.disk parent_ptr with
        | none => none
        | some parent_page =>
          let dir_idx := parent_page.find_pointer_idx key
          if dir_idx > 0 then
            let sibling_ptr := parent_page.pointers.getD (dir_idx - 1) 0
            match getDir t.disk sibling_ptr with
            | none => none
            | some sibling_page =>
              if sibling_page.can_allow_stolen_key then
                match dir_page.steal_high_from sibling_page (parent_page.keys.getD (dir_idx - 1) 0) with
                | none => none
                | some (new_parent_key, dir', sib') =>
                  let parent' : DirectoryPage :=
                    { parent_page with keys := parent_page.keys.set (dir_idx - 1) new_parent_key }
                  some (((t.put_page dir_ptr (.dir dir')).put_page sibling_ptr
                    (.dir sib')).put_page parent_ptr (.dir parent'))
              else
                -- sibling_is_low = true: merge into the left sibling
                if sibling_ptr = NULL_IDX then none
                else
                  match sibling_page.merge_with dir_page (parent_page.keys.getD (dir_idx - 1) 0) with
                  | none => none
                  | some sib' =>
                    match parent_page.delete_idx dir_idx with
                    | none => none
                    | some parent' =>
                      let t1 := t.free_page dir_ptr
                      let t2 := (t1.put_page sibling_ptr (.dir sib')).put_page parent_ptr (.dir parent')
                      if parent'.is_underfull then
                        t2.merge_dir_page (ptr_stack.take (ptr_stack.length - 1)) key
                      else some t2
          else
            let sibling_ptr := parent_page.pointers.getD (dir_idx + 1) 0
            match getDir t.disk sibling_ptr with
            | none => none
            | some sibling_page =>
              if sibling_page.can_allow_stolen_key then
                match dir_page.steal_low_from sibling_page (parent_page.keys.getD dir_idx 0) with
                | none => none
                | some (new_parent_key, dir', sib') =>
                  let parent' : DirectoryPage :=
                    { parent_page with keys := parent_page.keys.set dir_idx new_parent_key }
                  some (((t.put_page dir_ptr (.dir dir')).put_page sibling_ptr
                    (.dir sib')).put_page parent_ptr (.dir parent'))
              else
                -- sibling_is_low = false: absorb the right sibling
                if sibling_ptr = NULL_IDX then none
                else
                  match dir_page.merge_with sibling_page (parent_page.keys.getD dir_idx 0) with
                  | none => none
                  | some dir' =>
                    match parent_page.delete_idx (dir_idx + 1) with
                    | none => none
                    | some parent' =>
                      let t1 := t.free_page sibling_ptr
                      let t2 := (t1.put_page dir_ptr (.dir dir')).put_page parent_ptr (.dir parent')
                      if parent'.is_underfull then
                        t2.merge_dir_page (ptr_stack.take (ptr_stack.length - 1)) key
                      else some t2
termination_by ptr_stack.length
decreasing_by
  · simp only [List.length_take]; omega
  · simp only [List.length_take]; omega

/-- `BPlusTree::delete`. -/
def Tree.delete (t : Tree) (key : Nat) : Option Tree :=
  match t.find_page key with
  | none => none
  | some ptr_stack =>
    let leaf_ptr := ptr_stack.getD (ptr_stack.length - 1) 0
    match getLeaf t.disk leaf_ptr with
    | none => none
    | some leaf_page0 =>
      let (deleted, leaf_page) := leaf_page0.delete key
      if ¬ deleted then some t
      else if ¬ leaf_page.is_underfull then some (t.put_page leaf_ptr (.leaf leaf_page))
      else if ptr_stack.length < 2 then none
      else
        let dir_ptr := ptr_stack.getD (ptr_stack.length - 2) 0
        match getDir t.disk dir_ptr with
        | none => none
        | some dir_page =>
          let dir_idx := dir_page.find_pointer_idx key
          if dir_idx > 0 then
            let prev_leaf_ptr := leaf_page.prev
            match getLeaf t.disk prev_leaf_ptr with
            | none => none
            | some prev_leaf_page =>
              if prev_leaf_page.can_allow_stolen_key then
                match prev_leaf_page.steal_high with
                | none => none
                | some ((k, v), prev') =>
                  match leaf_page.put k v with
                  | none => none
                  | some leaf' =>
                    let dir' : DirectoryPage :=
                      { dir_page with keys := dir_page.keys.set (dir_idx - 1) k }
                    some (((t.put_page leaf_ptr (.leaf leaf')).put_page prev_leaf_ptr
                      (.leaf prev')).put_page dir_ptr (.dir dir'))
              else
                -- merge_is_low = true: fold this leaf into its predecessor
                match prev_leaf_page.merge_with leaf_page with
                | none => none
                | some m1 =>
                  let merge_page : LeafPage := { m1 with next := leaf_page.next }
                  let step : Option Tree :=
                    if merge_page.next = NULL_IDX then
                      some (Tree.put_meta { t with meta := { t.meta with data_tail := prev_leaf_ptr } })
                    else
                      match getLeaf t.disk merge_page.next with
                      | none => none
                      | some temp =>
                        some (t.put_page merge_page.next (.leaf { temp with prev := prev_leaf_ptr }))
                  match step with
                  | none => none
                  | some t1 =>
                    match dir_page.delete_idx dir_idx with
                    | none => none
                    | some dir' =>
                      let t2 := t1.free_page leaf_ptr
                      let t3 := (t2.put_page prev_leaf_ptr (.leaf merge_page)).put_page dir_ptr (.dir dir')
                      if dir'.is_underfull then
                        t3.merge_dir_page (ptr_stack.take (ptr_stack.length - 1)) key
                      else some t3
          else if dir_idx < dir_page.count then
            let next_leaf_ptr := dir_page.pointers.getD (dir_idx + 1) 0
            match getLeaf t.disk next_leaf_ptr with
            | none => none
            | some next_leaf_page =>
              if next_leaf_page.can_allow_stolen_key then
                match next_leaf_page.steal_low with
                | none => none
                | some ((k, v), next') =>
                  match leaf_page.put k v with
                  | none => none
                  | some leaf' =>
                    let dir' : DirectoryPage :=
                      { dir_page with keys := dir_page.keys.set dir_idx (next'.get 0).1 }
                    some (((t.put_page leaf_ptr (.leaf leaf')).put_page next_leaf_ptr
                      (.leaf next')).put_page dir_ptr (.dir dir'))
              else
                -- merge_is_low = false: absorb the successor leaf
                match leaf_page.merge_with next_leaf_page with
                | none => none
                | some m1 =>
                  let leaf2 : LeafPage := { m1 with next := next_leaf_page.next }
                  let step : Option Tree :=
                    if leaf2.next = NULL_IDX then
                      some (Tree.put_meta { t with meta := { t.meta with data_tail := leaf_ptr } })
                    else
                      match getLeaf t.disk leaf2.next with
                      | none => none
                      | some temp =>
                        some (t.put_page leaf2.next (.leaf { temp with prev := leaf_ptr }))
                  match step with
                  | none => none
                  | some t1 =>
                    match dir_page.delete_idx (dir_idx + 1) with
                    | none => none
                    | some dir' =>
                      let t2 := t1.free_page next_leaf_ptr
                      let t3 := (t2.put_page leaf_ptr (.leaf leaf2)).put_page dir_ptr (.dir dir')
                      if dir'.is_underfull then
                        t3.merge_dir_page (ptr_stack.take (ptr_stack.length - 1)) key
                      else some t3
          else
            -- only one leaf page: just flush the shrunken leaf
            some (t.put_page leaf_ptr (.leaf leaf_page))

/-! ### The consistency checker (`check_tree`) -/

/-- The violations `check_tree` can report (one constructor per
`format!` arm of the source, carrying the formatted data). -/
inductive CheckError where
  | invalidRoot (ptr : Nat)
  | invalidPointer (ptr parent : Nat)
  | underfullDir (ptr : Nat)
  | emptyRoot (ptr : Nat)
  | keyBelow (k lo ptr : Nat)
  | keyAtOrAbove (k hi ptr : Nat)
  | underfullLeaf (ptr : Nat)
  | nextMismatch (expected ptr : Nat)
  | prevMismatch (expected ptr : Nat)
  | lastNotNull (last next : Nat)
  | tailMismatch (tail last : Nat)
deriving DecidableEq, Repr

/-- The per-page key-interval scan of `check_tree` (first violation, in
order; the lower-bound test of each key precedes its upper-bound test). -/
def checkKeys (low high ptr : Nat) : List Nat → Option CheckError
  | [] => none
  | k :: rest =>
    if k < low then some (.keyBelow k low ptr)
    else if k ≥ high then some (.keyAtOrAbove k high ptr)
    else checkKeys low high ptr rest

/-- A saved frame of `check_tree`'s explicit stack:
`(page pointer, child index, low, high)`.  The most recently pushed
frame is the list head. -/
abbrev CheckFrame := Nat × Nat × Nat × Nat

/-- The descend phase of `check_tree`'s outer loop: push frames and
follow child pointers until the stack holds `depth` frames.  `n` is the
number of levels still to descend.  `.error e` is a reported violation,
`.ok` the state at the leaf; the outer `none` is a fatal error. -/
def checkDescend (disk : List Page) (pa depth : Nat) :
    Nat → List CheckFrame → Nat → Nat → Nat → Nat →
    Option (Except CheckError (List CheckFrame × Nat × Nat × Nat))
  | 0, stack, curr_ptr, _curr_idx, low, high =>
    some (.ok (stack, curr_ptr, low, high))
  | n + 1, stack, curr_ptr, curr_idx, low, high =>
    let stack' := (curr_ptr, curr_idx, low, high) :: stack
    if curr_ptr ≥ pa then
      some (.error (if stack'.isEmpty then .invalidRoot curr_ptr
        else .invalidPointer curr_ptr (stack'.headD (0, 0, 0, 0)).1))
    else
      match getDir disk curr_ptr with
      | none => none
      | some dir =>
        let structural : Option CheckError :=
          if stack'.length > 1 then
            if dir.is_underfull then some (.underfullDir curr_ptr) else none
          else
            if dir.count = 0 ∧ depth > 1 then some (.emptyRoot curr_ptr) else none
        match structural with
        | some e => some (.error e)
        | none =>
          match checkKeys low high curr_ptr (dir.keys.take dir.count) with
          | some e => some (.error e)
          | none =>
            checkDescend disk pa depth n stack' (dir.pointers.getD curr_idx 0) 0
              (if curr_idx > 0 then dir.keys.getD (curr_idx - 1) 0 else low)
              (if dir.count > 0 ∧ curr_idx < dir.count - 1 then dir.keys.getD curr_idx 0 else high)

/-- The ascend phase: pop frames while the child index has exhausted the
directory's pointers.  `.error r` is a terminal answer of the whole
check (`r = none` means success), `.ok` the state to resume from. -/
def checkAscend (disk : List Page) (pa data_tail last_data next_data : Nat) :
    List CheckFrame → Nat → Nat → Nat → Nat → DirectoryPage →
    Option (Except (Option CheckError) (List CheckFrame × Nat × Nat × Nat × Nat))
  | stack, curr_ptr, curr_idx, low, high, dir =>
    if curr_idx ≥ dir.count then
      match stack with
      | [] =>
        if next_data ≠ 0 then some (.error (some (.lastNotNull last_data next_data)))
        else if last_data ≠ data_tail then some (.error (some (.tailMismatch data_tail last_data)))
        else some (.error none)
      | (p, i, lo, hi) :: rest =>
        if p ≥ pa then
          some (.error (some (if rest.isEmpty then .invalidRoot p
            else .invalidPointer p (rest.headD (0, 0, 0, 0)).1)))
        else
          match getDir disk p with
          | none => none
          | some d2 => checkAscend disk pa data_tail last_data next_data rest p i lo hi d2
    else some (.ok (stack, curr_ptr, curr_idx, low, high))

/-- One full iteration of `check_tree`'s outer loop per unit of `fuel`:
descend to a leaf, check it, ascend, advance.  `none` models both fatal
errors and fuel exhaustion (the Rust loop can only fail to terminate on
a disk it would anyway report as corrupt or loop over forever). -/
def checkLoop (disk : List Page) (pa depth data_tail : Nat) :
    Nat → List CheckFrame → Nat → Nat → Nat → Nat → Nat → Nat →
    Option (Option CheckError)
  | 0, _, _, _, _, _, _, _ => none
  | fuel + 1, stack, curr_ptr, curr_idx, low, high, last_data, next_data =>
    match checkDescend disk pa depth (depth - stack.length) stack curr_ptr curr_idx low high with
    | none => none
    | some (.error e) => some (some e)
    | some (.ok (stack1, leaf_ptr, low1, high1)) =>
      -- sanity check the current leaf page
      if leaf_ptr ≥ pa then
        some (some (if stack1.isEmpty then .invalidRoot leaf_ptr
          else .invalidPointer leaf_ptr (stack1.headD (0, 0, 0, 0)).1))
      else
        match getLeaf disk leaf_ptr with
        | none => none
        | some leaf =>
          if leaf.is_underfull ∧ depth > 1 then some (some (.underfullLeaf leaf_ptr))
          else
            match checkKeys low1 high1 leaf_ptr (leaf.live.map Prod.fst) with
            | some e => some (some e)
            | none =>
              if next_data ≠ leaf_ptr then some (some (.nextMismatch next_data leaf_ptr))
              else if last_data ≠ leaf.prev then some (some (.prevMismatch last_data leaf_ptr))
              else
                let next_data' := leaf.next
                let last_data' := leaf_ptr
                -- ascend until we have a 'next'
                match stack1 with
                | [] => none   -- dir_stack.pop().unwrap() panics
                | (p, i, lo, hi) :: rest =>
                  if p ≥ pa then
                    some (some (if rest.isEmpty then .invalidRoot p
                      else .invalidPointer p (rest.headD (0, 0, 0, 0)).1))
                  else
                    match getDir disk p with
                    | none => none
                    | some d =>
                      match checkAscend disk pa data_tail last_data' next_data' rest p i lo hi d with
                      | none => none
                      | some (.error r) => some r
                      | some (.ok (stack2, p2, i2, lo2, hi2)) =>
                        checkLoop disk pa depth data_tail fuel stack2 p2 (i2 + 1) lo2 hi2
                          last_data' next_data'

/-- The largest directory `count` stored anywhere on the disk. -/
def maxDirCount (d : List Page) : Nat :=
  d.foldr (fun p acc => match p with | .dir dp => max dp.count acc | _ => acc) 0

/-- Fuel bound for `check_tree`: the outer loop visits one leaf position
per iteration, and the positions are strictly increasing in the
lexicographic odometer over at most `depth` child indices, each below
`maxDirCount + 2`; this quantity therefore bounds the iteration count. -/
def checkFuel (t : Tree) : Nat := (maxDirCount t.disk + 2) ^ t.meta.depth + 1

/-- `BPlusTree::check_tree`: `some none` is a clean bill of health,
`some (some e)` the first violation found, `none` a fatal error. -/
def Tree.check_tree (t : Tree) : Option (Option CheckError) :=
  checkLoop t.disk t.meta.pages_allocated t.meta.depth t.meta.data_tail
    (checkFuel t) [] t.meta.root_page 0 0 U32_MAX 0 t.meta.data_head

/-! ### Initialization (`BPlusTree::init`) -/

/-- The tree produced by `BPlusTree::init`: metadata at page 0, an empty
root directory at page 1 whose pointer 0 is page 2, an empty leaf at
page 2. -/
def initTree : Tree :=
  let meta : MetadataPage :=
    { next_free_page := NULL_IDX
      root_page := DEFAULT_ROOT_IDX
      data_head := DEFAULT_PAGE0_IDX
      data_tail := DEFAULT_PAGE0_IDX
      pages_allocated := 3
      depth := 1 }
  { disk :=
      [.meta meta,
       .dir { DirectoryPage.init with
                pointers := DirectoryPage.init.pointers.set 0 DEFAULT_PAGE0_IDX },
       .leaf LeafPage.init]
    meta := meta }

/-! ## Generic list lemmas used throughout the development -/

theorem getD_append_left {l r : List α} {i : Nat} (d : α) (h : i < l.length) :
    (l ++ r).getD i d = l.getD i d := by
  induction l generalizing i with
  | nil => simp at h
  | cons a as ih =>
    cases i with
    | zero => rfl
    | succ i => simp only [List.cons_append, List.getD_cons_succ]; exact ih (by simpa using h)

theorem getD_append_right {l r : List α} {i : Nat} (d : α) (h : l.length ≤ i) :
    (l ++ r).getD i d = r.getD (i - l.length) d := by
  induction l generalizing i with
  | nil => simp
  | cons a as ih =>
    cases i with
    | zero => simp at h
    | succ i =>
      simp only [List.cons_append, List.getD_cons_succ, List.length_cons]
      rw [ih (by simpa using h)]
      congr 1
      omega

theorem getD_take {l : List α} {i n : Nat} (d : α) (h : i < n) :
    (l.take n).getD i d = l.getD i d := by
  induction l generalizing i n with
  | nil => simp
  | cons a as ih =>
    cases n with
    | zero => omega
    | succ n =>
      cases i with
      | zero => rfl
      | succ i => simp only [List.take_succ_cons, List.getD_cons_succ]; exact ih (by omega)

theorem getD_drop {l : List α} (d : α) (n i : Nat) :
    (l.drop n).getD i d = l.getD (n + i) d := by
  induction l generalizing n with
  | nil => simp
  | cons a as ih =>
    cases n with
    | zero => simp
    | succ n => simpa [Nat.succ_add] using ih n

theorem getD_set_self {l : List α} {i : Nat} (a d : α) (h : i < l.length) :
    (l.set i a).getD i d = a := by
  induction l generalizing i with
  | nil => simp at h
  | cons b bs ih =>
    cases i with
    | zero => rfl
    | succ i => simpa using ih (by simpa using h)

theorem getD_set_ne {l : List α} {i j : Nat} (a d : α) (h : i ≠ j) :
    (l.set i a).getD j d = l.getD j d := by
  induction l generalizing i j with
  | nil => simp
  | cons b bs ih =>
    cases i with
    | zero => cases j with
      | zero => omega
      | succ j => rfl
    | succ i =>
      cases j with
      | zero => rfl
      | succ j => simpa using ih (by omega)

theorem getD_replicate (a d : α) : ∀ (n i : Nat), i < n → ((List.replicate n a).getD i d) = a := by
  intro n
  induction n with
  | zero => intro i h; omega
  | succ n ih =>
    intro i h
    cases i with
    | zero => rfl
    | succ i => simpa [List.replicate_succ] using ih i (by omega)

theorem getD_oob {l : List α} {i : Nat} (d : α) (h : l.length ≤ i) :
    l.getD i d = d := by
  induction l generalizing i with
  | nil => simp
  | cons a as ih =>
    cases i with
    | zero => simp at h
    | succ i => simpa using ih (by simpa using h)

theorem take_set_last {l : List α} {n : Nat} (x : α) (h : n < l.length) :
    (l.take (n + 1)).set n x = l.take n ++ [x] := by
  induction l generalizing n with
  | nil => simp at h
  | cons a as ih =>
    cases n with
    | zero => simp
    | succ n =>
      simp only [List.take_succ_cons, List.set_cons_succ, List.cons_append]
      rw [ih (by simpa using h)]

theorem drop_of_take {l : List α} (m n : Nat) :
    (l.take n).drop m = (l.drop m).take (n - m) := by
  induction l generalizing m n with
  | nil => simp
  | cons a as ih =>
    cases n with
    | zero => simp
    | succ n =>
      cases m with
      | zero => simp
      | succ m => simpa using ih m n

theorem take_append_len {l r : List α} {n : Nat} (h : l.length = n) :
    (l ++ r).take n = l := by
  subst h; exact List.take_left l r

theorem take_append_add {l r : List α} (k : Nat) :
    (l ++ r).take (l.length + k) = l ++ r.take k := by
  induction l with
  | nil => simp
  | cons a as ih => simpa [Nat.succ_add] using ih

/-! ### takeWhile positional lemmas -/

theorem takeWhile_length_le (P : α → Bool) (xs : List α) :
    (xs.takeWhile P).length ≤ xs.length := by
  induction xs with
  | nil => simp
  | cons a as ih =>
    by_cases h : P a
    · simpa [List.takeWhile_cons, h] using ih
    · simp [List.takeWhile_cons, h]

theorem takeWhile_prop_at (P : α → Bool) (xs : List α) (d : α) :
    ∀ i, i < (xs.takeWhile P).length → P (xs.getD i d) = true := by
  induction xs with
  | nil => simp
  | cons a as ih =>
    intro i hi
    by_cases h : P a
    · cases i with
      | zero => simpa using h
      | succ i =>
        simp only [List.takeWhile_cons, h, if_true, List.length_cons] at hi
        simpa using ih i (by omega)
    · simp [List.takeWhile_cons, h] at hi

theorem takeWhile_stop_at (P : α → Bool) (xs : List α) (d : α) :
    (xs.takeWhile P).length < xs.length → P (xs.getD (xs.takeWhile P).length d) = false := by
  induction xs with
  | nil => simp
  | cons a as ih =>
    intro hlt
    by_cases h : P a
    · simp only [List.takeWhile_cons, h, if_true, List.length_cons] at hlt ⊢
      simpa using ih (by omega)
    · simpa [List.takeWhile_cons, h] using h

theorem length_takeWhile_eq {P : α → Bool} {xs : List α} {j : Nat} (d : α) (hj : j ≤ xs.length)
    (hall : ∀ i, i < j → P (xs.getD i d) = true)
    (hstop : j < xs.length → P (xs.getD j d) = false) :
    (xs.takeWhile P).length = j := by
  induction xs generalizing j with
  | nil => simp only [List.length_nil] at hj; simp only [List.takeWhile_nil, List.length_nil]; omega
  | cons a as ih =>
    cases j with
    | zero =>
      have := hstop (by simpa using Nat.succ_pos as.length)
      simp only [List.getD_cons_zero] at this
      simp [List.takeWhile_cons, this]
    | succ j =>
      have ha : P a = true := by simpa using hall 0 (Nat.succ_pos j)
      simp only [List.takeWhile_cons, ha, if_true, List.length_cons]
      rw [ih (by simpa using hj) (fun i hi => by simpa using hall (i + 1) (by omega))
        (fun h => by simpa using hstop (by simpa using h))]

/-! ## Characterization of `LeafPage.find_index` -/

theorem findIndexAux_ok (key : Nat) : ∀ (xs : List (Nat × Nat)) (i n : Nat),
    (∀ m, m < n → (xs.getD m (0, 0)).1 < key) → n < xs.length →
    (xs.getD n (0, 0)).1 = key →
    LeafPage.findIndexAux key xs i = .ok (i + n) := by
  intro xs
  induction xs with
  | nil => intro i n _ hn _; simp at hn
  | cons p rest ih =>
    intro i n hall hn heq
    cases n with
    | zero =>
      simp only [List.getD_cons_zero] at heq
      simp [LeafPage.findIndexAux, heq]
    | succ n =>
      have hp : p.1 < key := by simpa using hall 0 (by omega)
      have hstep : LeafPage.findIndexAux key (p :: rest) i = LeafPage.findIndexAux key rest (i + 1) := by
        simp [LeafPage.findIndexAux, hp]
      rw [hstep, ih (i + 1) n (fun m hm => by simpa using hall (m + 1) (by omega))
        (by simpa using hn) (by simpa using heq)]
      congr 1
      omega

theorem findIndexAux_err (key : Nat) : ∀ (xs : List (Nat × Nat)) (i n : Nat),
    (∀ m, m < n → (xs.getD m (0, 0)).1 < key) → n ≤ xs.length →
    (n < xs.length → key < (xs.getD n (0, 0)).1) →
    LeafPage.findIndexAux key xs i = .error (i + n) := by
  intro xs
  induction xs with
  | nil =>
    intro i n _ hn _
    simp only [List.length_nil, Nat.le_zero] at hn
    subst hn
    simp [LeafPage.findIndexAux]
  | cons p rest ih =>
    intro i n hall hn hstop
    cases n with
    | zero =>
      have hp : key < p.1 := by simpa using hstop (by simp)
      simp [LeafPage.findIndexAux, Nat.lt_asymm hp, Nat.ne_of_gt hp]
    | succ n =>
      have hp : p.1 < key := by simpa using hall 0 (by omega)
      have hstep : LeafPage.findIndexAux key (p :: rest) i = LeafPage.findIndexAux key rest (i + 1) := by
        simp [LeafPage.findIndexAux, hp]
      rw [hstep, ih (i + 1) n (fun m hm => by simpa using hall (m + 1) (by omega))
        (by simpa using hn) (fun h => by simpa using hstop (by simpa using h))]
      congr 1
      omega

/-- Whenever `key` does not occur among the live records, there is a
well-defined insertion position: everything before it is smaller,
everything from it on is larger.  (No sortedness needed.) -/
theorem insertion_point (l : LeafPage) (key : Nat)
    (habs : ∀ j, j < l.count → (l.key_value.getD j (0, 0)).1 ≠ key) :
    ∃ n, n ≤ l.count ∧ (∀ m, m < n → (l.key_value.getD m (0, 0)).1 < key) ∧
      (n < l.count → key < (l.key_value.getD n (0, 0)).1) := by
  by_cases h : ∃ m, m < l.count ∧ ¬ (l.key_value.getD m (0, 0)).1 < key
  · refine ⟨Nat.find h, ?_, ?_, ?_⟩
    · exact Nat.le_of_lt (Nat.find_spec h).1
    · intro m hm
      have := Nat.find_min h hm
      by_contra hcon
      exact this ⟨Nat.lt_trans hm (Nat.find_spec h).1, hcon⟩
    · intro _
      have h1 := (Nat.find_spec h).2
      have h2 := habs (Nat.find h) (Nat.find_spec h).1
      omega
  · push_neg at h
    exact ⟨l.count, Nat.le_refl _, fun m hm => h m hm, fun hlt => absurd hlt (Nat.lt_irrefl _)⟩

/-- `find_index` returns `Ok j` when `key` sits at live index `j` and
everything before `j` is smaller. -/
theorem find_index_ok (l : LeafPage) (key : Nat) {j : Nat}
    (hcl : l.count ≤ l.key_value.length) (hj : j < l.count)
    (hall : ∀ m, m < j → (l.key_value.getD m (0, 0)).1 < key)
    (heq : (l.key_value.getD j (0, 0)).1 = key) :
    l.find_index key = .ok j := by
  have hlive : ∀ m, m < l.count → ((l.key_value.take l.count).getD m (0, 0)) = l.key_value.getD m (0, 0) :=
    fun m hm => getD_take _ hm
  have := findIndexAux_ok key (l.key_value.take l.count) 0 j
    (fun m hm => by rw [hlive m (Nat.lt_trans hm hj)]; exact hall m hm)
    (by simp only [List.length_take]; omega)
    (by rw [hlive j hj]; exact heq)
  simpa [LeafPage.find_index] using this

/-- `find_index` returns `Err n` of the insertion position when `key` is
absent from the live records. -/
theorem find_index_err (l : LeafPage) (key : Nat) {n : Nat}
    (hcl : l.count ≤ l.key_value.length) (hn : n ≤ l.count)
    (hall : ∀ m, m < n → (l.key_value.getD m (0, 0)).1 < key)
    (hstop : n < l.count → key < (l.key_value.getD n (0, 0)).1) :
    l.find_index key = .error n := by
  have := findIndexAux_err key (l.key_value.take l.count) 0 n
    (fun m hm => by rw [getD_take _ (by omega : m < l.count)]; exact hall m hm)
    (by simp only [List.length_take]; omega)
    (fun h => by
      have hlt : n < l.count := by simp only [List.length_take] at h; omega
      rw [getD_take _ hlt]; exact hstop hlt)
  simpa [LeafPage.find_index] using this

/-- The shape of the record array after an insert-with-shift: the live
prefix grows by exactly the new pair, spliced in at position `n`. -/
theorem insert_shift_live {kv : List (Nat × Nat)} {cnt n : Nat} (x : Nat × Nat)
    (hlen : cnt < kv.length) (hn : n ≤ cnt) :
    ((copyWithin kv n (cnt - n) (n + 1)).set n x).take (cnt + 1)
      = (kv.take cnt).take n ++ x :: (kv.take cnt).drop n := by
  have hA : (kv.take (n + 1)).length = n + 1 := by
    simp only [List.length_take]; omega
  have hB : ((kv.drop n).take (cnt - n)).length = cnt - n := by
    simp only [List.length_take, List.length_drop]; omega
  have hAB : (kv.take n ++ [x]).length = n + 1 := by
    simp only [List.length_append, List.length_take, List.length_cons, List.length_nil]; omega
  have hset : (copyWithin kv n (cnt - n) (n + 1)).set n x
      = ((kv.take n ++ [x]) ++ (kv.drop n).take (cnt - n)) ++ kv.drop (n + 1 + (cnt - n)) := by
    unfold copyWithin
    rw [List.set_append_left _ _ (by
        simp only [List.length_append, List.length_take, List.length_drop]; omega),
      List.set_append_left _ _ (by simp only [List.length_take]; omega),
      take_set_last x (by omega)]
  have hclen : cnt + 1 = (kv.take n ++ [x]).length + (cnt - n) := by rw [hAB]; omega
  rw [hset, List.append_assoc, hclen, take_append_add, take_append_len hB]
  have htt : (kv.take cnt).take n = kv.take n := by
    rw [List.take_take]; congr 1; omega
  rw [htt, drop_of_take]
  simp [List.append_assoc]

/-- C7: on a `LeafPage` with sorted distinct keys, `put(key, value)`
(i) overwrites the stored value and succeeds whenever `key` is already
present; (ii) when `key` is absent and there is room, it inserts
`(key, value)` at the binary-search position, shifting the suffix right
by one and incrementing `count`; (iii) it returns the page-full error
exactly when `count = LEAF_RECORD_COUNT` and the key is new. -/
theorem claim_C7 (l : LeafPage) (key value : Nat)
    (hlen : l.key_value.length = LEAF_RECORD_COUNT)
    (hcnt : l.count ≤ LEAF_RECORD_COUNT)
    (hsort : ∀ j, j < l.count → ∀ i, i < j →
      (l.key_value.getD i (0, 0)).1 < (l.key_value.getD j (0, 0)).1) :
    ((∀ j, j < l.count → (l.key_value.getD j (0, 0)).1 = key →
        l.put key value = some { l with key_value := l.key_value.set j (key, value) })
     ∧
     ((∀ j, j < l.count → (l.key_value.getD j (0, 0)).1 ≠ key) →
       l.count < LEAF_RECORD_COUNT →
       ∃ l' p, l.put key value = some l' ∧ l'.count = l.count + 1 ∧
         p ≤ l.count ∧ (∀ i, i < p → (l.key_value.getD i (0, 0)).1 < key) ∧
         (p < l.count → key < (l.key_value.getD p (0, 0)).1) ∧
         l'.live = l.live.take p ++ (key, value) :: l.live.drop p)
     ∧
     (l.put key value = none ↔
       (l.count = LEAF_RECORD_COUNT ∧ ∀ j, j < l.count → (l.key_value.getD j (0, 0)).1 ≠ key))) := by
  have hcl : l.count ≤ l.key_value.length := by omega
  refine ⟨?_, ?_, ?_⟩
  · -- (i) update in place
    intro j hj heq
    have hok := find_index_ok l key hcl hj
      (fun m hm => by rw [← heq]; exact hsort j hj m hm) heq
    simp only [LeafPage.put, hok]
    rw [heq]
  · -- (ii) fresh insert with room
    intro habs hroom
    obtain ⟨n, hn, hall, hstop⟩ := insertion_point l key habs
    have herr := find_index_err l key hcl hn hall hstop
    have hnotfull : l.is_full = false := by
      simp only [LeafPage.is_full]
      exact decide_eq_false (by omega)
    refine ⟨{ l with
        key_value := (copyWithin l.key_value n (l.count - n) (n + 1)).set n (key, value)
        count := l.count + 1 }, n, ?_, rfl, hn, hall, hstop, ?_⟩
    · simp [LeafPage.put, herr, hnotfull]
    · simp only [LeafPage.live]
      exact insert_shift_live (key, value) (by omega) hn
  · -- (iii) the error case, exactly
    constructor
    · intro hnone
      by_cases hpres : ∃ j, j < l.count ∧ (l.key_value.getD j (0, 0)).1 = key
      · obtain ⟨j, hj, heq⟩ := hpres
        have hok := find_index_ok l key hcl hj
          (fun m hm => by rw [← heq]; exact hsort j hj m hm) heq
        simp [LeafPage.put, hok] at hnone
      · push_neg at hpres
        refine ⟨?_, hpres⟩
        obtain ⟨n, hn, hall, hstop⟩ := insertion_point l key hpres
        have herr := find_index_err l key hcl hn hall hstop
        by_contra hne
        have hnotfull : l.is_full = false := by
          simp only [LeafPage.is_full]
          exact decide_eq_false (by omega)
        simp [LeafPage.put, herr, hnotfull] at hnone
    · rintro ⟨hfull, habs⟩
      obtain ⟨n, hn, hall, hstop⟩ := insertion_point l key habs
      have herr := find_index_err l key hcl hn hall hstop
      have hisfull : l.is_full = true := by
        simp only [LeafPage.is_full]
        exact decide_eq_true (by omega)
      simp [LeafPage.put, herr, hisfull]

/-- Witness for C7: the hypotheses hold at the empty leaf, and `put`
succeeds there. -/
theorem claim_C7_witness : (LeafPage.init.put 5 7).isSome = true := by
  have h := claim_C7 LeafPage.init 5 7 (by simp [LeafPage.init]) (by simp [LeafPage.init])
    (by intro j hj; simp [LeafPage.init] at hj)
  obtain ⟨-, h2, -⟩ := h
  obtain ⟨l', p, hput, -⟩ := h2 (by intro j hj; simp [LeafPage.init] at hj)
    (by norm_num [LeafPage.init, LEAF_RECORD_COUNT])
  simp [hput]

/-! ## Characterization of `DirectoryPage.find_pointer_idx` -/

theorem fpiAux_spec (keys : List Nat) (key : Nat) (cnt : Nat) :
    ∀ fuel start e, e - start ≤ fuel → start < e → e ≤ cnt →
      keys.getD start 0 ≤ key → (e = cnt ∨ key < keys.getD e 0) →
      start < DirectoryPage.fpiAux keys key start e ∧
      DirectoryPage.fpiAux keys key start e ≤ e ∧
      keys.getD (DirectoryPage.fpiAux keys key start e - 1) 0 ≤ key ∧
      (DirectoryPage.fpiAux keys key start e = cnt ∨
        key < keys.getD (DirectoryPage.fpiAux keys key start e) 0) := by
  intro fuel
  induction fuel with
  | zero => intro start e h1 h2; omega
  | succ fuel ih =>
    intro start e hf hlt hle hstart hend
    rw [DirectoryPage.fpiAux]
    by_cases hcond : start < e - 1
    · rw [dif_pos hcond]
      have h2 : (e - start) / 2 < e - start := Nat.div_lt_self (by omega) (by omega)
      have h1 : 1 ≤ (e - start) / 2 := (Nat.le_div_iff_mul_le (by omega)).mpr (by omega)
      by_cases hk : key < keys.getD ((e - start) / 2 + start) 0
      · rw [if_pos hk]
        obtain ⟨a1, a2, a3, a4⟩ :=
          ih start ((e - start) / 2 + start) (by omega) (by omega) (by omega) hstart (Or.inr hk)
        exact ⟨a1, by omega, a3, a4⟩
      · rw [if_neg hk]
        have hne : ¬ (start = (e - start) / 2 + start ∧ key < keys.getD ((e - start) / 2 + start + 1) 0) := by
          rintro ⟨h, -⟩; omega
        rw [if_neg hne]
        obtain ⟨a1, a2, a3, a4⟩ :=
          ih ((e - start) / 2 + start) e (by omega) (by omega) hle (by omega) hend
        exact ⟨by omega, a2, a3, a4⟩
    · rw [dif_neg hcond]
      have he : e = start + 1 := by omega
      refine ⟨by omega, by omega, by simpa using hstart, ?_⟩
      rw [he] at hend
      exact hend

/-- The boundary facts `find_pointer_idx` guarantees: on a page with
strictly ascending live keys it returns the unique `r ≤ count` with
every key before index `r` at most `key` and, if `r < count`, with
`key` strictly below `keys[r]`. -/
theorem find_pointer_idx_spec (d : DirectoryPage) (key : Nat)
    (hsort : ∀ j, j < d.count → ∀ i, i < j → d.keys.getD i 0 < d.keys.getD j 0) :
    d.find_pointer_idx key ≤ d.count ∧
    (∀ i, i < d.find_pointer_idx key → d.keys.getD i 0 ≤ key) ∧
    (d.find_pointer_idx key < d.count → key < d.keys.getD (d.find_pointer_idx key) 0) := by
  unfold DirectoryPage.find_pointer_idx
  by_cases h0 : d.count = 0 ∨ key < d.keys.getD 0 0
  · rw [if_pos h0]
    refine ⟨Nat.zero_le _, by omega, ?_⟩
    intro hc
    rcases h0 with h0 | h0
    · omega
    · exact h0
  · rw [if_neg h0]
    push_neg at h0
    obtain ⟨hc0, hk0⟩ := h0
    obtain ⟨hr1, hr2, hr3, hr4⟩ := fpiAux_spec d.keys key d.count d.count 0 d.count
      (by omega) (by omega) (Nat.le_refl _) (by simpa using hk0) (Or.inl rfl)
    refine ⟨hr2, ?_, ?_⟩
    · intro i hi
      rcases Nat.lt_or_ge i (DirectoryPage.fpiAux d.keys key 0 d.count - 1) with h | h
      · have hlt : DirectoryPage.fpiAux d.keys key 0 d.count - 1 < d.count := by omega
        exact Nat.le_of_lt (Nat.lt_of_lt_of_le (hsort _ hlt i h) hr3)
      · have : i = DirectoryPage.fpiAux d.keys key 0 d.count - 1 := by omega
        rw [this]
        exact hr3
    · intro hlt
      rcases hr4 with h | h
      · omega
      · exact h

/-- C6: on a `DirectoryPage` with `count ≤ DIR_KEY_COUNT` and strictly
ascending live keys, `find_pointer_idx(key)` returns the smallest index
`i` with `key < keys[i]`, or `count` when no such index exists; the
result always lies in `[0, count]`. -/
theorem claim_C6 (d : DirectoryPage) (key : Nat)
    (hcnt : d.count ≤ DIR_KEY_COUNT)
    (hsort : ∀ j, j < d.count → ∀ i, i < j → d.keys.getD i 0 < d.keys.getD j 0) :
    d.find_pointer_idx key ≤ d.count ∧
    ((∃ i, i < d.count ∧ key < d.keys.getD i 0) →
      d.find_pointer_idx key < d.count ∧ key < d.keys.getD (d.find_pointer_idx key) 0 ∧
      ∀ j, j < d.find_pointer_idx key → ¬ key < d.keys.getD j 0) ∧
    ((¬ ∃ i, i < d.count ∧ key < d.keys.getD i 0) → d.find_pointer_idx key = d.count) := by
  obtain ⟨h1, h2, h3⟩ := find_pointer_idx_spec d key hsort
  refine ⟨h1, ?_, ?_⟩
  · intro ⟨i, hi, hki⟩
    have hrc : d.find_pointer_idx key < d.count := by
      by_contra hge
      have : d.find_pointer_idx key = d.count := by omega
      have := h2 i (by omega)
      omega
    exact ⟨hrc, h3 hrc, fun j hj => by have := h2 j hj; omega⟩
  · intro hno
    by_contra hne
    have hrc : d.find_pointer_idx key < d.count := by omega
    exact hno ⟨_, hrc, h3 hrc⟩

/-- Witness for C6: at the empty directory page every key descends to
pointer index 0 = count. -/
theorem claim_C6_witness : DirectoryPage.init.find_pointer_idx 42 = DirectoryPage.init.count := by
  have h := claim_C6 DirectoryPage.init 42 (by simp [DirectoryPage.init])
    (by intro j hj; simp [DirectoryPage.init] at hj)
  exact h.2.2 (by rintro ⟨i, hi, -⟩; simp [DirectoryPage.init] at hi)

/-- Uniqueness: any `j ≤ count` whose surrounding keys bracket `key`
is exactly what `find_pointer_idx` returns. -/
theorem find_pointer_idx_unique (d : DirectoryPage) (key j : Nat)
    (hsort : ∀ b, b < d.count → ∀ a, a < b → d.keys.getD a 0 < d.keys.getD b 0)
    (hj : j ≤ d.count)
    (hlow : 0 < j → d.keys.getD (j - 1) 0 ≤ key)
    (hhigh : j < d.count → key < d.keys.getD j 0) :
    d.find_pointer_idx key = j := by
  obtain ⟨h1, h2, h3⟩ := find_pointer_idx_spec d key hsort
  rcases Nat.lt_trichotomy (d.find_pointer_idx key) j with h | h | h
  · -- r < j: keys[r] ≤ keys[j-1] ≤ key but key < keys[r]
    exfalso
    have hr : key < d.keys.getD (d.find_pointer_idx key) 0 := h3 (by omega)
    have hle : d.keys.getD (d.find_pointer_idx key) 0 ≤ d.keys.getD (j - 1) 0 := by
      rcases Nat.lt_or_ge (d.find_pointer_idx key) (j - 1) with hc | hc
      · exact Nat.le_of_lt (hsort (j - 1) (by omega) _ hc)
      · have : d.find_pointer_idx key = j - 1 := by omega
        rw [this]
    have := hlow (by omega)
    omega
  · exact h
  · -- j < r: keys[j] ≤ key but key < keys[j]
    exfalso
    have := h2 j h
    have := hhigh (by omega)
    omega

/-! Positional content of `DirectoryPage.split_page` on a full page. -/

theorem split_page_sep (d : DirectoryPage) :
    (d.split_page).1 = d.keys.getD (DIR_KEY_COUNT / 2) 0 := rfl

theorem split_page_left_count (d : DirectoryPage) :
    (d.split_page).2.1.count = DIR_KEY_COUNT / 2 := rfl

theorem split_page_right_count (d : DirectoryPage) :
    (d.split_page).2.2.count = DIR_KEY_COUNT - DIR_KEY_COUNT / 2 - 1 := rfl

theorem split_page_left_keys (d : DirectoryPage) {i : Nat}
    (hlen : d.keys.length = DIR_KEY_COUNT) (hi : i < DIR_KEY_COUNT / 2 + 1) :
    (d.split_page).2.1.keys.getD i 0 = d.keys.getD i 0 := by
  have hD : DIR_KEY_COUNT = 335 := rfl
  show ((d.keys.take (DIR_KEY_COUNT / 2 + 1) ++
    List.replicate (DIR_KEY_COUNT - (DIR_KEY_COUNT / 2 + 1)) 0).getD i 0) = d.keys.getD i 0
  rw [getD_append_left _ (by simp only [List.length_take]; omega), getD_take _ (by omega)]

theorem split_page_left_ptrs (d : DirectoryPage) {i : Nat}
    (hlen : d.pointers.length = DIR_PTR_COUNT) (hi : i < DIR_KEY_COUNT / 2 + 1) :
    (d.split_page).2.1.pointers.getD i 0 = d.pointers.getD i 0 := by
  have hD : DIR_KEY_COUNT = 335 := rfl
  have hP : DIR_PTR_COUNT = 336 := rfl
  show ((d.pointers.take (DIR_KEY_COUNT / 2 + 1) ++
    List.replicate (DIR_PTR_COUNT - (DIR_KEY_COUNT / 2 + 1)) NULL_IDX).getD i 0) = d.pointers.getD i 0
  rw [getD_append_left _ (by simp only [List.length_take]; omega), getD_take _ (by omega)]

theorem split_page_right_keys (d : DirectoryPage) {i : Nat}
    (hlen : d.keys.length = DIR_KEY_COUNT) (hi : i < DIR_KEY_COUNT - DIR_KEY_COUNT / 2 - 1) :
    (d.split_page).2.2.keys.getD i 0 = d.keys.getD (DIR_KEY_COUNT / 2 + 1 + i) 0 := by
  have hD : DIR_KEY_COUNT = 335 := rfl
  show ((setRange (List.replicate DIR_KEY_COUNT 0) 0
      ((d.keys.drop (DIR_KEY_COUNT / 2 + 1)).take (DIR_KEY_COUNT - (DIR_KEY_COUNT / 2 + 1)))).getD i 0)
    = d.keys.getD (DIR_KEY_COUNT / 2 + 1 + i) 0
  unfold setRange
  rw [List.take_zero, List.nil_append,
    getD_append_left _ (by simp only [List.length_take, List.length_drop]; omega),
    getD_take _ (by omega), getD_drop]

theorem split_page_right_ptrs (d : DirectoryPage) {i : Nat}
    (hlen : d.pointers.length = DIR_PTR_COUNT) (hi : i < DIR_KEY_COUNT - DIR_KEY_COUNT / 2) :
    (d.split_page).2.2.pointers.getD i 0 = d.pointers.getD (DIR_KEY_COUNT / 2 + 1 + i) 0 := by
  have hD : DIR_KEY_COUNT = 335 := rfl
  have hP : DIR_PTR_COUNT = 336 := rfl
  show ((setRange (List.replicate DIR_PTR_COUNT NULL_IDX) 0
      ((d.pointers.drop (DIR_KEY_COUNT / 2 + 1)).take (DIR_PTR_COUNT - (DIR_KEY_COUNT / 2 + 1)))).getD i 0)
    = d.pointers.getD (DIR_KEY_COUNT / 2 + 1 + i) 0
  unfold setRange
  rw [List.take_zero, List.nil_append,
    getD_append_left _ (by simp only [List.length_take, List.length_drop]; omega),
    getD_take _ (by omega), getD_drop]

/-- `split_at_ptr` succeeds whenever the page has room and the pointer
at the search index for `split_key` is the expected child. -/
theorem split_at_ptr_isSome (d : DirectoryPage) (split_ptr split_key new_ptr : Nat)
    (hnf : d.is_full = false)
    (hc : d.pointers.getD (d.find_pointer_idx split_key) 0 = split_ptr) :
    (d.split_at_ptr split_ptr split_key new_ptr).isSome = true := by
  unfold DirectoryPage.split_at_ptr
  rw [hnf]
  simp only [Bool.false_eq_true, if_false, hc, if_pos rfl, Option.isSome_some]
  simp

/-- C5: when the put path splits a full parent directory and inserts the
pushed-up separator `split_key` into the half whose key range covers it,
the original child pointer `child_ptr = pointers[j]` is found at index
`find_pointer_idx(split_key)` of that half, so the
`pointers[idx] == split_ptr` assertion inside `split_at_ptr` cannot fire
(`split_at_ptr` succeeds). -/
theorem claim_C5 (d : DirectoryPage) (j split_key new_ptr : Nat)
    (hfull : d.count = DIR_KEY_COUNT)
    (hklen : d.keys.length = DIR_KEY_COUNT)
    (hplen : d.pointers.length = DIR_PTR_COUNT)
    (hsort : ∀ b, b < d.count → ∀ a, a < b → d.keys.getD a 0 < d.keys.getD b 0)
    (hj : j ≤ d.count)
    (hlow : 0 < j → d.keys.getD (j - 1) 0 < split_key)
    (hhigh : j < d.count → split_key < d.keys.getD j 0) :
    if split_key < (d.split_page).1 then
      (d.split_page).2.1.pointers.getD ((d.split_page).2.1.find_pointer_idx split_key) 0
          = d.pointers.getD j 0 ∧
        ((d.split_page).2.1.split_at_ptr (d.pointers.getD j 0) split_key new_ptr).isSome = true
    else
      (d.split_page).2.2.pointers.getD ((d.split_page).2.2.find_pointer_idx split_key) 0
          = d.pointers.getD j 0 ∧
        ((d.split_page).2.2.split_at_ptr (d.pointers.getD j 0) split_key new_ptr).isSome = true := by
  have hD : DIR_KEY_COUNT = 335 := rfl
  have hsep : (d.split_page).1 = d.keys.getD (DIR_KEY_COUNT / 2) 0 := split_page_sep d
  by_cases hside : split_key < (d.split_page).1
  · rw [if_pos hside]
    rw [hsep] at hside
    -- the child lives in the left half
    have hjle : j ≤ DIR_KEY_COUNT / 2 := by
      by_contra hgt
      have h1 : DIR_KEY_COUNT / 2 ≤ j - 1 := by omega
      have h2 : d.keys.getD (DIR_KEY_COUNT / 2) 0 ≤ d.keys.getD (j - 1) 0 := by
        rcases Nat.lt_or_ge (DIR_KEY_COUNT / 2) (j - 1) with hc | hc
        · exact Nat.le_of_lt (hsort (j - 1) (by omega) _ hc)
        · have : DIR_KEY_COUNT / 2 = j - 1 := by omega
          rw [this]
      have := hlow (by omega)
      omega
    have hLsort : ∀ b, b < (d.split_page).2.1.count → ∀ a, a < b →
        (d.split_page).2.1.keys.getD a 0 < (d.split_page).2.1.keys.getD b 0 := by
      intro b hb a hab
      rw [split_page_left_count] at hb
      rw [split_page_left_keys d hklen (by omega), split_page_left_keys d hklen (by omega)]
      exact hsort b (by omega) a hab
    have hfpi : (d.split_page).2.1.find_pointer_idx split_key = j := by
      apply find_pointer_idx_unique _ _ _ hLsort
      · rw [split_page_left_count]; omega
      · intro h0
        rw [split_page_left_keys d hklen (by omega)]
        exact Nat.le_of_lt (hlow h0)
      · intro hlt
        rw [split_page_left_count] at hlt
        rw [split_page_left_keys d hklen (by omega)]
        rcases Nat.lt_or_ge j (DIR_KEY_COUNT / 2) with hc | hc
        · exact hhigh (by omega)
        · have : j = DIR_KEY_COUNT / 2 := by omega
          rw [this]
          exact hside
    have hptr : (d.split_page).2.1.pointers.getD j 0 = d.pointers.getD j 0 :=
      split_page_left_ptrs d hplen (by omega)
    have hcond : (d.split_page).2.1.pointers.getD
        ((d.split_page).2.1.find_pointer_idx split_key) 0 = d.pointers.getD j 0 := by
      rw [hfpi]; exact hptr
    refine ⟨hcond, ?_⟩
    have hnotfull : (d.split_page).2.1.is_full = false := by
      simp only [DirectoryPage.is_full, split_page_left_count]
      exact decide_eq_false (by omega)
    exact split_at_ptr_isSome _ _ _ _ hnotfull hcond
  · rw [if_neg hside]
    rw [hsep] at hside
    -- the child lives in the right half
    have hjge : DIR_KEY_COUNT / 2 + 1 ≤ j := by
      by_contra hlt
      have h2 : d.keys.getD j 0 ≤ d.keys.getD (DIR_KEY_COUNT / 2) 0 := by
        rcases Nat.lt_or_ge j (DIR_KEY_COUNT / 2) with hc | hc
        · exact Nat.le_of_lt (hsort _ (by omega) _ hc)
        · have : j = DIR_KEY_COUNT / 2 := by omega
          rw [this]
      have := hhigh (by omega)
      omega
    have hRsort : ∀ b, b < (d.split_page).2.2.count → ∀ a, a < b →
        (d.split_page).2.2.keys.getD a 0 < (d.split_page).2.2.keys.getD b 0 := by
      intro b hb a hab
      rw [split_page_right_count] at hb
      rw [split_page_right_keys d hklen (by omega), split_page_right_keys d hklen (by omega)]
      exact hsort _ (by omega) _ (by omega)
    have hfpi : (d.split_page).2.2.find_pointer_idx split_key = j - (DIR_KEY_COUNT / 2 + 1) := by
      apply find_pointer_idx_unique _ _ _ hRsort
      · rw [split_page_right_count]; omega
      · intro h0
        rw [split_page_right_keys d hklen (by omega)]
        have harith : DIR_KEY_COUNT / 2 + 1 + (j - (DIR_KEY_COUNT / 2 + 1) - 1) = j - 1 := by omega
        rw [harith]
        exact Nat.le_of_lt (hlow (by omega))
      · intro hlt
        rw [split_page_right_count] at hlt
        rw [split_page_right_keys d hklen (by omega)]
        have harith : DIR_KEY_COUNT / 2 + 1 + (j - (DIR_KEY_COUNT / 2 + 1)) = j := by omega
        rw [harith]
        exact hhigh (by omega)
    have hptr : (d.split_page).2.2.pointers.getD (j - (DIR_KEY_COUNT / 2 + 1)) 0
        = d.pointers.getD j 0 := by
      have harith : DIR_KEY_COUNT / 2 + 1 + (j - (DIR_KEY_COUNT / 2 + 1)) = j := by omega
      rw [split_page_right_ptrs d hplen (by omega), harith]
    have hcond : (d.split_page).2.2.pointers.getD
        ((d.split_page).2.2.find_pointer_idx split_key) 0 = d.pointers.getD j 0 := by
      rw [hfpi]; exact hptr
    refine ⟨hcond, ?_⟩
    have hnotfull : (d.split_page).2.2.is_full = false := by
      simp only [DirectoryPage.is_full, split_page_right_count]
      exact decide_eq_false (by omega)
    exact split_at_ptr_isSome _ _ _ _ hnotfull hcond

/-- A concrete full directory page for the C5 witness: keys `1..335`,
pointers `100..435`. -/
def fullDirC5 : DirectoryPage :=
  { count := 335
    keys := (List.range 335).map (· + 1)
    pointers := (List.range 336).map (· + 100) }

theorem fullDirC5_key {i : Nat} (hi : i < 335) : fullDirC5.keys.getD i 0 = i + 1 := by
  simp [fullDirC5, List.getD_eq_getElem?_getD, List.getElem?_map, List.getElem?_range hi]

/-- Witness for C5: at the concrete full page, descending for
`split_key = 0` with child `pointers[0]`, the insertion into the
covering (left) half succeeds. -/
theorem claim_C5_witness :
    ((fullDirC5.split_page).2.1.split_at_ptr (fullDirC5.pointers.getD 0 0) 0 999).isSome
      = true := by
  have h := claim_C5 fullDirC5 0 0 999 rfl (by simp [fullDirC5, DIR_KEY_COUNT])
    (by simp [fullDirC5, DIR_PTR_COUNT, DIR_KEY_COUNT])
    (by
      intro b hb a hab
      have hb' : b < 335 := hb
      rw [fullDirC5_key hb', fullDirC5_key (by omega)]
      omega)
    (by simp [fullDirC5]) (by omega)
    (by intro _; rw [fullDirC5_key (by omega)]; omega)
  rw [if_pos (by
    have hD : DIR_KEY_COUNT = 335 := rfl
    rw [split_page_sep, fullDirC5_key (by omega)]
    omega)] at h
  exact h.2

/-! ## Frame lemmas for the page file -/

theorem writePage_length (d : List Page) (p : Nat) (x : Page) :
    (writePage d p x).length = if p < d.length then d.length else p + 1 := by
  unfold writePage
  by_cases h : p < d.length
  · rw [if_pos h, if_pos h]
    exact List.length_set d p x
  · rw [if_neg h, if_neg h]
    simp only [List.length_append, List.length_replicate, List.length_cons, List.length_nil]
    omega

/-- The file behaves as a total map: a write at `p` is visible exactly
at `p` and nowhere else (unwritten positions read as zero pages). -/
theorem readPage_writePage (d : List Page) (p q : Nat) (x : Page) :
    readPage (writePage d p x) q = if q = p then x else readPage d q := by
  unfold readPage writePage
  by_cases hq : q = p
  · subst hq
    rw [if_pos rfl]
    by_cases hlt : q < d.length
    · rw [if_pos hlt]
      exact getD_set_self _ _ hlt
    · rw [if_neg hlt, List.append_assoc,
        getD_append_right _ (by omega),
        getD_append_right _ (by simp only [List.length_replicate]; omega)]
      simp only [List.length_replicate]
      have : q - d.length - (q - d.length) = 0 := by omega
      rw [this]
      rfl
  · rw [if_neg hq]
    by_cases hlt : p < d.length
    · rw [if_pos hlt]
      exact getD_set_ne _ _ (fun h => hq h.symm)
    · rw [if_neg hlt]
      by_cases hq2 : q < d.length
      · rw [List.append_assoc, getD_append_left _ hq2]
      · have hrhs : d.getD q zeroPage = zeroPage := getD_oob _ (by omega)
        rw [hrhs, List.append_assoc, getD_append_right _ (by omega)]
        by_cases hqp : q < p
        · rw [getD_append_left _ (by simp only [List.length_replicate]; omega)]
          exact getD_replicate _ _ _ _ (by omega)
        · rw [getD_append_right _ (by simp only [List.length_replicate]; omega)]
          apply getD_oob
          simp only [List.length_replicate, List.length_cons, List.length_nil]
          omega

theorem getLeaf_writePage (d : List Page) (p q : Nat) (x : Page) :
    getLeaf (writePage d p x) q =
      if q = p then (match x with | .leaf l => some l | _ => none) else getLeaf d q := by
  unfold getLeaf
  rw [readPage_writePage]
  by_cases h : q = p
  · rw [if_pos h, if_pos h]
  · rw [if_neg h, if_neg h]

theorem getDir_writePage (d : List Page) (p q : Nat) (x : Page) :
    getDir (writePage d p x) q =
      if q = p then (match x with | .dir dp => some dp | _ => none) else getDir d q := by
  unfold getDir
  rw [readPage_writePage]
  by_cases h : q = p
  · rw [if_pos h, if_pos h]
  · rw [if_neg h, if_neg h]

theorem getFree_writePage (d : List Page) (p q : Nat) (x : Page) :
    getFree (writePage d p x) q =
      if q = p then (match x with | .free f => some f | _ => none) else getFree d q := by
  unfold getFree
  rw [readPage_writePage]
  by_cases h : q = p
  · rw [if_pos h, if_pos h]
  · rw [if_neg h, if_neg h]

/-- C8: allocator round-trip and extension.
(i) Immediately after `free_page p` (for a non-null `p`), the next
`alloc_page` hands back exactly `p` (LIFO reuse).
(ii) An `alloc_page` with an empty free-list returns the old
`pages_allocated` and increments it by exactly one.
(iii) `pages_allocated` equals the file length in pages after every
allocator operation (assuming it did before and the free-list head is a
valid page index). -/
theorem claim_C8 (t : Tree) (p : Nat) (page : Page)
    (hp : p ≠ NULL_IDX)
    (hlen : t.disk.length = t.meta.pages_allocated)
    (hpos : 0 < t.meta.pages_allocated)
    (hfree : t.meta.next_free_page < t.disk.length) :
    (((t.free_page p).alloc_page page).map Prod.fst = some p)
    ∧
    (t.meta.next_free_page = NULL_IDX →
      ∃ t', t.alloc_page page = some (t.meta.pages_allocated, t') ∧
        t'.meta.pages_allocated = t.meta.pages_allocated + 1)
    ∧
    ((∀ r, t.alloc_page page = some r → r.2.disk.length = r.2.meta.pages_allocated) ∧
     (p < t.disk.length → (t.free_page p).disk.length = (t.free_page p).meta.pages_allocated)) := by
  refine ⟨?_, ?_, ?_, ?_⟩
  · -- (i) free-then-alloc is LIFO
    have hread : getFree (t.free_page p).disk p = some ⟨t.meta.next_free_page⟩ := by
      show getFree (writePage (writePage t.disk p (.free ⟨t.meta.next_free_page⟩))
        METADATA_IDX _) p = _
      rw [getFree_writePage, if_neg (show p ≠ METADATA_IDX from hp),
        getFree_writePage, if_pos rfl]
    have hmeta : (t.free_page p).meta.next_free_page = p := rfl
    simp only [Tree.alloc_page, hmeta, hp, if_neg hp, hread]
    rfl
  · -- (ii) extension
    intro hnull
    refine ⟨(Tree.put_meta { t with meta :=
      { t.meta with pages_allocated := t.meta.pages_allocated + 1 } }).put_page
        t.meta.pages_allocated page, ?_, rfl⟩
    simp [Tree.alloc_page, hnull]
  · -- (iii) for alloc
    intro r hr
    have hM : METADATA_IDX = 0 := rfl
    by_cases hnull : t.meta.next_free_page = NULL_IDX
    · have halloc : t.alloc_page page = some (t.meta.pages_allocated,
          (Tree.put_meta { t with meta :=
            { t.meta with pages_allocated := t.meta.pages_allocated + 1 } }).put_page
              t.meta.pages_allocated page) := by
        simp [Tree.alloc_page, hnull]
      rw [halloc] at hr
      obtain rfl := Option.some.inj hr
      show (writePage (writePage t.disk METADATA_IDX _) t.meta.pages_allocated _).length
        = t.meta.pages_allocated + 1
      rw [writePage_length, writePage_length]
      split_ifs <;> omega
    · cases hg : getFree t.disk t.meta.next_free_page with
      | none =>
        rw [Tree.alloc_page, if_neg hnull] at hr
        simp only [hg] at hr
        exact absurd hr (by simp)
      | some f =>
        have halloc : t.alloc_page page = some (t.meta.next_free_page,
            (Tree.put_meta { t with meta :=
              { t.meta with next_free_page := f.next_free_page } }).put_page
                t.meta.next_free_page page) := by
          rw [Tree.alloc_page, if_neg hnull]
          simp only [hg]
        rw [halloc] at hr
        obtain rfl := Option.some.inj hr
        show (writePage (writePage t.disk METADATA_IDX _) t.meta.next_free_page _).length
          = t.meta.pages_allocated
        rw [writePage_length, writePage_length]
        split_ifs <;> omega
  · -- (iii) for free
    intro hplt
    have hM : METADATA_IDX = 0 := rfl
    show (writePage (writePage t.disk p _) METADATA_IDX _).length = t.meta.pages_allocated
    rw [writePage_length, writePage_length]
    split_ifs <;> omega

/-- Witness for C8 at the freshly initialized tree. -/
theorem claim_C8_witness :
    (((initTree.free_page 2).alloc_page (.free ⟨0⟩)).map Prod.fst = some 2) ∧
    (∃ t', initTree.alloc_page (.free ⟨0⟩) = some (3, t') ∧
      t'.meta.pages_allocated = 4) := by
  have h := claim_C8 initTree 2 (.free ⟨0⟩) (by decide) (by simp [initTree]) (by simp [initTree])
    (by show NULL_IDX < 3; decide)
  exact ⟨h.1, h.2.1 rfl⟩

/-- `find_pointer_idx` on an empty directory page is 0. -/
theorem find_pointer_idx_zero (d : DirectoryPage) (key : Nat) (h : d.count = 0) :
    d.find_pointer_idx key = 0 := by
  unfold DirectoryPage.find_pointer_idx
  rw [if_pos (Or.inl h)]

/-- C9: deleting a key from the only leaf of a depth-1 tree whose root
directory holds zero keys writes back just the shrunken leaf and
returns success — no borrow, no merge, no metadata change, and no page
other than that leaf is modified. -/
theorem claim_C9 (t : Tree) (key leaf_ptr : Nat) (dir : DirectoryPage) (leaf : LeafPage)
    (hdepth : t.meta.depth = 1)
    (hdir : getDir t.disk t.meta.root_page = some dir)
    (hcnt : dir.count = 0)
    (hp0 : dir.pointers.getD 0 0 = leaf_ptr)
    (hleaf : getLeaf t.disk leaf_ptr = some leaf)
    (hdel : (leaf.delete key).1 = true)
    (hunder : (leaf.delete key).2.is_underfull = true) :
    ∃ t', t.delete key = some t' ∧ t'.meta = t.meta ∧
      readPage t'.disk leaf_ptr = .leaf (leaf.delete key).2 ∧
      ∀ q, q ≠ leaf_ptr → readPage t'.disk q = readPage t.disk q := by
  have hfp : dir.find_pointer key = leaf_ptr := by
    unfold DirectoryPage.find_pointer
    rw [find_pointer_idx_zero dir key hcnt, hp0]
  have hfind : t.find_page key = some [t.meta.root_page, leaf_ptr] := by
    simp [Tree.find_page, hdepth, findPageAux, hdir, hfp]
  have hresult : t.delete key = some (t.put_page leaf_ptr (.leaf (leaf.delete key).2)) := by
    unfold Tree.delete
    rw [hfind]
    simp only [List.length_cons, List.length_nil, List.getD_cons_succ, List.getD_cons_zero,
      Nat.reduceSub, Nat.reduceAdd]
    rw [hleaf]
    simp only [hdel, hunder, hdir, find_pointer_idx_zero dir key hcnt, hcnt]
    simp
  refine ⟨_, hresult, rfl, ?_, ?_⟩
  · show readPage (writePage t.disk leaf_ptr _) leaf_ptr = _
    rw [readPage_writePage, if_pos rfl]
  · intro q hq
    show readPage (writePage t.disk leaf_ptr _) q = _
    rw [readPage_writePage, if_neg hq]

/-- A concrete depth-1 tree with a single one-record leaf, for the C9
witness. -/
def treeC9 : Tree :=
  { disk :=
      [.meta initTree.meta,
       .dir { DirectoryPage.init with
                pointers := DirectoryPage.init.pointers.set 0 DEFAULT_PAGE0_IDX },
       .leaf { LeafPage.init with
                count := 1
                key_value := LeafPage.init.key_value.set 0 (5, 7) }]
    meta := initTree.meta }

/-- Witness for C9 at the concrete one-record tree. -/
theorem claim_C9_witness :
    ∃ t', treeC9.delete 5 = some t' ∧ t'.meta = treeC9.meta := by
  obtain ⟨t', h1, h2, -, -⟩ := claim_C9 treeC9 5 2
    { DirectoryPage.init with pointers := DirectoryPage.init.pointers.set 0 DEFAULT_PAGE0_IDX }
    { LeafPage.init with count := 1, key_value := LeafPage.init.key_value.set 0 (5, 7) }
    rfl rfl rfl (by decide) rfl (by decide) (by decide)
  exact ⟨t', h1, h2⟩

/-! ## C10: iteration over chains of empty leaves -/

/-- A leaf chain all of whose pages hold zero records, reaching the
null pointer within `n` hops. -/
def emptyChainB (disk : List Page) : Nat → LeafPage → Bool
  | 0, l => decide (l.count = 0) && decide (l.next = NULL_IDX)
  | n + 1, l =>
    decide (l.count = 0) &&
      (decide (l.next = NULL_IDX) ||
        (match getLeaf disk l.next with
         | none => false
         | some l2 => emptyChainB disk n l2))

theorem iterNext_emptyChain (disk : List Page) :
    ∀ (n : Nat) (l : LeafPage), emptyChainB disk n l = true →
      iterNext disk (n + 1) l 0 = some none := by
  intro n
  induction n with
  | zero =>
    intro l h
    simp only [emptyChainB, Bool.and_eq_true, decide_eq_true_eq] at h
    obtain ⟨hc, hn⟩ := h
    unfold iterNext
    rw [if_pos (by omega), if_pos hn]
  | succ n ih =>
    intro l h
    simp only [emptyChainB, Bool.and_eq_true, Bool.or_eq_true, decide_eq_true_eq] at h
    obtain ⟨hc, hn⟩ := h
    unfold iterNext
    rw [if_pos (by omega)]
    rcases hn with hn | hn
    · rw [if_pos hn]
    · cases hg : getLeaf disk l.next with
      | none => rw [hg] at hn; exact absurd hn (by simp)
      | some l2 =>
        rw [hg] at hn
        by_cases hnull : l.next = NULL_IDX
        · rw [if_pos hnull]
        · rw [if_neg hnull]
          simp only [hg]
          exact ih l2 (by simpa using hn)

/-- C10: on any tree whose leaf chain from `data_head` consists of
zero-record pages and reaches the null pointer (in particular on a
freshly initialized tree), `iter()` succeeds and the first `next()`
call reports the end of the data: empty pages are skipped via the
`next` pointers and `None` is returned at the null pointer. -/
theorem claim_C10 (t : Tree) (n : Nat) (l : LeafPage)
    (hhead : getLeaf t.disk t.meta.data_head = some l)
    (hchain : emptyChainB t.disk n l = true) :
    t.iter = some (l, 0) ∧ iterNext t.disk (n + 1) l 0 = some none := by
  constructor
  · unfold Tree.iter
    rw [hhead]
    rfl
  · exact iterNext_emptyChain t.disk n l hchain

/-- Witness for C10 at the freshly initialized tree. -/
theorem claim_C10_witness :
    initTree.iter = some (LeafPage.init, 0) ∧
      iterNext initTree.disk 1 LeafPage.init 0 = some none :=
  claim_C10 initTree 0 LeafPage.init rfl (by decide)

/-! ## C4: ordering of the writes issued by the allocator -/

/-- The write-trace model issues exactly the writes `alloc_page`
performs, in program order. -/
theorem alloc_page_disk_eq_writes (t : Tree) (page : Page) (r : Nat × Tree)
    (tr : List (Nat × Page)) (h1 : t.alloc_page page = some r)
    (h2 : t.alloc_page_writes page = some tr) :
    r.2.disk = tr.foldl (fun d e => writePage d e.1 e.2) t.disk := by
  unfold Tree.alloc_page at h1
  unfold Tree.alloc_page_writes at h2
  by_cases hnull : t.meta.next_free_page = NULL_IDX
  · rw [if_pos hnull] at h1 h2
    obtain rfl := Option.some.inj h1
    obtain rfl := Option.some.inj h2
    rfl
  · rw [if_neg hnull] at h1 h2
    cases hg : getFree t.disk t.meta.next_free_page with
    | none => simp only [hg] at h1; exact absurd h1 (by simp)
    | some f =>
      simp only [hg] at h1 h2
      obtain rfl := Option.some.inj h1
      obtain rfl := Option.some.inj h2
      rfl

/-- Same for `free_page`. -/
theorem free_page_disk_eq_writes (t : Tree) (p : Nat) :
    (t.free_page p).disk
      = (t.free_page_writes p).foldl (fun d e => writePage d e.1 e.2) t.disk := rfl

/-- C4 counterexample: at the freshly initialized tree, one `alloc_page`
call writes the metadata page (index 0) FIRST and the page data (at the
returned pointer 3) SECOND — the claimed data-before-metadata order does
not hold. -/
theorem claim_C4_counterexample :
    (initTree.alloc_page_writes (.free ⟨7⟩)).map (List.map Prod.fst)
        = some [METADATA_IDX, 3] ∧
      (3 : Nat) ≠ METADATA_IDX := by
  exact ⟨rfl, by decide⟩

/-- C4 (amended): in every `alloc_page` call the metadata write
precedes the data write (the trace is exactly
`[(METADATA_IDX, meta'), (ptr, page)]`), and in every `free_page` call
the `FreePage` data write precedes the metadata write. -/
theorem claim_C4 (t : Tree) (page : Page) (p : Nat) :
    (∀ tr, t.alloc_page_writes page = some tr →
      ∃ m ptr, tr = [(METADATA_IDX, .meta m), (ptr, page)])
    ∧
    (∃ f m, t.free_page_writes p = [(p, .free f), (METADATA_IDX, .meta m)]) := by
  constructor
  · intro tr htr
    unfold Tree.alloc_page_writes at htr
    by_cases hnull : t.meta.next_free_page = NULL_IDX
    · rw [if_pos hnull] at htr
      obtain rfl := (Option.some.inj htr).symm
      exact ⟨_, _, rfl⟩
    · rw [if_neg hnull] at htr
      cases hg : getFree t.disk t.meta.next_free_page with
      | none => simp only [hg] at htr; exact absurd htr (by simp)
      | some f =>
        simp only [hg] at htr
        obtain rfl := Option.some.inj htr
        exact ⟨_, _, rfl⟩
  · exact ⟨_, _, rfl⟩

/-- Witness for C4 (amended) at the freshly initialized tree. -/
theorem claim_C4_witness :
    (∃ m ptr, initTree.alloc_page_writes (.free ⟨7⟩)
        = some [(METADATA_IDX, .meta m), (ptr, .free ⟨7⟩)]) ∧
    (∃ f m, initTree.free_page_writes 2 = [(2, .free f), (METADATA_IDX, .meta m)]) := by
  have h := claim_C4 initTree (.free ⟨7⟩) 2
  obtain ⟨m, ptr, he⟩ := h.1 _ rfl
  exact ⟨⟨m, ptr, by rw [← he]; rfl⟩, h.2⟩

/-! ## C3: `check_tree` rejects a valid tree containing key `u32::MAX` -/

/-- C3 as claimed is violated by the code: starting from `init`, the
single operation `put(u32::MAX, 0)` produces a perfectly formed tree,
yet `check_tree` reports a violation — its upper bound `high` starts at
`u32::MAX` and every leaf key is required to be strictly below it, so
the key `u32::MAX` itself is flagged
(`"Split Key 4294967295 >= Parent constraint 4294967295 on page 2"`). -/
theorem claim_C3_bug :
    (initTree.put U32_MAX 0).bind Tree.check_tree
      = some (some (.keyAtOrAbove U32_MAX U32_MAX DEFAULT_PAGE0_IDX)) := by
  rfl

/-! ## The tree invariant: representation, leaf chain, free list -/

/-- Inclusive lower bound on a key (`none` = unbounded). -/
def okLo : Option Nat → Nat → Prop
  | none, _ => True
  | some a, k => a ≤ k

/-- Exclusive upper bound on a key (`none` = unbounded). -/
def okHi : Option Nat → Nat → Prop
  | none, _ => True
  | some b, k => k < b

/-- Key inside the half-open interval `[lo, hi)`. -/
def okBnd (lo hi : Option Nat) (k : Nat) : Prop := okLo lo k ∧ okHi hi k

/-- Association-list lookup (first match). -/
def alookup : List (Nat × Nat) → Nat → Option Nat
  | [], _ => none
  | p :: rest, k => if p.1 = k then some p.2 else alookup rest k

/-- Keys strictly ascending. -/
def kvSorted (l : List (Nat × Nat)) : Prop := l.Pairwise (fun a b => a.1 < b.1)

/-- The free-list structure: the chain of `FreePage`s reachable from a
head pointer, as the explicit list of its page indices. -/
inductive FreeChain (disk : List Page) : Nat → List Nat → Prop
  | nil : FreeChain disk NULL_IDX []
  | cons (p : Nat) (f : FreePage) (rest : List Nat) :
      p ≠ NULL_IDX → getFree disk p = some f →
      FreeChain disk f.next_free_page rest →
      FreeChain disk p (p :: rest)

/-- Representation of a subtree: `Rep disk n ptr lo hi kvs lvs pgs`
says the subtree rooted at page `ptr` with `n` directory levels above
its leaves stores exactly the records `kvs` (in key order, all in
`[lo, hi)`), its leaves in order are `lvs`, and the pages it occupies
(in preorder) are `pgs`. -/
def Rep (disk : List Page) : Nat → Nat → Option Nat → Option Nat →
    List (Nat × Nat) → List Nat → List Nat → Prop
  | 0, ptr, lo, hi, kvs, lvs, pgs =>
    ∃ l : LeafPage, getLeaf disk ptr = some l ∧
      l.key_value.length = LEAF_RECORD_COUNT ∧
      l.count ≤ LEAF_RECORD_COUNT ∧
      kvSorted l.live ∧
      (∀ p ∈ l.live, okBnd lo hi p.1) ∧
      kvs = l.live ∧ lvs = [ptr] ∧ pgs = [ptr]
  | n + 1, ptr, lo, hi, kvs, lvs, pgs =>
    ∃ (d : DirectoryPage) (cd : List (List (Nat × Nat) × List Nat × List Nat)),
      getDir disk ptr = some d ∧
      d.keys.length = DIR_KEY_COUNT ∧
      d.pointers.length = DIR_PTR_COUNT ∧
      d.count ≤ DIR_KEY_COUNT ∧
      (d.keys.take d.count).Pairwise (· < ·) ∧
      (∀ k ∈ d.keys.take d.count, okBnd lo hi k) ∧
      cd.length = d.count + 1 ∧
      (∀ i, i ≤ d.count →
        Rep disk n (d.pointers.getD i 0)
          (if i = 0 then lo else some (d.keys.getD (i - 1) 0))
          (if i < d.count then some (d.keys.getD i 0) else hi)
          (cd.getD i ([], [], [])).1
          (cd.getD i ([], [], [])).2.1
          (cd.getD i ([], [], [])).2.2) ∧
      kvs = (cd.map (·.1)).join ∧
      lvs = (cd.map (·.2.1)).join ∧
      pgs = ptr :: (cd.map (·.2.2)).join

/-- The doubly linked leaf chain: `lvs` lists the leaf pages in key
order; `head`/`tail` are the chain endpoints stored in the metadata. -/
def ChainOk (disk : List Page) (head tail : Nat) (lvs : List Nat) : Prop :=
  head = lvs.getD 0 0 ∧
  tail = lvs.getD (lvs.length - 1) 0 ∧
  ∀ i, i < lvs.length → ∃ l, getLeaf disk (lvs.getD i 0) = some l ∧
    l.prev = (if i = 0 then NULL_IDX else lvs.getD (i - 1) 0) ∧
    l.next = (if i + 1 = lvs.length then NULL_IDX else lvs.getD (i + 1) 0)

/-- The full-tree invariant: the tree state `t` represents the sorted
association list `m`. -/
def Inv (t : Tree) (m : List (Nat × Nat)) : Prop :=
  ∃ lvs pgs fs,
    1 ≤ t.meta.depth ∧
    Rep t.disk t.meta.depth t.meta.root_page none none m lvs pgs ∧
    ChainOk t.disk t.meta.data_head t.meta.data_tail lvs ∧
    FreeChain t.disk t.meta.next_free_page fs ∧
    (pgs ++ fs).Nodup ∧
    (∀ x ∈ pgs ++ fs, x ≠ 0 ∧ x < t.meta.pages_allocated) ∧
    t.disk.length = t.meta.pages_allocated

/-! ### Frame and membership lemmas for the invariant pieces -/

theorem getD_eq_elem {l : List α} (d : α) {i : Nat} (h : i < l.length) : l.getD i d = l[i] := by
  rw [List.getD_eq_getElem?_getD, List.getElem?_eq_getElem h]
  rfl

theorem getD_mem {l : List α} (d : α) {i : Nat} (h : i < l.length) : l.getD i d ∈ l := by
  rw [getD_eq_elem d h]
  exact List.getElem_mem h

theorem rep_frame {disk disk' : List Page} :
    ∀ {n ptr lo hi kvs lvs pgs}, Rep disk n ptr lo hi kvs lvs pgs →
    (∀ q ∈ pgs, readPage disk' q = readPage disk q) →
    Rep disk' n ptr lo hi kvs lvs pgs := by
  intro n
  induction n with
  | zero =>
    intro ptr lo hi kvs lvs pgs h hf
    obtain ⟨l, hget, h1, h2, h3, h4, h5, h6, h7⟩ := h
    refine ⟨l, ?_, h1, h2, h3, h4, h5, h6, h7⟩
    unfold getLeaf at hget ⊢
    rw [hf ptr (by rw [h7]; exact List.mem_singleton_self _)]
    exact hget
  | succ n ih =>
    intro ptr lo hi kvs lvs pgs h hf
    obtain ⟨d, cd, hget, h1, h2, h3, h4, h5, h6, hch, h8, h9, h10⟩ := h
    refine ⟨d, cd, ?_, h1, h2, h3, h4, h5, h6, ?_, h8, h9, h10⟩
    · unfold getDir at hget ⊢
      rw [hf ptr (by rw [h10]; exact List.mem_cons_self _ _)]
      exact hget
    · intro i hi
      refine ih (hch i hi) ?_
      intro q hq
      refine hf q ?_
      rw [h10]
      refine List.mem_cons_of_mem _ (List.mem_join.mpr ⟨(cd.getD i ([], [], [])).2.2, ?_, hq⟩)
      exact List.mem_map.mpr ⟨cd.getD i ([], [], []), getD_mem _ (by omega), rfl⟩

theorem rep_ptr_mem {disk : List Page} {n ptr lo hi kvs lvs pgs}
    (h : Rep disk n ptr lo hi kvs lvs pgs) : ptr ∈ pgs := by
  cases n with
  | zero => obtain ⟨l, -, -, -, -, -, -, -, h7⟩ := h; rw [h7]; exact List.mem_singleton_self _
  | succ n => obtain ⟨d, cd, -, -, -, -, -, -, -, -, -, -, h10⟩ := h; rw [h10]; exact List.mem_cons_self _ _

theorem rep_lvs_sub_pgs {disk : List Page} :
    ∀ {n ptr lo hi kvs lvs pgs}, Rep disk n ptr lo hi kvs lvs pgs →
    ∀ q ∈ lvs, q ∈ pgs := by
  intro n
  induction n with
  | zero =>
    intro ptr lo hi kvs lvs pgs h q hq
    obtain ⟨l, -, -, -, -, -, -, h6, h7⟩ := h
    rw [h7]; rw [h6] at hq; exact hq
  | succ n ih =>
    intro ptr lo hi kvs lvs pgs h q hq
    obtain ⟨d, cd, -, -, -, -, -, -, hlen, hch, -, h9, h10⟩ := h
    rw [h9] at hq
    rw [h10]
    obtain ⟨x, hx, hqx⟩ := List.mem_join.mp hq
    obtain ⟨c, hc, rfl⟩ := List.mem_map.mp hx
    obtain ⟨i, hilt, rfl⟩ := List.getElem_of_mem hc
    have hle : i ≤ d.count := by omega
    have hgd : cd.getD i ([], [], []) = cd[i] := getD_eq_elem _ hilt
    have := ih (hch i hle) q (by rw [hgd]; exact hqx)
    refine List.mem_cons_of_mem _ (List.mem_join.mpr ⟨cd[i].2.2, ?_, by rw [hgd] at this; exact this⟩)
    exact List.mem_map.mpr ⟨cd[i], List.getElem_mem hilt, rfl⟩

theorem rep_lvs_ne_nil {disk : List Page} :
    ∀ {n ptr lo hi kvs lvs pgs}, Rep disk n ptr lo hi kvs lvs pgs → lvs ≠ [] := by
  intro n
  induction n with
  | zero =>
    intro ptr lo hi kvs lvs pgs h
    obtain ⟨l, -, -, -, -, -, -, h6, -⟩ := h
    rw [h6]; exact List.cons_ne_nil _ _
  | succ n ih =>
    intro ptr lo hi kvs lvs pgs h
    obtain ⟨d, cd, -, -, -, -, -, -, hlen, hch, -, h9, -⟩ := h
    rw [h9]
    intro hnil
    have h0 : (0 : Nat) ≤ d.count := Nat.zero_le _
    have := ih (hch 0 h0)
    have hmem : (cd.getD 0 ([], [], [])).2.1 ∈ cd.map (·.2.1) := by
      have h0lt : 0 < cd.length := by omega
      rw [getD_eq_elem _ h0lt]
      exact List.mem_map.mpr ⟨cd[0], List.getElem_mem h0lt, rfl⟩
    have hnil2 := (List.flatten_eq_nil_iff.mp hnil) _ hmem
    exact ih (hch 0 h0) hnil2

theorem freeChain_frame {disk disk' : List Page} :
    ∀ {head fs}, FreeChain disk head fs →
    (∀ q ∈ fs, readPage disk' q = readPage disk q) →
    FreeChain disk' head fs := by
  intro head fs h
  induction h with
  | nil => intro _; exact .nil
  | cons p f rest hp hg hrest ih =>
    intro hf
    refine .cons p f rest hp ?_ (ih fun q hq => hf q (List.mem_cons_of_mem _ hq))
    unfold getFree at hg ⊢
    rw [hf p (List.mem_cons_self _ _)]
    exact hg

theorem chainOk_frame {disk disk' : List Page} {head tail : Nat} {lvs : List Nat}
    (h : ChainOk disk head tail lvs)
    (hf : ∀ q ∈ lvs, readPage disk' q = readPage disk q) :
    ChainOk disk' head tail lvs := by
  obtain ⟨h1, h2, h3⟩ := h
  refine ⟨h1, h2, ?_⟩
  intro i hi
  obtain ⟨l, hget, hp, hn⟩ := h3 i hi
  refine ⟨l, ?_, hp, hn⟩
  unfold getLeaf at hget ⊢
  rw [hf _ (getD_mem _ hi)]
  exact hget

/-! ### alookup utilities -/

theorem alookup_append_left {A B : List (Nat × Nat)} {k : Nat}
    (h : ∀ p ∈ A, p.1 ≠ k) : alookup (A ++ B) k = alookup B k := by
  induction A with
  | nil => rfl
  | cons p rest ih =>
    simp only [List.cons_append, alookup, List.append_eq]
    rw [if_neg (h p (List.mem_cons_self _ _)), ih (fun q hq => h q (List.mem_cons_of_mem _ hq))]

theorem alookup_append_right {A B : List (Nat × Nat)} {k : Nat}
    (h : ∀ p ∈ B, p.1 ≠ k) : alookup (A ++ B) k = alookup A k := by
  induction A with
  | nil =>
    simp only [List.nil_append, alookup]
    induction B with
    | nil => rfl
    | cons p rest ih =>
      simp only [alookup]
      rw [if_neg (h p (List.mem_cons_self _ _))]
      exact ih (fun q hq => h q (List.mem_cons_of_mem _ hq))
  | cons p rest ih =>
    simp only [List.cons_append, alookup, List.append_eq]
    by_cases hpk : p.1 = k
    · rw [if_pos hpk, if_pos hpk]
    · rw [if_neg hpk, if_neg hpk, ih]

theorem alookup_eq_none {A : List (Nat × Nat)} {k : Nat}
    (h : ∀ p ∈ A, p.1 ≠ k) : alookup A k = none := by
  induction A with
  | nil => rfl
  | cons p rest ih =>
    simp only [alookup]
    rw [if_neg (h p (List.mem_cons_self _ _))]
    exact ih (fun q hq => h q (List.mem_cons_of_mem _ hq))

/-! ### Path contexts (the tree with one child slot abstracted) -/

theorem join_map_set (f : α → List β) (cd : List α) (j : Nat) (x : α) (h : j < cd.length) :
    (((cd.set j x).map f).join)
      = ((cd.take j).map f).join ++ (f x ++ ((cd.drop (j + 1)).map f).join) := by
  rw [List.set_eq_take_cons_drop _ h]
  simp [List.map_append, List.join_append]

/-- `Ctx disk ss root nh c loh hih K1 K2 L1 L2 P1 P2`: descending from
`root` along the directory pages listed in `ss`, one reaches a child
slot at level `nh` with bounds `[loh, hih)` currently holding the
pointer `c`; the rest of the tree contributes records `K1`/`K2`, leaves
`L1`/`L2` and pages `P1`/`P2` strictly before/after that slot (in key
and preorder order respectively). -/
inductive Ctx (disk : List Page) : List Nat → Nat → Nat → Nat →
    Option Nat → Option Nat →
    List (Nat × Nat) → List (Nat × Nat) → List Nat → List Nat → List Nat → List Nat → Prop
  | top (n c : Nat) : Ctx disk [] c n c none none [] [] [] [] [] []
  | step (ss : List Nat) (root : Nat) (nh : Nat) (p : Nat) (loh hih : Option Nat)
      (K1 K2 : List (Nat × Nat)) (L1 L2 : List Nat) (P1 P2 : List Nat)
      (d : DirectoryPage) (j : Nat) (c : Nat)
      (cd : List (List (Nat × Nat) × List Nat × List Nat)) :
      Ctx disk ss root (nh + 1) p loh hih K1 K2 L1 L2 P1 P2 →
      getDir disk p = some d →
      d.keys.length = DIR_KEY_COUNT →
      d.pointers.length = DIR_PTR_COUNT →
      d.count ≤ DIR_KEY_COUNT →
      (d.keys.take d.count).Pairwise (· < ·) →
      (∀ k ∈ d.keys.take d.count, okBnd loh hih k) →
      cd.length = d.count + 1 →
      j ≤ d.count →
      d.pointers.getD j 0 = c →
      (∀ i, i ≤ d.count → i ≠ j →
        Rep disk nh (d.pointers.getD i 0)
          (if i = 0 then loh else some (d.keys.getD (i - 1) 0))
          (if i < d.count then some (d.keys.getD i 0) else hih)
          (cd.getD i ([], [], [])).1 (cd.getD i ([], [], [])).2.1
          (cd.getD i ([], [], [])).2.2) →
      Ctx disk (ss ++ [p]) root nh c
        (if j = 0 then loh else some (d.keys.getD (j - 1) 0))
        (if j < d.count then some (d.keys.getD j 0) else hih)
        (K1 ++ ((cd.take j).map (·.1)).join)
        (((cd.drop (j + 1)).map (·.1)).join ++ K2)
        (L1 ++ ((cd.take j).map (·.2.1)).join)
        (((cd.drop (j + 1)).map (·.2.1)).join ++ L2)
        (P1 ++ p :: ((cd.take j).map (·.2.2)).join)
        (((cd.drop (j + 1)).map (·.2.2)).join ++ P2)

/-- Plugging a subtree into a context yields the whole tree. -/
theorem ctx_plug {disk : List Page} :
    ∀ {ss root nh c loh hih K1 K2 L1 L2 P1 P2},
    Ctx disk ss root nh c loh hih K1 K2 L1 L2 P1 P2 →
    ∀ {kv lv pg}, Rep disk nh c loh hih kv lv pg →
    Rep disk (nh + ss.length) root none none
      (K1 ++ kv ++ K2) (L1 ++ lv ++ L2) (P1 ++ pg ++ P2) := by
  intro ss root nh c loh hih K1 K2 L1 L2 P1 P2 hctx
  induction hctx with
  | top n c => intro kv lv pg hrep; simpa using hrep
  | step ss root nh p loh hih K1 K2 L1 L2 P1 P2 d j c cd
      hctx hget hkl hpl hcnt hsort hbnd hcd hj hc hsib ih =>
    intro kv lv pg hrep
    have hjlt : j < cd.length := by omega
    have hnode : Rep disk (nh + 1) p loh hih
        (((cd.set j (kv, lv, pg)).map (·.1)).join)
        (((cd.set j (kv, lv, pg)).map (·.2.1)).join)
        (p :: ((cd.set j (kv, lv, pg)).map (·.2.2)).join) := by
      refine ⟨d, cd.set j (kv, lv, pg), hget, hkl, hpl, hcnt, hsort, hbnd,
        by rw [List.length_set]; exact hcd, ?_, rfl, rfl, rfl⟩
      intro i hile
      by_cases hij : i = j
      · subst hij
        rw [getD_set_self _ _ hjlt, hc]
        exact hrep
      · rw [getD_set_ne _ _ (fun h => hij h.symm)]
        exact hsib i hile hij
    have := ih hnode
    have harith : nh + (ss ++ [p]).length = nh + 1 + ss.length := by
      simp only [List.length_append, List.length_cons, List.length_nil]
      omega
    rw [harith]
    rw [join_map_set _ _ _ _ hjlt, join_map_set _ _ _ _ hjlt, join_map_set _ _ _ _ hjlt] at this
    simpa [List.append_assoc] using this

theorem join_split_at (f : α → List β) (cd : List α) (j : Nat) (dflt : α) (h : j < cd.length) :
    (cd.map f).join
      = ((cd.take j).map f).join ++ (f (cd.getD j dflt) ++ ((cd.drop (j + 1)).map f).join) := by
  conv_lhs => rw [← List.take_append_drop j cd, List.drop_eq_getElem_cons h]
  rw [getD_eq_elem _ h]
  simp only [List.map_append, List.map_cons, List.join_append, List.join_cons,
    List.append_assoc]

theorem pairwise_take_getD {keys : List Nat} {cnt : Nat} (hlen : cnt ≤ keys.length)
    (h : (keys.take cnt).Pairwise (· < ·)) :
    ∀ j, j < cnt → ∀ i, i < j → keys.getD i 0 < keys.getD j 0 := by
  intro j hj i hij
  have hlt : ∀ m, m < cnt → m < (keys.take cnt).length := by
    intro m hm; simp only [List.length_take]; omega
  have := List.pairwise_iff_getElem.mp h i j (hlt i (by omega)) (hlt j hj) hij
  rw [List.getElem_take] at this
  rw [List.getElem_take] at this
  rw [getD_eq_elem _ (by omega), getD_eq_elem _ (by omega)]
  exact this

theorem pairwise_take_of_getD {keys : List Nat} {cnt : Nat} (hlen : cnt ≤ keys.length)
    (h : ∀ j, j < cnt → ∀ i, i < j → keys.getD i 0 < keys.getD j 0) :
    (keys.take cnt).Pairwise (· < ·) := by
  rw [List.pairwise_iff_getElem]
  intro i j hi hj hij
  simp only [List.length_take] at hi hj
  have h1 : (keys.take cnt)[i] = keys.getD i 0 := by
    rw [List.getElem_take, getD_eq_elem _ (by omega)]
  have h2 : (keys.take cnt)[j] = keys.getD j 0 := by
    rw [List.getElem_take, getD_eq_elem _ (by omega)]
  rw [h1, h2]
  exact h j (by omega) i hij

theorem mem_take_getD {keys : List Nat} {cnt : Nat} {k : Nat}
    (hlen : cnt ≤ keys.length) (h : k ∈ keys.take cnt) :
    ∃ i, i < cnt ∧ keys.getD i 0 = k := by
  obtain ⟨i, hi, rfl⟩ := List.getElem_of_mem h
  simp only [List.length_take] at hi
  refine ⟨i, by omega, ?_⟩
  rw [List.getElem_take, getD_eq_elem _ (by omega)]

theorem getD_mem_take {keys : List Nat} {cnt i : Nat}
    (hlen : cnt ≤ keys.length) (hi : i < cnt) :
    keys.getD i 0 ∈ keys.take cnt := by
  have hlt : i < (keys.take cnt).length := by simp only [List.length_take]; omega
  have : (keys.take cnt)[i] = keys.getD i 0 := by
    rw [List.getElem_take, getD_eq_elem _ (by omega)]
  rw [← this]
  exact List.getElem_mem hlt

/-- Every record of a subtree lies inside the subtree's key interval. -/
theorem rep_kv_bnd {disk : List Page} :
    ∀ {n ptr lo hi kvs lvs pgs}, Rep disk n ptr lo hi kvs lvs pgs →
    ∀ p ∈ kvs, okBnd lo hi p.1 := by
  intro n
  induction n with
  | zero =>
    intro ptr lo hi kvs lvs pgs h p hp
    obtain ⟨l, -, -, -, -, hbnd, h5, -, -⟩ := h
    rw [h5] at hp
    exact hbnd p hp
  | succ n ih =>
    intro ptr lo hi kvs lvs pgs h p hp
    obtain ⟨d, cd, -, hkl, -, hcnt, -, hbnd, hlen, hch, h8, -, -⟩ := h
    rw [h8] at hp
    obtain ⟨x, hx, hpin⟩ := List.mem_join.mp hp
    obtain ⟨c, hc, rfl⟩ := List.mem_map.mp hx
    obtain ⟨i, hilt, rfl⟩ := List.getElem_of_mem hc
    have hle : i ≤ d.count := by omega
    have hgd : cd.getD i ([], [], []) = cd[i] := getD_eq_elem _ hilt
    have hin := ih (hch i hle) p (by rw [hgd]; exact hpin)
    obtain ⟨hinlo, hinhi⟩ := hin
    constructor
    · -- lower bound
      by_cases hi0 : i = 0
      · subst hi0; simpa using hinlo
      · rw [if_neg hi0] at hinlo
        have hkey : d.keys.getD (i - 1) 0 ∈ d.keys.take d.count :=
          getD_mem_take (by omega) (by omega)
        have := (hbnd _ hkey).1
        simp only [okLo] at hinlo ⊢
        cases lo with
        | none => trivial
        | some a => simp only [okLo] at this; omega
    · -- upper bound
      by_cases hic : i < d.count
      · rw [if_pos hic] at hinhi
        have hkey : d.keys.getD i 0 ∈ d.keys.take d.count := getD_mem_take (by omega) hic
        have := (hbnd _ hkey).2
        simp only [okHi] at hinhi ⊢
        cases hi with
        | none => trivial
        | some b => simp only [okHi] at this; omega
      · rw [if_neg hic] at hinhi
        exact hinhi

/-- Descending with `find_pointer_idx` from a subtree-with-context
reaches a leaf whose surrounding records are bracketed around `key`. -/
theorem descend_spec {disk : List Page} (key : Nat) :
    ∀ (n : Nat) {ss : List Nat} {root c : Nat} {loh hih : Option Nat}
      {K1 K2 : List (Nat × Nat)} {L1 L2 P1 P2 : List Nat}
      {kv : List (Nat × Nat)} {lv pg : List Nat},
    Ctx disk ss root n c loh hih K1 K2 L1 L2 P1 P2 →
    Rep disk n c loh hih kv lv pg →
    (∀ p ∈ K1, p.1 < key) → (∀ p ∈ K2, key < p.1) →
    okBnd loh hih key →
    ∃ (path : List Nat) (leafptr : Nat) (lo' hi' : Option Nat)
      (K1' K2' : List (Nat × Nat)) (L1' L2' P1' P2' : List Nat)
      (leaf : LeafPage),
      findPageAux disk key c n = some (path ++ [leafptr]) ∧
      path.length = n ∧
      Ctx disk (ss ++ path) root 0 leafptr lo' hi' K1' K2' L1' L2' P1' P2' ∧
      getLeaf disk leafptr = some leaf ∧
      Rep disk 0 leafptr lo' hi' leaf.live [leafptr] [leafptr] ∧
      K1' ++ leaf.live ++ K2' = K1 ++ kv ++ K2 ∧
      L1' ++ [leafptr] ++ L2' = L1 ++ lv ++ L2 ∧
      P1' ++ [leafptr] ++ P2' = P1 ++ pg ++ P2 ∧
      (∀ p ∈ K1', p.1 < key) ∧ (∀ p ∈ K2', key < p.1) ∧
      okBnd lo' hi' key := by
  intro n
  induction n with
  | zero =>
    intro ss root c loh hih K1 K2 L1 L2 P1 P2 kv lv pg hctx hrep hK1 hK2 hkey
    obtain ⟨l, hget, hl1, hl2, hl3, hl4, hkv, hlv, hpg⟩ := hrep
    subst hkv hlv hpg
    refine ⟨[], c, loh, hih, K1, K2, L1, L2, P1, P2, l, rfl, rfl, ?_, hget,
      ⟨l, hget, hl1, hl2, hl3, hl4, rfl, rfl, rfl⟩, rfl, rfl, rfl, hK1, hK2, hkey⟩
    simpa using hctx
  | succ n ih =>
    intro ss root c loh hih K1 K2 L1 L2 P1 P2 kv lv pg hctx hrep hK1 hK2 hkey
    obtain ⟨d, cd, hget, hkl, hpl, hcnt, hsort, hbnd, hcd, hch, hkv, hlv, hpg⟩ := hrep
    have hsortpos := pairwise_take_getD (by omega) hsort
    obtain ⟨hjle, hall, hhigh⟩ := find_pointer_idx_spec d key hsortpos
    set j := d.find_pointer_idx key with hj
    have hjlt : j < cd.length := by omega
    have hctx' := Ctx.step ss root n c loh hih K1 K2 L1 L2 P1 P2 d j
      (d.pointers.getD j 0) cd hctx hget hkl hpl hcnt hsort hbnd hcd hjle rfl
      (fun i hle _ => hch i hle)
    have hkey' : okBnd (if j = 0 then loh else some (d.keys.getD (j - 1) 0))
        (if j < d.count then some (d.keys.getD j 0) else hih) key := by
      constructor
      · by_cases h0 : j = 0
        · rw [if_pos h0]; exact hkey.1
        · rw [if_neg h0]
          exact hall (j - 1) (by omega)
      · by_cases hc : j < d.count
        · rw [if_pos hc]; exact hhigh hc
        · rw [if_neg hc]; exact hkey.2
    have hK1' : ∀ p ∈ K1 ++ ((cd.take j).map (·.1)).join, p.1 < key := by
      intro p hp
      rcases List.mem_append.mp hp with h | h
      · exact hK1 p h
      · obtain ⟨x, hx, hpin⟩ := List.mem_join.mp h
        obtain ⟨cdi, hcdi, rfl⟩ := List.mem_map.mp hx
        obtain ⟨i, hilt, rfl⟩ := List.getElem_of_mem hcdi
        simp only [List.length_take] at hilt
        have hij : i < j := by omega
        have hgd : (cd.take j)[i] = cd.getD i ([], [], []) := by
          rw [List.getElem_take, getD_eq_elem _ (by omega)]
        have hicnt : i < d.count := by omega
        have hb := rep_kv_bnd (hch i (by omega)) p (by rw [← hgd]; exact hpin)
        have hup := hb.2
        rw [if_pos hicnt] at hup
        have := hall i hij
        simp only [okHi] at hup
        omega
    have hK2' : ∀ p ∈ ((cd.drop (j + 1)).map (·.1)).join ++ K2, key < p.1 := by
      intro p hp
      rcases List.mem_append.mp hp with h | h
      · obtain ⟨x, hx, hpin⟩ := List.mem_join.mp h
        obtain ⟨cdi, hcdi, rfl⟩ := List.mem_map.mp hx
        obtain ⟨i, hilt, rfl⟩ := List.getElem_of_mem hcdi
        simp only [List.length_drop] at hilt
        have hgd : (cd.drop (j + 1))[i] = cd.getD (j + 1 + i) ([], [], []) := by
          rw [List.getElem_drop, getD_eq_elem _ (by omega)]
        have hle : j + 1 + i ≤ d.count := by omega
        have hb := rep_kv_bnd (hch (j + 1 + i) hle) p (by rw [← hgd]; exact hpin)
        have hlow := hb.1
        rw [if_neg (by omega)] at hlow
        have hjcnt : j < d.count := by omega
        have hkj := hhigh hjcnt
        have hmono : d.keys.getD j 0 ≤ d.keys.getD (j + 1 + i - 1) 0 := by
          rcases Nat.lt_or_ge j (j + 1 + i - 1) with hlt | hge
          · exact Nat.le_of_lt (hsortpos _ (by omega) _ hlt)
          · have : j = j + 1 + i - 1 := by omega
            rw [← this]
        simp only [okLo] at hlow
        omega
      · exact hK2 p h
    obtain ⟨path', leafptr, lo', hi', K1', K2', L1', L2', P1', P2', leaf,
      hfind', hplen, hctx2, hgetleaf, hrepleaf, hKeq, hLeq, hPeq, hK1f, hK2f, hkeyf⟩ :=
      ih hctx' (hch j hjle) hK1' hK2' hkey'
    refine ⟨(c :: path'), leafptr, lo', hi', K1', K2', L1', L2', P1', P2', leaf,
      ?_, by simp [hplen], ?_, hgetleaf, hrepleaf, ?_, ?_, ?_, hK1f, hK2f, hkeyf⟩
    · show (match getDir disk c with
        | none => none
        | some dir => (findPageAux disk key (dir.find_pointer key) n).map (c :: ·))
        = some ((c :: path') ++ [leafptr])
      rw [hget]
      show (findPageAux disk key (d.pointers.getD (d.find_pointer_idx key) 0) n).map (c :: ·)
        = some ((c :: path') ++ [leafptr])
      rw [← hj, hfind']
      rfl
    · have : ss ++ [c] ++ path' = ss ++ (c :: path') := by simp
      rw [← this]
      exact hctx2
    · rw [hKeq, hkv, join_split_at (·.1) cd j ([], [], []) hjlt]
      simp [List.append_assoc]
    · rw [hLeq, hlv, join_split_at (·.2.1) cd j ([], [], []) hjlt]
      simp [List.append_assoc]
    · rw [hPeq, hpg, join_split_at (·.2.2) cd j ([], [], []) hjlt]
      simp [List.append_assoc]

/-- `find_value` agrees with association-list lookup on the live
records of a sorted leaf. -/
theorem find_value_alookup (l : LeafPage) (key : Nat)
    (hcl : l.count ≤ l.key_value.length)
    (hsort : ∀ j, j < l.count → ∀ i, i < j →
      (l.key_value.getD i (0, 0)).1 < (l.key_value.getD j (0, 0)).1) :
    l.find_value key = alookup l.live key := by
  by_cases hpres : ∃ j, j < l.count ∧ (l.key_value.getD j (0, 0)).1 = key
  · obtain ⟨j, hj, heq⟩ := hpres
    have hok := find_index_ok l key hcl hj
      (fun m hm => by rw [← heq]; exact hsort j hj m hm) heq
    have hlive : l.live = l.live.take j ++ (l.key_value.getD j (0, 0)) :: l.live.drop (j + 1) := by
      have hjlt : j < l.live.length := by
        simp only [LeafPage.live, List.length_take]; omega
      conv_lhs => rw [← List.take_append_drop j l.live, List.drop_eq_getElem_cons hjlt]
      have : l.live[j] = l.key_value.getD j (0, 0) := by
        simp only [LeafPage.live]
        rw [List.getElem_take, getD_eq_elem _ (by omega)]
      rw [this]
    rw [LeafPage.find_value, hok, hlive, alookup_append_left, alookup, if_pos heq]
    intro p hp
    obtain ⟨i, hilt, rfl⟩ := List.getElem_of_mem hp
    simp only [List.length_take] at hilt
    have hjlive : j < l.live.length := by simp only [LeafPage.live, List.length_take]; omega
    have : (l.live.take j)[i] = l.key_value.getD i (0, 0) := by
      rw [List.getElem_take]
      simp only [LeafPage.live]
      rw [List.getElem_take, getD_eq_elem _ (by omega)]
    rw [this, ← heq]
    exact Nat.ne_of_lt (hsort j hj i (by omega))
  · push_neg at hpres
    obtain ⟨n, hn, hall, hstop⟩ := insertion_point l key hpres
    have herr := find_index_err l key hcl hn hall hstop
    rw [LeafPage.find_value, herr, alookup_eq_none]
    intro p hp
    obtain ⟨i, hilt, rfl⟩ := List.getElem_of_mem hp
    simp only [LeafPage.live, List.length_take] at hilt
    have : l.live[i] = l.key_value.getD i (0, 0) := by
      simp only [LeafPage.live]
      rw [List.getElem_take, getD_eq_elem _ (by omega)]
    rw [this]
    exact hpres i (by omega)

theorem kvSorted_pos {kv : List (Nat × Nat)} {cnt : Nat} (hlen : cnt ≤ kv.length)
    (h : kvSorted (kv.take cnt)) :
    ∀ j, j < cnt → ∀ i, i < j → (kv.getD i (0, 0)).1 < (kv.getD j (0, 0)).1 := by
  intro j hj i hij
  rw [kvSorted, List.pairwise_iff_getElem] at h
  have := h i j (by simp only [List.length_take]; omega)
    (by simp only [List.length_take]; omega) hij
  rw [List.getElem_take, List.getElem_take] at this
  rw [getD_eq_elem _ (by omega), getD_eq_elem _ (by omega)]
  exact this

theorem kvSorted_of_pos {kv : List (Nat × Nat)} {cnt : Nat} (hlen : cnt ≤ kv.length)
    (h : ∀ j, j < cnt → ∀ i, i < j → (kv.getD i (0, 0)).1 < (kv.getD j (0, 0)).1) :
    kvSorted (kv.take cnt) := by
  rw [kvSorted, List.pairwise_iff_getElem]
  intro i j hi hj hij
  simp only [List.length_take] at hi hj
  have h1 : (kv.take cnt)[i] = kv.getD i (0, 0) := by
    rw [List.getElem_take, getD_eq_elem _ (by omega)]
  have h2 : (kv.take cnt)[j] = kv.getD j (0, 0) := by
    rw [List.getElem_take, getD_eq_elem _ (by omega)]
  rw [h1, h2]
  exact h j (by omega) i hij

/-- Sortedness of a leaf's live records in positional form, out of `Rep`. -/
theorem rep_leaf_sorted_pos {disk : List Page} {ptr : Nat} {lo hi : Option Nat}
    {kvs : List (Nat × Nat)} {lvs pgs : List Nat}
    (h : Rep disk 0 ptr lo hi kvs lvs pgs) :
    ∃ l : LeafPage, getLeaf disk ptr = some l ∧ kvs = l.live ∧
      l.count ≤ l.key_value.length ∧
      ∀ j, j < l.count → ∀ i, i < j →
        (l.key_value.getD i (0, 0)).1 < (l.key_value.getD j (0, 0)).1 := by
  obtain ⟨l, hget, hl1, hl2, hl3, hl4, hkv, -, -⟩ := h
  exact ⟨l, hget, hkv, by omega, kvSorted_pos (by omega) hl3⟩

/-- `get` returns exactly the model lookup. -/
theorem get_spec (t : Tree) (m : List (Nat × Nat)) (key : Nat)
    (h : Inv t m) : t.get key = some (alookup m key) := by
  obtain ⟨lvs, pgs, fs, hd1, hrep, hchain, hfree, hnd, hbd, hdl⟩ := h
  obtain ⟨path, leafptr, lo', hi', K1', K2', L1', L2', P1', P2', lf,
    hfind, hplen, hctx, hgetleaf, hrepleaf, hKeq, hLeq, hPeq, hK1f, hK2f, hkeyf⟩ :=
    descend_spec key t.meta.depth (Ctx.top t.meta.depth t.meta.root_page) hrep
      (by simp) (by simp) ⟨trivial, trivial⟩
  have hgd : (path ++ [leafptr]).getD ((path ++ [leafptr]).length - 1) 0 = leafptr := by
    rw [getD_append_right _ (by simp)]
    simp
  obtain ⟨l2, hget2, hkv2, hcl2, hsort2⟩ := rep_leaf_sorted_pos hrepleaf
  rw [hgetleaf] at hget2
  obtain rfl := Option.some.inj hget2
  have hgoal : t.get key = some (lf.find_value key) := by
    show (match t.find_page key with
      | none => none
      | some v =>
        match getLeaf t.disk (v.getD (v.length - 1) 0) with
        | none => none
        | some page => some (page.find_value key)) = some (lf.find_value key)
    rw [show t.find_page key = some (path ++ [leafptr]) from hfind]
    show (match getLeaf t.disk ((path ++ [leafptr]).getD ((path ++ [leafptr]).length - 1) 0) with
      | none => none
      | some page => some (page.find_value key)) = some (lf.find_value key)
    rw [hgd, hgetleaf]
  rw [hgoal, find_value_alookup lf key hcl2 hsort2]
  congr 1
  have hm : m = K1' ++ lf.live ++ K2' := by
    rw [hKeq]; simp
  rw [hm, List.append_assoc, alookup_append_left (fun p hp => Nat.ne_of_lt (hK1f p hp)),
    alookup_append_right (fun p hp => Nat.ne_of_gt (hK2f p hp))]

/-- The freshly initialized tree represents the empty map. -/
theorem inv_init : Inv initTree [] := by
  refine ⟨[2], [1, 2], [], by decide, ?_, ?_, ?_, by decide, by decide, by decide⟩
  · -- Rep of the one-directory, one-leaf tree
    refine ⟨{ DirectoryPage.init with
        pointers := DirectoryPage.init.pointers.set 0 DEFAULT_PAGE0_IDX },
      [([], [2], [2])], rfl, by simp [DirectoryPage.init], by simp [DirectoryPage.init], ?_, ?_, ?_, rfl, ?_, rfl, rfl, rfl⟩
    · show (0 : Nat) ≤ DIR_KEY_COUNT
      decide
    · show (List.take 0 _).Pairwise _
      simp
    · intro k hk
      simp [DirectoryPage.init] at hk
    · intro i hile
      have hi0 : i = 0 := by
        revert hile
        show i ≤ 0 → i = 0
        omega
      subst hi0
      refine ⟨LeafPage.init, rfl, by simp [LeafPage.init], ?_, ?_, ?_, rfl, rfl, rfl⟩
      · show (0 : Nat) ≤ LEAF_RECORD_COUNT
        decide
      · show kvSorted (List.take 0 _)
        simp [kvSorted]
      · intro p hp
        simp [LeafPage.live, LeafPage.init] at hp
  · -- chain
    refine ⟨rfl, rfl, ?_⟩
    intro i hi
    have hi0 : i = 0 := by
      revert hi
      show i < [2].length → i = 0
      simp
    subst hi0
    exact ⟨LeafPage.init, rfl, rfl, rfl⟩
  · exact .nil

/-! ## Pointwise characterization of `copyWithin` and `setRange` -/

theorem copyWithin_length (l : List α) (src len dst : Nat)
    (hs : src + len ≤ l.length) (hd : dst + len ≤ l.length) :
    (copyWithin l src len dst).length = l.length := by
  simp only [copyWithin, List.length_append, List.length_take, List.length_drop]
  omega

theorem copyWithin_getD (l : List α) (src len dst i : Nat) (d : α)
    (hs : src + len ≤ l.length) (hd : dst + len ≤ l.length) :
    (copyWithin l src len dst).getD i d =
      if i < dst then l.getD i d
      else if i < dst + len then l.getD (src + (i - dst)) d
      else l.getD i d := by
  have hA : (l.take dst).length = dst := by simp only [List.length_take]; omega
  have hB : ((l.drop src).take len).length = len := by
    simp only [List.length_take, List.length_drop]; omega
  have hAB : (l.take dst ++ (l.drop src).take len).length = dst + len := by
    simp only [List.length_append, hA, hB]
  unfold copyWithin
  by_cases h1 : i < dst
  · rw [if_pos h1, getD_append_left _ (by omega), getD_append_left _ (by omega),
      getD_take _ h1]
  · rw [if_neg h1]
    by_cases h2 : i < dst + len
    · have harith : src + (i - dst) = src + (i - dst) := rfl
      rw [if_pos h2, getD_append_left _ (by omega),
        getD_append_right _ (by omega), hA, getD_take _ (by omega), getD_drop]
    · have harith : dst + len + (i - (dst + len)) = i := by omega
      rw [if_neg h2, getD_append_right _ (by omega), hAB, getD_drop, harith]

theorem setRange_length (l : List α) (dst : Nat) (src : List α)
    (h : dst + src.length ≤ l.length) :
    (setRange l dst src).length = l.length := by
  simp only [setRange, List.length_append, List.length_take, List.length_drop]
  omega

theorem setRange_getD (l : List α) (dst : Nat) (src : List α) (i : Nat) (d : α)
    (h : dst + src.length ≤ l.length) :
    (setRange l dst src).getD i d =
      if i < dst then l.getD i d
      else if i < dst + src.length then src.getD (i - dst) d
      else l.getD i d := by
  have hA : (l.take dst).length = dst := by simp only [List.length_take]; omega
  have hAB : (l.take dst ++ src).length = dst + src.length := by
    simp only [List.length_append, hA]
  unfold setRange
  by_cases h1 : i < dst
  · rw [if_pos h1, getD_append_left _ (by omega), getD_append_left _ (by omega),
      getD_take _ h1]
  · rw [if_neg h1]
    by_cases h2 : i < dst + src.length
    · rw [if_pos h2, getD_append_left _ (by omega), getD_append_right _ (by omega), hA]
    · rw [if_neg h2, getD_append_right _ (by omega), hAB, getD_drop]
      congr 1
      omega

/-! ## The sorted association-list model operations -/

/-- Sorted insertion-or-update: the model of one `put`. -/
def insertKV : List (Nat × Nat) → Nat → Nat → List (Nat × Nat)
  | [], k, v => [(k, v)]
  | p :: rest, k, v =>
    if k < p.1 then (k, v) :: p :: rest
    else if k = p.1 then (k, v) :: rest
    else p :: insertKV rest k v

/-- Removal of the (first) record with the given key: the model of one
`delete`. -/
def eraseKV : List (Nat × Nat) → Nat → List (Nat × Nat)
  | [], _ => []
  | p :: rest, k => if p.1 = k then rest else p :: eraseKV rest k

theorem insertKV_mem {m : List (Nat × Nat)} {k v : Nat} :
    ∀ q ∈ insertKV m k v, q = (k, v) ∨ q ∈ m := by
  induction m with
  | nil => intro q hq; simp only [insertKV] at hq; simp at hq; exact Or.inl hq
  | cons p rest ih =>
    intro q hq
    simp only [insertKV] at hq
    split_ifs at hq with h1 h2
    · rcases List.mem_cons.mp hq with h | h
      · exact Or.inl h
      · exact Or.inr h
    · rcases List.mem_cons.mp hq with h | h
      · exact Or.inl h
      · exact Or.inr (List.mem_cons_of_mem _ h)
    · rcases List.mem_cons.mp hq with h | h
      · exact Or.inr (h ▸ List.mem_cons_self _ _)
      · rcases ih q h with h' | h'
        · exact Or.inl h'
        · exact Or.inr (List.mem_cons_of_mem _ h')

theorem eraseKV_sublist (m : List (Nat × Nat)) (k : Nat) : (eraseKV m k).Sublist m := by
  induction m with
  | nil => simp [eraseKV]
  | cons p rest ih =>
    simp only [eraseKV]
    split_ifs with h
    · exact (List.sublist_cons_self p rest)
    · exact ih.cons₂ p

theorem eraseKV_mem {m : List (Nat × Nat)} {k : Nat} :
    ∀ q ∈ eraseKV m k, q ∈ m :=
  fun _ hq => (eraseKV_sublist m k).mem hq

theorem insertKV_sorted {m : List (Nat × Nat)} {k v : Nat} (h : kvSorted m) :
    kvSorted (insertKV m k v) := by
  induction m with
  | nil => simp [insertKV, kvSorted]
  | cons p rest ih =>
    rw [kvSorted, List.pairwise_cons] at h
    obtain ⟨hp, hrest⟩ := h
    simp only [insertKV]
    split_ifs with h1 h2
    · rw [kvSorted, List.pairwise_cons]
      refine ⟨?_, List.Pairwise.cons hp hrest⟩
      intro q hq
      rcases List.mem_cons.mp hq with rfl | hq'
      · exact h1
      · exact Nat.lt_trans h1 (hp q hq')
    · rw [kvSorted, List.pairwise_cons]
      exact ⟨fun q hq => h2 ▸ hp q hq, hrest⟩
    · rw [kvSorted, List.pairwise_cons]
      refine ⟨?_, ih hrest⟩
      intro q hq
      rcases insertKV_mem q hq with rfl | hq'
      · omega
      · exact hp q hq'

theorem eraseKV_sorted {m : List (Nat × Nat)} {k : Nat} (h : kvSorted m) :
    kvSorted (eraseKV m k) :=
  h.sublist (eraseKV_sublist m k)

theorem insertKV_bnd {m : List (Nat × Nat)} {k v : Nat} {lo hi : Option Nat}
    (hm : ∀ q ∈ m, okBnd lo hi q.1) (hk : okBnd lo hi k) :
    ∀ q ∈ insertKV m k v, okBnd lo hi q.1 := by
  intro q hq
  rcases insertKV_mem q hq with rfl | hq'
  · exact hk
  · exact hm q hq'

theorem insertKV_append_left {A B : List (Nat × Nat)} {k v : Nat}
    (h : ∀ p ∈ A, p.1 < k) :
    insertKV (A ++ B) k v = A ++ insertKV B k v := by
  induction A with
  | nil => rfl
  | cons p rest ih =>
    have hp : p.1 < k := h p (List.mem_cons_self _ _)
    have hstep : insertKV ((p :: rest) ++ B) k v = p :: insertKV (rest ++ B) k v := by
      show insertKV (p :: (rest ++ B)) k v = _
      simp only [insertKV]
      rw [if_neg (by omega), if_neg (by omega)]
    rw [hstep, ih (fun q hq => h q (List.mem_cons_of_mem _ hq)), List.cons_append]

theorem insertKV_head_gt {B : List (Nat × Nat)} {k v : Nat}
    (h : ∀ p ∈ B, k < p.1) :
    insertKV B k v = (k, v) :: B := by
  cases B with
  | nil => rfl
  | cons p rest =>
    simp only [insertKV]
    rw [if_pos (h p (List.mem_cons_self _ _))]

theorem insertKV_append_right {B C : List (Nat × Nat)} {k v : Nat}
    (h : ∀ p ∈ C, k < p.1) :
    insertKV (B ++ C) k v = insertKV B k v ++ C := by
  induction B with
  | nil =>
    simp only [List.nil_append]
    rw [insertKV_head_gt h]
    rfl
  | cons p rest ih =>
    by_cases h1 : k < p.1
    · have hL : insertKV ((p :: rest) ++ C) k v = (k, v) :: p :: (rest ++ C) := by
        show insertKV (p :: (rest ++ C)) k v = _
        simp only [insertKV]
        rw [if_pos h1]
      have hR : insertKV (p :: rest) k v = (k, v) :: p :: rest := by
        simp only [insertKV]
        rw [if_pos h1]
      rw [hL, hR]
      rfl
    · by_cases h2 : k = p.1
      · have hL : insertKV ((p :: rest) ++ C) k v = (k, v) :: (rest ++ C) := by
          show insertKV (p :: (rest ++ C)) k v = _
          simp only [insertKV]
          rw [if_neg h1, if_pos h2]
        have hR : insertKV (p :: rest) k v = (k, v) :: rest := by
          simp only [insertKV]
          rw [if_neg h1, if_pos h2]
        rw [hL, hR]
        rfl
      · have hL : insertKV ((p :: rest) ++ C) k v = p :: insertKV (rest ++ C) k v := by
          show insertKV (p :: (rest ++ C)) k v = _
          simp only [insertKV]
          rw [if_neg h1, if_neg h2]
        have hR : insertKV (p :: rest) k v = p :: insertKV rest k v := by
          simp only [insertKV]
          rw [if_neg h1, if_neg h2]
        rw [hL, hR, ih]
        rfl

theorem insertKV_found {B : List (Nat × Nat)} {k w v : Nat} :
    insertKV ((k, w) :: B) k v = (k, v) :: B := by
  simp [insertKV]

theorem eraseKV_of_not_mem {C : List (Nat × Nat)} {k : Nat}
    (h : ∀ p ∈ C, p.1 ≠ k) : eraseKV C k = C := by
  induction C with
  | nil => rfl
  | cons p rest ih =>
    simp only [eraseKV]
    rw [if_neg (h p (List.mem_cons_self _ _)), ih (fun q hq => h q (List.mem_cons_of_mem _ hq))]

theorem eraseKV_append_left {A B : List (Nat × Nat)} {k : Nat}
    (h : ∀ p ∈ A, p.1 ≠ k) :
    eraseKV (A ++ B) k = A ++ eraseKV B k := by
  induction A with
  | nil => rfl
  | cons p rest ih =>
    have hstep : eraseKV ((p :: rest) ++ B) k = p :: eraseKV (rest ++ B) k := by
      show eraseKV (p :: (rest ++ B)) k = _
      simp only [eraseKV]
      rw [if_neg (h p (List.mem_cons_self _ _))]
    rw [hstep, ih (fun q hq => h q (List.mem_cons_of_mem _ hq)), List.cons_append]

theorem eraseKV_found {B : List (Nat × Nat)} {k w : Nat} :
    eraseKV ((k, w) :: B) k = B := by
  simp [eraseKV]

theorem alookup_cons (p : Nat × Nat) (rest : List (Nat × Nat)) (k' : Nat) :
    alookup (p :: rest) k' = if p.1 = k' then some p.2 else alookup rest k' := rfl

theorem alookup_insertKV (m : List (Nat × Nat)) (k v k' : Nat) :
    alookup (insertKV m k v) k' = if k = k' then some v else alookup m k' := by
  induction m with
  | nil =>
    show alookup [(k, v)] k' = _
    rw [alookup_cons]
  | cons p rest ih =>
    by_cases h1 : k < p.1
    · have hstep : insertKV (p :: rest) k v = (k, v) :: p :: rest := by
        simp only [insertKV]
        rw [if_pos h1]
      rw [hstep, alookup_cons]
    · by_cases h2 : k = p.1
      · have hstep : insertKV (p :: rest) k v = (k, v) :: rest := by
          simp only [insertKV]
          rw [if_neg h1, if_pos h2]
        rw [hstep, alookup_cons, alookup_cons]
        by_cases h3 : k = k'
        · rw [if_pos h3, if_pos h3]
        · rw [if_neg h3, if_neg h3, if_neg (by omega : ¬ p.1 = k')]
      · have hstep : insertKV (p :: rest) k v = p :: insertKV rest k v := by
          simp only [insertKV]
          rw [if_neg h1, if_neg h2]
        rw [hstep, alookup_cons, ih, alookup_cons]
        by_cases h3 : p.1 = k'
        · rw [if_pos h3, if_pos h3, if_neg (by omega : ¬ k = k')]
        · rw [if_neg h3, if_neg h3]

theorem alookup_eraseKV {m : List (Nat × Nat)} (hs : kvSorted m) (k k' : Nat) :
    alookup (eraseKV m k) k' = if k = k' then none else alookup m k' := by
  induction m with
  | nil =>
    show alookup [] k' = _
    by_cases h : k = k'
    · rw [if_pos h]
      rfl
    · rw [if_neg h]
  | cons p rest ih =>
    rw [kvSorted, List.pairwise_cons] at hs
    obtain ⟨hp, hrest⟩ := hs
    by_cases h1 : p.1 = k
    · have hstep : eraseKV (p :: rest) k = rest := by
        simp only [eraseKV]
        rw [if_pos h1]
      rw [hstep, alookup_cons]
      by_cases h2 : k = k'
      · rw [if_pos h2]
        exact alookup_eq_none (fun q hq => by have := hp q hq; omega)
      · rw [if_neg h2, if_neg (by omega : ¬ p.1 = k')]
    · have hstep : eraseKV (p :: rest) k = p :: eraseKV rest k := by
        simp only [eraseKV]
        rw [if_neg h1]
      rw [hstep, alookup_cons, ih hrest, alookup_cons]
      by_cases h2 : p.1 = k'
      · rw [if_pos h2, if_pos h2, if_neg (by omega : ¬ k = k')]
      · rw [if_neg h2, if_neg h2]

theorem eraseKV_not_found {m : List (Nat × Nat)} {k : Nat}
    (h : alookup m k = none) : eraseKV m k = m := by
  induction m with
  | nil => rfl
  | cons p rest ih =>
    simp only [alookup] at h
    by_cases hp : p.1 = k
    · rw [if_pos hp] at h
      exact absurd h (by simp)
    · rw [if_neg hp] at h
      simp only [eraseKV]
      rw [if_neg hp, ih h]

/-! ## Effect of the leaf-page operations on the live records -/

theorem live_length {l : LeafPage} (hcl : l.count ≤ l.key_value.length) :
    l.live.length = l.count := by
  simp only [LeafPage.live, List.length_take]
  omega

theorem mem_take_getD_pair (kv : List (Nat × Nat)) {cnt : Nat} {p : Nat × Nat}
    (hlen : cnt ≤ kv.length) (h : p ∈ kv.take cnt) :
    ∃ i, i < cnt ∧ kv.getD i (0, 0) = p := by
  obtain ⟨i, hi, rfl⟩ := List.getElem_of_mem h
  simp only [List.length_take] at hi
  refine ⟨i, by omega, ?_⟩
  rw [List.getElem_take, getD_eq_elem _ (by omega)]

theorem getD_mem_take_pair {kv : List (Nat × Nat)} {cnt i : Nat}
    (hlen : cnt ≤ kv.length) (hi : i < cnt) :
    kv.getD i (0, 0) ∈ kv.take cnt := by
  have hlt : i < (kv.take cnt).length := by simp only [List.length_take]; omega
  have : (kv.take cnt)[i] = kv.getD i (0, 0) := by
    rw [List.getElem_take, getD_eq_elem _ (by omega)]
  rw [← this]
  exact List.getElem_mem hlt

theorem take_append_cons {A : List α} (B : List α) (x : α) {n : Nat} (h : A.length < n) :
    (A ++ x :: B).take n = A ++ x :: B.take (n - A.length - 1) := by
  induction A generalizing n with
  | nil =>
    simp only [List.length_nil] at h
    obtain ⟨m, rfl⟩ : ∃ m, n = m + 1 := ⟨n - 1, by omega⟩
    simp only [List.nil_append, List.take_succ_cons, List.length_nil]
    congr 1
  | cons a A' ih =>
    simp only [List.length_cons] at h
    obtain ⟨m, rfl⟩ : ∃ m, n = m + 1 := ⟨n - 1, by omega⟩
    simp only [List.cons_append, List.take_succ_cons, List.length_cons]
    rw [ih (by omega)]
    have : m + 1 - (A'.length + 1) - 1 = m - A'.length - 1 := by omega
    rw [this]

theorem take_set_self (l : List α) (n : Nat) (x : α) : (l.set n x).take n = l.take n := by
  by_cases h : n < l.length
  · rw [List.set_eq_take_cons_drop _ h,
      take_append_len (by simp only [List.length_take]; omega)]
  · rw [List.set_eq_of_length_le (by omega)]

/-- Decomposition of the live records around a hit position. -/
theorem live_decomp (l : LeafPage) {j : Nat}
    (hcl : l.count ≤ l.key_value.length) (hj : j < l.count) :
    l.live = l.live.take j ++ l.key_value.getD j (0, 0) :: l.live.drop (j + 1) := by
  have hjlt : j < l.live.length := by rw [live_length hcl]; omega
  conv_lhs => rw [← List.take_append_drop j l.live, List.drop_eq_getElem_cons hjlt]
  have : l.live[j] = l.key_value.getD j (0, 0) := by
    simp only [LeafPage.live]
    rw [List.getElem_take, getD_eq_elem _ (by omega)]
  rw [this]

theorem live_take_eq (l : LeafPage) {j : Nat} (hj : j ≤ l.count) :
    l.live.take j = l.key_value.take j := by
  simp only [LeafPage.live]
  rw [List.take_take]
  congr 1
  omega

theorem live_drop_eq (l : LeafPage) (j : Nat) :
    l.live.drop j = (l.key_value.drop j).take (l.count - j) := by
  simp only [LeafPage.live]
  rw [drop_of_take]

/-- `LeafPage.put` computes the sorted insertion `insertKV` on the live
records (given room, or a hit). -/
theorem leaf_put_spec (l : LeafPage) (key value : Nat)
    (hlen : l.key_value.length = LEAF_RECORD_COUNT)
    (hcnt : l.count ≤ LEAF_RECORD_COUNT)
    (hsort : kvSorted l.live)
    (hroom : l.count < LEAF_RECORD_COUNT ∨ (alookup l.live key).isSome = true) :
    ∃ l', l.put key value = some l' ∧
      l'.live = insertKV l.live key value ∧
      l'.key_value.length = LEAF_RECORD_COUNT ∧
      l'.count = (if (alookup l.live key).isSome then l.count else l.count + 1) ∧
      l'.count ≤ LEAF_RECORD_COUNT ∧
      l'.next = l.next ∧ l'.prev = l.prev := by
  have hcl : l.count ≤ l.key_value.length := by omega
  have hspos := kvSorted_pos (by omega : l.count ≤ l.key_value.length) hsort
  by_cases hpres : ∃ j, j < l.count ∧ (l.key_value.getD j (0, 0)).1 = key
  · -- hit: update in place
    obtain ⟨j, hj, heq⟩ := hpres
    have hok := find_index_ok l key hcl hj
      (fun m hm => by rw [← heq]; exact hspos j hj m hm) heq
    have hdecomp := live_decomp l hcl hj
    have hAlt : ∀ p ∈ l.live.take j, p.1 < key := by
      intro p hp
      rw [live_take_eq l (by omega)] at hp
      obtain ⟨i, hi, rfl⟩ := mem_take_getD_pair l.key_value (by omega) hp
      rw [← heq]
      exact hspos j hj i hi
    have hpair : l.key_value.getD j (0, 0) = (key, (l.key_value.getD j (0, 0)).2) := by
      rw [← heq]
    have hfound : (alookup l.live key).isSome = true := by
      rw [hdecomp, alookup_append_left (fun p hp => Nat.ne_of_lt (hAlt p hp)), hpair,
        alookup_cons, if_pos rfl]
      rfl
    refine ⟨{ l with key_value := l.key_value.set j ((l.key_value.getD j (0, 0)).1, value) },
      ?_, ?_, by rw [List.length_set, hlen], by rw [if_pos hfound],
      by show l.count ≤ LEAF_RECORD_COUNT; omega, rfl, rfl⟩
    · simp only [LeafPage.put, hok]
    · show (l.key_value.set j ((l.key_value.getD j (0, 0)).1, value)).take l.count = _
      rw [heq]
      have h1 : (l.key_value.set j (key, value)).take l.count
          = l.key_value.take j ++ (key, value) :: (l.key_value.drop (j + 1)).take (l.count - (j + 1)) := by
        rw [List.set_eq_take_cons_drop _ (by omega : j < l.key_value.length),
          take_append_cons _ _ (by simp only [List.length_take]; omega)]
        have h2 : l.count - (l.key_value.take j).length - 1 = l.count - (j + 1) := by
          simp only [List.length_take]
          omega
        rw [h2]
      rw [h1, hdecomp, insertKV_append_left hAlt, hpair, insertKV_found,
        live_take_eq l (by omega), live_drop_eq]
  · -- miss: fresh insert
    push_neg at hpres
    have habs : ∀ p ∈ l.live, p.1 ≠ key := by
      intro p hp
      obtain ⟨i, hi, rfl⟩ := mem_take_getD_pair l.key_value hcl hp
      exact hpres i hi
    have hnone : alookup l.live key = none := alookup_eq_none habs
    have hroom' : l.count < LEAF_RECORD_COUNT := by
      rcases hroom with h | h
      · exact h
      · rw [hnone] at h
        simp at h
    obtain ⟨n, hn, hall, hstop⟩ := insertion_point l key hpres
    have herr := find_index_err l key hcl hn hall hstop
    have hnotfull : l.is_full = false := by
      simp only [LeafPage.is_full]
      exact decide_eq_false (by omega)
    refine ⟨{ l with
        key_value := (copyWithin l.key_value n (l.count - n) (n + 1)).set n (key, value)
        count := l.count + 1 }, ?_, ?_, ?_, by rw [hnone]; rfl,
      by show l.count + 1 ≤ LEAF_RECORD_COUNT; omega, rfl, rfl⟩
    · simp [LeafPage.put, herr, hnotfull]
    · show ((copyWithin l.key_value n (l.count - n) (n + 1)).set n (key, value)).take (l.count + 1) = _
      rw [insert_shift_live (key, value) (by omega) hn]
      have hAlt : ∀ p ∈ l.live.take n, p.1 < key := by
        intro p hp
        rw [live_take_eq l hn] at hp
        obtain ⟨i, hi, rfl⟩ := mem_take_getD_pair l.key_value (by omega) hp
        exact hall i hi
      have hlive : l.live.length = l.count := live_length hcl
      have hBgt : ∀ p ∈ l.live.drop n, key < p.1 := by
        intro p hp
        obtain ⟨i, hi, rfl⟩ := List.getElem_of_mem hp
        have hdl : (l.live.drop n).length = l.count - n := by
          rw [List.length_drop, hlive]
        have hni : n + i < l.count := by omega
        have hidx : (l.live.drop n)[i] = l.key_value.getD (n + i) (0, 0) := by
          rw [List.getElem_drop]
          simp only [LeafPage.live]
          rw [List.getElem_take, getD_eq_elem _ (by omega)]
        rw [hidx]
        have hkeyn : key < (l.key_value.getD n (0, 0)).1 := hstop (by omega)
        rcases Nat.eq_or_lt_of_le (Nat.le_add_right n i) with h | h
        · rw [← h]
          exact hkeyn
        · exact Nat.lt_trans hkeyn (hspos (n + i) hni n h)
      have hsplit : l.live = l.live.take n ++ l.live.drop n := (List.take_append_drop n l.live).symm
      conv_rhs => rw [hsplit]
      rw [insertKV_append_left hAlt, insertKV_head_gt hBgt]
      rfl
    · show ((copyWithin l.key_value n (l.count - n) (n + 1)).set n (key, value)).length = _
      rw [List.length_set, copyWithin_length _ _ _ _ (by omega) (by omega), hlen]

/-- `LeafPage.delete` computes `eraseKV` on the live records. -/
theorem leaf_delete_spec (l : LeafPage) (key : Nat)
    (hlen : l.key_value.length = LEAF_RECORD_COUNT)
    (hcnt : l.count ≤ LEAF_RECORD_COUNT)
    (hsort : kvSorted l.live) :
    (l.delete key).2.live = eraseKV l.live key ∧
    (l.delete key).2.key_value.length = LEAF_RECORD_COUNT ∧
    (l.delete key).2.count = (if (alookup l.live key).isSome then l.count - 1 else l.count) ∧
    (l.delete key).2.next = l.next ∧ (l.delete key).2.prev = l.prev ∧
    (l.delete key).1 = (alookup l.live key).isSome := by
  have hcl : l.count ≤ l.key_value.length := by omega
  have hspos := kvSorted_pos (by omega : l.count ≤ l.key_value.length) hsort
  by_cases hpres : ∃ j, j < l.count ∧ (l.key_value.getD j (0, 0)).1 = key
  · obtain ⟨j, hj, heq⟩ := hpres
    have hok := find_index_ok l key hcl hj
      (fun m hm => by rw [← heq]; exact hspos j hj m hm) heq
    have hdecomp := live_decomp l hcl hj
    have hAlt : ∀ p ∈ l.live.take j, p.1 < key := by
      intro p hp
      rw [live_take_eq l (by omega)] at hp
      obtain ⟨i, hi, rfl⟩ := mem_take_getD_pair l.key_value (by omega) hp
      rw [← heq]
      exact hspos j hj i hi
    have hpair : l.key_value.getD j (0, 0) = (key, (l.key_value.getD j (0, 0)).2) := by
      rw [← heq]
    have hfound : (alookup l.live key).isSome = true := by
      rw [hdecomp, alookup_append_left (fun p hp => Nat.ne_of_lt (hAlt p hp)), hpair,
        alookup_cons, if_pos rfl]
      rfl
    have hstep : l.delete key = (true,
        { l with
          key_value := (copyWithin l.key_value (j + 1) (l.count - (j + 1)) j).set (l.count - 1) (0, 0)
          count := l.count - 1 }) := by
      simp only [LeafPage.delete, hok]
    rw [hstep]
    refine ⟨?_, ?_, by rw [if_pos hfound], rfl, rfl, by rw [hfound]⟩
    · show ((copyWithin l.key_value (j + 1) (l.count - (j + 1)) j).set (l.count - 1) (0, 0)).take (l.count - 1) = _
      rw [take_set_self]
      have hchunks : copyWithin l.key_value (j + 1) (l.count - (j + 1)) j
          = (l.key_value.take j ++ (l.key_value.drop (j + 1)).take (l.count - (j + 1)))
            ++ l.key_value.drop (j + (l.count - (j + 1))) := by
        rfl
      have hlen12 : (l.key_value.take j ++ (l.key_value.drop (j + 1)).take (l.count - (j + 1))).length
          = l.count - 1 := by
        simp only [List.length_append, List.length_take, List.length_drop]
        omega
      rw [hchunks, take_append_len hlen12, hdecomp, eraseKV_append_left
        (fun p hp => Nat.ne_of_lt (hAlt p hp)), hpair, eraseKV_found,
        live_take_eq l (by omega), live_drop_eq]
    · show ((copyWithin l.key_value (j + 1) (l.count - (j + 1)) j).set (l.count - 1) (0, 0)).length = _
      rw [List.length_set, copyWithin_length _ _ _ _ (by omega) (by omega), hlen]
  · push_neg at hpres
    have habs : ∀ p ∈ l.live, p.1 ≠ key := by
      intro p hp
      obtain ⟨i, hi, rfl⟩ := mem_take_getD_pair l.key_value hcl hp
      exact hpres i hi
    have hnone : alookup l.live key = none := alookup_eq_none habs
    obtain ⟨n, hn, hall, hstop⟩ := insertion_point l key hpres
    have herr := find_index_err l key hcl hn hall hstop
    have hstep : l.delete key = (false, l) := by
      simp only [LeafPage.delete, herr]
    rw [hstep, hnone, eraseKV_of_not_mem habs]
    exact ⟨rfl, hlen, by rfl, rfl, rfl, rfl⟩

/-- `LeafPage.split` halves the live records. -/
theorem leaf_split_spec (l : LeafPage)
    (hlen : l.key_value.length = LEAF_RECORD_COUNT)
    (hcount : l.count = LEAF_RECORD_COUNT) :
    (l.split).1.live = l.live.take (LEAF_RECORD_COUNT / 2) ∧
    (l.split).2.live = l.live.drop (LEAF_RECORD_COUNT / 2) ∧
    (l.split).1.count = LEAF_RECORD_COUNT / 2 ∧
    (l.split).2.count = LEAF_RECORD_COUNT - LEAF_RECORD_COUNT / 2 ∧
    (l.split).1.key_value.length = LEAF_RECORD_COUNT ∧
    (l.split).2.key_value.length = LEAF_RECORD_COUNT ∧
    (l.split).1.next = l.next ∧ (l.split).1.prev = l.prev ∧
    (l.split).2.next = NULL_IDX ∧ (l.split).2.prev = NULL_IDX := by
  have hM : LEAF_RECORD_COUNT = 502 := rfl
  refine ⟨?_, ?_, rfl, rfl, ?_, ?_, rfl, rfl, rfl, rfl⟩
  · show (l.key_value.take (LEAF_RECORD_COUNT / 2) ++
      List.replicate (LEAF_RECORD_COUNT - LEAF_RECORD_COUNT / 2) (0, 0)).take (LEAF_RECORD_COUNT / 2) = _
    rw [take_append_len (by simp only [List.length_take]; omega),
      live_take_eq l (by omega)]
  · show (setRange LeafPage.init.key_value 0
      ((l.key_value.drop (LEAF_RECORD_COUNT / 2)).take (LEAF_RECORD_COUNT - LEAF_RECORD_COUNT / 2))).take
        (LEAF_RECORD_COUNT - LEAF_RECORD_COUNT / 2) = _
    show (List.take 0 _ ++ _ ++ _).take _ = _
    have harith : LEAF_RECORD_COUNT - LEAF_RECORD_COUNT / 2 = l.count - LEAF_RECORD_COUNT / 2 := by
      omega
    rw [List.take_zero, List.nil_append,
      take_append_len (by simp only [List.length_take, List.length_drop, hlen]; omega),
      live_drop_eq, harith]
  · show (l.key_value.take (LEAF_RECORD_COUNT / 2) ++
      List.replicate (LEAF_RECORD_COUNT - LEAF_RECORD_COUNT / 2) (0, 0)).length = _
    simp only [List.length_append, List.length_take, List.length_replicate]
    omega
  · show (setRange LeafPage.init.key_value 0 _).length = _
    rw [setRange_length]
    · simp [LeafPage.init]
    · simp only [List.length_take, List.length_drop, hlen, LeafPage.init,
        List.length_replicate]
      omega

/-- `LeafPage.steal_high` pops the greatest live record. -/
theorem leaf_steal_high_spec (l : LeafPage)
    (hlen : l.key_value.length = LEAF_RECORD_COUNT)
    (hcnt : l.count ≤ LEAF_RECORD_COUNT)
    (hcan : l.count > LEAF_RECORD_COUNT / 2) :
    ∃ x l', l.steal_high = some (x, l') ∧
      l.live = l'.live ++ [x] ∧
      l'.live = l.live.take (l.count - 1) ∧
      l'.count = l.count - 1 ∧
      l'.key_value.length = LEAF_RECORD_COUNT ∧
      l'.next = l.next ∧ l'.prev = l.prev := by
  have hc : l.can_allow_stolen_key = true := by
    simp only [LeafPage.can_allow_stolen_key]
    exact decide_eq_true (by omega)
  have hstep : l.steal_high = some (l.key_value.getD (l.count - 1) (0, 0),
      { l with count := l.count - 1, key_value := l.key_value.set (l.count - 1) (0, 0) }) := by
    simp only [LeafPage.steal_high, hc, if_true]
  have hlive' : ({ l with
      count := l.count - 1
      key_value := l.key_value.set (l.count - 1) (0, 0) } : LeafPage).live
      = l.live.take (l.count - 1) := by
    show (l.key_value.set (l.count - 1) (0, 0)).take (l.count - 1) = _
    rw [take_set_self, live_take_eq l (by omega)]
  refine ⟨_, _, hstep, ?_, hlive', rfl, by rw [List.length_set, hlen], rfl, rfl⟩
  rw [hlive', live_take_eq l (by omega)]
  have hdecomp := live_decomp l (by omega) (by omega : l.count - 1 < l.count)
  rw [hdecomp, live_take_eq l (by omega)]
  have hdropnil : l.live.drop (l.count - 1 + 1) = [] := by
    rw [List.drop_eq_nil_iff, live_length (by omega)]
    omega
  rw [hdropnil]

/-- `LeafPage.steal_low` pops the least live record. -/
theorem leaf_steal_low_spec (l : LeafPage)
    (hlen : l.key_value.length = LEAF_RECORD_COUNT)
    (hcnt : l.count ≤ LEAF_RECORD_COUNT)
    (hcan : l.count > LEAF_RECORD_COUNT / 2) :
    ∃ x l', l.steal_low = some (x, l') ∧
      l.live = x :: l'.live ∧
      l'.live = l.live.drop 1 ∧
      l'.count = l.count - 1 ∧
      l'.key_value.length = LEAF_RECORD_COUNT ∧
      l'.next = l.next ∧ l'.prev = l.prev := by
  have hc : l.can_allow_stolen_key = true := by
    simp only [LeafPage.can_allow_stolen_key]
    exact decide_eq_true (by omega)
  have hstep : l.steal_low = some (l.key_value.getD 0 (0, 0),
      { l with
        key_value := (copyWithin l.key_value 1 (l.count - 1) 0).set (l.count - 1) (0, 0)
        count := l.count - 1 }) := by
    simp only [LeafPage.steal_low, hc, if_true]
  have hlive' : ({ l with
      key_value := (copyWithin l.key_value 1 (l.count - 1) 0).set (l.count - 1) (0, 0)
      count := l.count - 1 } : LeafPage).live = l.live.drop 1 := by
    show ((copyWithin l.key_value 1 (l.count - 1) 0).set (l.count - 1) (0, 0)).take (l.count - 1) = _
    rw [take_set_self]
    have hchunks : copyWithin l.key_value 1 (l.count - 1) 0
        = (l.key_value.take 0 ++ (l.key_value.drop 1).take (l.count - 1))
          ++ l.key_value.drop (0 + (l.count - 1)) := rfl
    rw [hchunks, List.take_zero, List.nil_append,
      take_append_len (by simp only [List.length_take, List.length_drop]; omega),
      live_drop_eq]
  refine ⟨_, _, hstep, ?_, hlive', rfl, ?_, rfl, rfl⟩
  · rw [hlive']
    have hdecomp := live_decomp l (by omega) (by omega : 0 < l.count)
    conv_lhs => rw [hdecomp]
    rfl
  · show ((copyWithin l.key_value 1 (l.count - 1) 0).set (l.count - 1) (0, 0)).length = _
    rw [List.length_set, copyWithin_length _ _ _ _ (by omega) (by omega), hlen]

/-- `LeafPage.merge_with` concatenates live records. -/
theorem leaf_merge_spec (l other : LeafPage)
    (hlen : l.key_value.length = LEAF_RECORD_COUNT)
    (holen : other.key_value.length = LEAF_RECORD_COUNT)
    (hocnt : other.count ≤ LEAF_RECORD_COUNT)
    (hsum : l.count + other.count ≤ LEAF_RECORD_COUNT) :
    ∃ m, l.merge_with other = some m ∧
      m.live = l.live ++ other.live ∧
      m.count = l.count + other.count ∧
      m.key_value.length = LEAF_RECORD_COUNT ∧
      m.next = l.next ∧ m.prev = l.prev := by
  have hstep : l.merge_with other = some { l with
      key_value := setRange l.key_value l.count (other.key_value.take other.count)
      count := l.count + other.count } := by
    simp only [LeafPage.merge_with, if_pos hsum]
  have hsrclen : (other.key_value.take other.count).length = other.count := by
    simp only [List.length_take]
    omega
  refine ⟨_, hstep, ?_, rfl, ?_, rfl, rfl⟩
  · show (setRange l.key_value l.count (other.key_value.take other.count)).take (l.count + other.count) = _
    show ((l.key_value.take l.count ++ other.key_value.take other.count) ++
      l.key_value.drop (l.count + (other.key_value.take other.count).length)).take (l.count + other.count) = _
    rw [take_append_len (by simp only [List.length_append, List.length_take]; omega)]
    rfl
  · show (setRange l.key_value l.count (other.key_value.take other.count)).length = _
    rw [setRange_length _ _ _ (by rw [hsrclen]; omega), hlen]

/-- Rebuilding a leaf-level `Rep` from its components. -/
theorem rep_leaf_intro {disk : List Page} {ptr : Nat} {lo hi : Option Nat} (l : LeafPage)
    (hget : getLeaf disk ptr = some l)
    (hlen : l.key_value.length = LEAF_RECORD_COUNT)
    (hcnt : l.count ≤ LEAF_RECORD_COUNT)
    (hsort : kvSorted l.live)
    (hbnd : ∀ p ∈ l.live, okBnd lo hi p.1) :
    Rep disk 0 ptr lo hi l.live [ptr] [ptr] :=
  ⟨l, hget, hlen, hcnt, hsort, hbnd, rfl, rfl, rfl⟩

/-! ## Frame and weakening infrastructure for contexts -/

theorem getLeaf_eq_iff {disk : List Page} {x : Nat} {lf : LeafPage} :
    getLeaf disk x = some lf ↔ readPage disk x = Page.leaf lf := by
  unfold getLeaf
  cases h : readPage disk x <;> simp

theorem getDir_eq_iff {disk : List Page} {x : Nat} {d : DirectoryPage} :
    getDir disk x = some d ↔ readPage disk x = Page.dir d := by
  unfold getDir
  cases h : readPage disk x <;> simp

theorem getFree_eq_iff {disk : List Page} {x : Nat} {f : FreePage} :
    getFree disk x = some f ↔ readPage disk x = Page.free f := by
  unfold getFree
  cases h : readPage disk x <;> simp

theorem getD_mem_take' {l : List α} (d : α) {n i : Nat} (hlen : n ≤ l.length) (hi : i < n) :
    l.getD i d ∈ l.take n := by
  have hlt : i < (l.take n).length := by simp only [List.length_take]; omega
  have : (l.take n)[i] = l.getD i d := by
    rw [List.getElem_take, getD_eq_elem _ (by omega)]
  rw [← this]
  exact List.getElem_mem hlt

theorem getD_drop_rev {l : List α} (d : α) {m i : Nat} (h : m ≤ i) :
    l.getD i d = (l.drop m).getD (i - m) d := by
  rw [getD_drop]
  congr 1
  omega

/-- Weakening the key interval of a subtree. -/
theorem rep_weaken {disk : List Page} :
    ∀ {n ptr lo hi lo' hi' kvs lvs pgs},
    Rep disk n ptr lo hi kvs lvs pgs →
    (∀ k, okLo lo k → okLo lo' k) →
    (∀ k, okHi hi k → okHi hi' k) →
    Rep disk n ptr lo' hi' kvs lvs pgs := by
  intro n
  induction n with
  | zero =>
    intro ptr lo hi lo' hi' kvs lvs pgs h hl hh
    obtain ⟨l, hget, h1, h2, h3, h4, h5, h6, h7⟩ := h
    exact ⟨l, hget, h1, h2, h3, fun p hp => ⟨hl _ (h4 p hp).1, hh _ (h4 p hp).2⟩, h5, h6, h7⟩
  | succ n ih =>
    intro ptr lo hi lo' hi' kvs lvs pgs h hl hh
    obtain ⟨d, cd, hget, hkl, hpl, hcnt, hsort, hbnd, hcd, hch, hkv, hlv, hpg⟩ := h
    refine ⟨d, cd, hget, hkl, hpl, hcnt, hsort,
      fun k hk => ⟨hl _ (hbnd k hk).1, hh _ (hbnd k hk).2⟩, hcd, ?_, hkv, hlv, hpg⟩
    intro i hile
    refine ih (hch i hile) ?_ ?_
    · intro k hk
      by_cases hi0 : i = 0
      · rw [if_pos hi0] at hk ⊢
        exact hl k hk
      · rw [if_neg hi0] at hk ⊢
        exact hk
    · intro k hk
      by_cases hic : i < d.count
      · rw [if_pos hic] at hk ⊢
        exact hk
      · rw [if_neg hic] at hk ⊢
        exact hh k hk

/-- A context only reads the pages it reports in its two side lists. -/
theorem ctx_frame {disk disk' : List Page} :
    ∀ {ss root nh c loh hih K1 K2 L1 L2 P1 P2},
    Ctx disk ss root nh c loh hih K1 K2 L1 L2 P1 P2 →
    (∀ q, q ∈ P1 ∨ q ∈ P2 → readPage disk' q = readPage disk q) →
    Ctx disk' ss root nh c loh hih K1 K2 L1 L2 P1 P2 := by
  intro ss root nh c loh hih K1 K2 L1 L2 P1 P2 hctx
  induction hctx with
  | top n c =>
    intro _
    exact .top n c
  | step ss root nh p loh hih K1 K2 L1 L2 P1 P2 d j c cd
      hctx hget hkl hpl hcnt hsort hbnd hcd hj hc hsib ih =>
    intro hframe
    have hjcd : j < cd.length := by omega
    refine Ctx.step ss root nh p loh hih K1 K2 L1 L2 P1 P2 d j c cd (ih ?_) ?_
      hkl hpl hcnt hsort hbnd hcd hj hc ?_
    · intro q hq
      apply hframe
      rcases hq with h | h
      · exact Or.inl (List.mem_append_left _ h)
      · exact Or.inr (List.mem_append_right _ h)
    · rw [getDir_eq_iff] at hget ⊢
      rw [hframe p (Or.inl (List.mem_append_right _ (List.mem_cons_self _ _)))]
      exact hget
    · intro i hile hij
      refine rep_frame (hsib i hile hij) ?_
      intro q hq
      apply hframe
      rcases Nat.lt_or_ge i j with hlt | hge
      · refine Or.inl (List.mem_append_right _ (List.mem_cons_of_mem _ ?_))
        refine List.mem_join.mpr ⟨(cd.getD i ([], [], [])).2.2, ?_, hq⟩
        exact List.mem_map.mpr ⟨cd.getD i ([], [], []), getD_mem_take' _ (by omega) hlt, rfl⟩
      · have hgt : j < i := by omega
        refine Or.inr (List.mem_append_left _ ?_)
        refine List.mem_join.mpr ⟨(cd.getD i ([], [], [])).2.2, ?_, hq⟩
        refine List.mem_map.mpr ⟨cd.getD i ([], [], []), ?_, rfl⟩
        rw [getD_drop_rev _ (by omega : j + 1 ≤ i)]
        exact getD_mem _ (by simp only [List.length_drop]; omega)

/-- Every spine page of a context occurs in its left page list. -/
theorem ctx_spine_sub {disk : List Page} :
    ∀ {ss root nh c loh hih K1 K2 L1 L2 P1 P2},
    Ctx disk ss root nh c loh hih K1 K2 L1 L2 P1 P2 →
    ∀ x ∈ ss, x ∈ P1 := by
  intro ss root nh c loh hih K1 K2 L1 L2 P1 P2 hctx
  induction hctx with
  | top n c =>
    intro x hx
    simp at hx
  | step ss root nh p loh hih K1 K2 L1 L2 P1 P2 d j c cd
      hctx hget hkl hpl hcnt hsort hbnd hcd hj hc hsib ih =>
    intro x hx
    rcases List.mem_append.mp hx with h | h
    · exact List.mem_append_left _ (ih x h)
    · simp only [List.mem_singleton] at h
      subst h
      exact List.mem_append_right _ (List.mem_cons_self _ _)

/-! ## Allocator specifications under the free-chain invariant -/

theorem freeChain_inv {disk : List Page} {h0 : Nat} {fs : List Nat}
    (h : FreeChain disk h0 fs) :
    (h0 = NULL_IDX ∧ fs = []) ∨
    (∃ f rest, h0 ≠ NULL_IDX ∧ getFree disk h0 = some f ∧
      FreeChain disk f.next_free_page rest ∧ fs = h0 :: rest) := by
  cases h with
  | nil => exact Or.inl ⟨rfl, rfl⟩
  | cons p f rest hp hg hrest => exact Or.inr ⟨f, rest, hp, hg, hrest, rfl⟩

theorem alloc_spec (t : Tree) (pg : Page) {fs : List Nat}
    (hfc : FreeChain t.disk t.meta.next_free_page fs)
    (hnz : ∀ x ∈ fs, x ≠ 0)
    (hnd : fs.Nodup)
    (hlt : ∀ x ∈ fs, x < t.meta.pages_allocated)
    (hpa : 0 < t.meta.pages_allocated) :
    ∃ q t1 fs1,
      t.alloc_page pg = some (q, t1) ∧
      t1.disk = writePage (writePage t.disk METADATA_IDX (.meta t1.meta)) q pg ∧
      t1.meta.root_page = t.meta.root_page ∧
      t1.meta.depth = t.meta.depth ∧
      t1.meta.data_head = t.meta.data_head ∧
      t1.meta.data_tail = t.meta.data_tail ∧
      q ≠ 0 ∧ q < t1.meta.pages_allocated ∧
      FreeChain t1.disk t1.meta.next_free_page fs1 ∧
      ((t1.meta.pages_allocated = t.meta.pages_allocated ∧ fs = q :: fs1) ∨
       (t1.meta.pages_allocated = t.meta.pages_allocated + 1 ∧ q = t.meta.pages_allocated ∧
         fs1 = fs)) := by
  rcases freeChain_inv hfc with ⟨hnull, hfs⟩ | ⟨f, rest, hnull, hg, hrest, hfs⟩
  · -- extend the file
    subst hfs
    refine ⟨t.meta.pages_allocated,
      ({ t with meta := { t.meta with pages_allocated := t.meta.pages_allocated + 1 } }.put_meta).put_page
        t.meta.pages_allocated pg, [], ?_, rfl, rfl, rfl, rfl, rfl, by omega,
      by show t.meta.pages_allocated < t.meta.pages_allocated + 1; omega, ?_,
      Or.inr ⟨rfl, rfl, rfl⟩⟩
    · show Tree.alloc_page t pg = _
      unfold Tree.alloc_page
      rw [if_pos hnull]
    · show FreeChain _ t.meta.next_free_page []
      rw [hnull]
      exact .nil
  · -- pop the free-list head
    subst hfs
    have hq0 : t.meta.next_free_page ≠ 0 := hnz _ (List.mem_cons_self _ _)
    refine ⟨t.meta.next_free_page,
      ({ t with meta := { t.meta with next_free_page := f.next_free_page } }.put_meta).put_page
      t.meta.next_free_page pg, rest, ?_, rfl, rfl, rfl, rfl, rfl, hq0, ?_, ?_,
      Or.inl ⟨rfl, rfl⟩⟩
    · show Tree.alloc_page t pg = _
      unfold Tree.alloc_page
      rw [if_neg hnull]
      show (match getFree t.disk t.meta.next_free_page with
        | none => none
        | some free => some (t.meta.next_free_page,
            ({ t with meta := { t.meta with next_free_page := free.next_free_page } }.put_meta).put_page
              t.meta.next_free_page pg)) = _
      rw [hg]
    · show t.meta.next_free_page < t.meta.pages_allocated
      exact hlt _ (List.mem_cons_self _ _)
    · refine freeChain_frame hrest ?_
      intro q hq
      have hq0' : q ≠ 0 := hnz q (List.mem_cons_of_mem _ hq)
      have hqp : q ≠ t.meta.next_free_page := by
        intro h
        subst h
        exact (List.nodup_cons.mp hnd).1 hq
      have hMETA : METADATA_IDX = 0 := rfl
      show readPage (writePage (writePage t.disk METADATA_IDX _) t.meta.next_free_page pg) q = _
      rw [readPage_writePage, if_neg (by omega), readPage_writePage,
        if_neg (by show ¬ q = METADATA_IDX; omega)]

theorem free_spec (t : Tree) (p : Nat) {fs : List Nat}
    (hfc : FreeChain t.disk t.meta.next_free_page fs)
    (hnz : ∀ x ∈ fs, x ≠ 0)
    (hpne : p ∉ fs)
    (hp0 : p ≠ 0) :
    (t.free_page p).disk
      = writePage (writePage t.disk p (.free ⟨t.meta.next_free_page⟩))
          METADATA_IDX (.meta (t.free_page p).meta) ∧
    (t.free_page p).meta.next_free_page = p ∧
    (t.free_page p).meta.root_page = t.meta.root_page ∧
    (t.free_page p).meta.depth = t.meta.depth ∧
    (t.free_page p).meta.data_head = t.meta.data_head ∧
    (t.free_page p).meta.data_tail = t.meta.data_tail ∧
    (t.free_page p).meta.pages_allocated = t.meta.pages_allocated ∧
    FreeChain (t.free_page p).disk (t.free_page p).meta.next_free_page (p :: fs) := by
  have hMETA : METADATA_IDX = 0 := rfl
  have hNULL : NULL_IDX = 0 := rfl
  refine ⟨rfl, rfl, rfl, rfl, rfl, rfl, rfl, ?_⟩
  show FreeChain _ p _
  refine FreeChain.cons p ⟨t.meta.next_free_page⟩ fs (by show p ≠ NULL_IDX; omega) ?_ ?_
  · rw [getFree_eq_iff]
    show readPage (writePage (writePage t.disk p _) METADATA_IDX _) p = _
    rw [readPage_writePage, if_neg (by omega), readPage_writePage, if_pos rfl]
  · show FreeChain _ (⟨t.meta.next_free_page⟩ : FreePage).next_free_page fs
    refine freeChain_frame hfc ?_
    intro q hq
    have hq0 : q ≠ 0 := hnz q hq
    have hqp : q ≠ p := fun h => hpne (h ▸ hq)
    show readPage (writePage (writePage t.disk p _) METADATA_IDX _) q = _
    rw [readPage_writePage, if_neg (by omega), readPage_writePage, if_neg (by omega)]

/-! ## The non-splitting branch of `put` -/

theorem getLeaf_write_self {disk : List Page} {p : Nat} (lf : LeafPage) :
    getLeaf (writePage disk p (.leaf lf)) p = some lf := by
  rw [getLeaf_eq_iff, readPage_writePage, if_pos rfl]

theorem getDir_write_self {disk : List Page} {p : Nat} (d : DirectoryPage) :
    getDir (writePage disk p (.dir d)) p = some d := by
  rw [getDir_eq_iff, readPage_writePage, if_pos rfl]

theorem put_nonfull_lemma (t : Tree) (key value : Nat)
    (path : List Nat) (leafptr : Nat) (lo' hi' : Option Nat)
    (K1 K2 : List (Nat × Nat)) (L1 L2 P1 P2 : List Nat) (leaf : LeafPage)
    (hctx : Ctx t.disk path t.meta.root_page 0 leafptr lo' hi' K1 K2 L1 L2 P1 P2)
    (hlen : leaf.key_value.length = LEAF_RECORD_COUNT)
    (hcnt : leaf.count ≤ LEAF_RECORD_COUNT)
    (hsort : kvSorted leaf.live)
    (hbndall : ∀ p ∈ leaf.live, okBnd lo' hi' p.1)
    (hkey : okBnd lo' hi' key)
    (hnotfull : leaf.count < LEAF_RECORD_COUNT)
    (hne1 : leafptr ∉ P1) (hne2 : leafptr ∉ P2) :
    ∃ leaf', leaf.put key value = some leaf' ∧
      Rep (writePage t.disk leafptr (.leaf leaf')) (0 + path.length) t.meta.root_page none none
        (K1 ++ insertKV leaf.live key value ++ K2) (L1 ++ [leafptr] ++ L2) (P1 ++ [leafptr] ++ P2) ∧
      leaf'.next = leaf.next ∧ leaf'.prev = leaf.prev := by
  obtain ⟨leaf', hput, hlive, hlen', hcount', hcle, hnext, hprev⟩ :=
    leaf_put_spec leaf key value hlen hcnt hsort (Or.inl hnotfull)
  refine ⟨leaf', hput, ?_, hnext, hprev⟩
  have hside : ∀ q, q ∈ P1 ∨ q ∈ P2 →
      readPage (writePage t.disk leafptr (.leaf leaf')) q = readPage t.disk q := by
    intro q hq
    have hqne : q ≠ leafptr := by
      rcases hq with h | h
      · exact fun he => hne1 (he ▸ h)
      · exact fun he => hne2 (he ▸ h)
    rw [readPage_writePage, if_neg hqne]
  have hctx' := ctx_frame hctx hside
  have hrep' : Rep (writePage t.disk leafptr (.leaf leaf')) 0 leafptr lo' hi'
      (insertKV leaf.live key value) [leafptr] [leafptr] := by
    rw [← hlive]
    refine rep_leaf_intro leaf' (getLeaf_write_self leaf') hlen' ?_ ?_ ?_
    · by_cases h : (alookup leaf.live key).isSome
      · rw [hcount', if_pos h]
        omega
      · rw [hcount', if_neg h]
        omega
    · rw [hlive]
      exact insertKV_sorted hsort
    · rw [hlive]
      exact insertKV_bnd hbndall hkey
  exact ctx_plug hctx' hrep'

/-! ## Effect of `split_at_ptr`: insertion of a separator/pointer pair -/

theorem split_at_ptr_spec (d : DirectoryPage) {c sep q j : Nat}
    (hkl : d.keys.length = DIR_KEY_COUNT) (hpl : d.pointers.length = DIR_PTR_COUNT)
    (hcnt : d.count < DIR_KEY_COUNT)
    (hidx : d.find_pointer_idx sep = j) (hj : j ≤ d.count)
    (hptr : d.pointers.getD j 0 = c) :
    ∃ d', d.split_at_ptr c sep q = some d' ∧
      d'.count = d.count + 1 ∧
      d'.keys.length = DIR_KEY_COUNT ∧ d'.pointers.length = DIR_PTR_COUNT ∧
      (∀ i, i < j → d'.keys.getD i 0 = d.keys.getD i 0) ∧
      d'.keys.getD j 0 = sep ∧
      (∀ i, j < i → i ≤ d.count → d'.keys.getD i 0 = d.keys.getD (i - 1) 0) ∧
      (∀ i, i ≤ j → d'.pointers.getD i 0 = d.pointers.getD i 0) ∧
      d'.pointers.getD (j + 1) 0 = q ∧
      (∀ i, j + 1 < i → i ≤ d.count + 1 → d'.pointers.getD i 0 = d.pointers.getD (i - 1) 0) := by
  have hD : DIR_KEY_COUNT = 335 := rfl
  have hP : DIR_PTR_COUNT = DIR_KEY_COUNT + 1 := rfl
  have hnf : d.is_full = false := by
    simp only [DirectoryPage.is_full]
    exact decide_eq_false (by omega)
  refine Exists.intro
    { count := d.count + 1
      keys := (if j < d.count then copyWithin d.keys j (d.count - j) (j + 1) else d.keys).set j sep
      pointers := (if j < d.count then copyWithin d.pointers (j + 1) (d.count - j) (j + 2)
        else d.pointers).set (j + 1) q }
    ⟨?_, rfl, ?_, ?_, ?_, ?_, ?_, ?_, ?_, ?_⟩
  · simp only [DirectoryPage.split_at_ptr, hnf, Bool.false_eq_true, if_false]
    rw [hidx, hptr, if_pos rfl]
  · show ((if j < d.count then copyWithin d.keys j (d.count - j) (j + 1) else d.keys).set j sep).length = _
    rw [List.length_set]
    by_cases hjc : j < d.count
    · rw [if_pos hjc, copyWithin_length _ _ _ _ (by omega) (by omega), hkl]
    · rw [if_neg hjc, hkl]
  · show ((if j < d.count then copyWithin d.pointers (j + 1) (d.count - j) (j + 2)
      else d.pointers).set (j + 1) q).length = _
    rw [List.length_set]
    by_cases hjc : j < d.count
    · rw [if_pos hjc, copyWithin_length _ _ _ _ (by omega) (by omega), hpl]
    · rw [if_neg hjc, hpl]
  · intro i hij
    show ((if j < d.count then copyWithin d.keys j (d.count - j) (j + 1) else d.keys).set j sep).getD i 0 = _
    rw [getD_set_ne _ _ (by omega)]
    by_cases hjc : j < d.count
    · rw [if_pos hjc, copyWithin_getD _ _ _ _ _ _ (by omega) (by omega),
        if_pos (by omega : i < j + 1)]
    · rw [if_neg hjc]
  · show ((if j < d.count then copyWithin d.keys j (d.count - j) (j + 1) else d.keys).set j sep).getD j 0 = _
    refine getD_set_self _ _ ?_
    by_cases hjc : j < d.count
    · rw [if_pos hjc, copyWithin_length _ _ _ _ (by omega) (by omega)]
      omega
    · rw [if_neg hjc]
      omega
  · intro i hji hile
    show ((if j < d.count then copyWithin d.keys j (d.count - j) (j + 1) else d.keys).set j sep).getD i 0 = _
    rw [getD_set_ne _ _ (by omega), if_pos (by omega : j < d.count),
      copyWithin_getD _ _ _ _ _ _ (by omega) (by omega),
      if_neg (by omega : ¬ i < j + 1), if_pos (by omega : i < j + 1 + (d.count - j))]
    congr 1
    omega
  · intro i hile
    show ((if j < d.count then copyWithin d.pointers (j + 1) (d.count - j) (j + 2)
      else d.pointers).set (j + 1) q).getD i 0 = _
    rw [getD_set_ne _ _ (by omega)]
    by_cases hjc : j < d.count
    · rw [if_pos hjc, copyWithin_getD _ _ _ _ _ _ (by omega) (by omega),
        if_pos (by omega : i < j + 2)]
    · rw [if_neg hjc]
  · show ((if j < d.count then copyWithin d.pointers (j + 1) (d.count - j) (j + 2)
      else d.pointers).set (j + 1) q).getD (j + 1) 0 = _
    refine getD_set_self _ _ ?_
    by_cases hjc : j < d.count
    · rw [if_pos hjc, copyWithin_length _ _ _ _ (by omega) (by omega)]
      omega
    · rw [if_neg hjc]
      omega
  · intro i hji hile
    show ((if j < d.count then copyWithin d.pointers (j + 1) (d.count - j) (j + 2)
      else d.pointers).set (j + 1) q).getD i 0 = _
    rw [getD_set_ne _ _ (by omega), if_pos (by omega : j < d.count),
      copyWithin_getD _ _ _ _ _ _ (by omega) (by omega),
      if_neg (by omega : ¬ i < j + 2), if_pos (by omega : i < j + 2 + (d.count - j))]
    congr 1
    omega

/-! ## Two-slot contexts: the shape left behind by a child split -/

theorem take_set_of_le : ∀ (l : List α) {i n : Nat} (x : α), n ≤ i →
    (l.set i x).take n = l.take n := by
  intro l
  induction l with
  | nil =>
    intro i n x h
    simp
  | cons a as ih =>
    intro i n x h
    cases n with
    | zero => simp
    | succ n =>
      cases i with
      | zero => omega
      | succ i =>
        simp only [List.set_cons_succ, List.take_succ_cons]
        rw [ih x (by omega)]

theorem drop_set_of_lt : ∀ (l : List α) {i n : Nat} (x : α), i < n →
    (l.set i x).drop n = l.drop n := by
  intro l
  induction l with
  | nil =>
    intro i n x h
    simp
  | cons a as ih =>
    intro i n x h
    cases i with
    | zero =>
      cases n with
      | zero => omega
      | succ n => simp only [List.set_cons_zero, List.drop_succ_cons]
    | succ i =>
      cases n with
      | zero => omega
      | succ n =>
        simp only [List.set_cons_succ, List.drop_succ_cons]
        exact ih x (by omega)

theorem drop_set_self : ∀ (l : List α) {i : Nat} (x : α), i < l.length →
    (l.set i x).drop i = x :: l.drop (i + 1) := by
  intro l
  induction l with
  | nil =>
    intro i x h
    simp at h
  | cons a as ih =>
    intro i x h
    cases i with
    | zero => rfl
    | succ i =>
      simp only [List.set_cons_succ, List.drop_succ_cons]
      exact ih x (by simpa using h)

theorem take_set_succ : ∀ (l : List α) {i : Nat} (x : α), i < l.length →
    (l.set i x).take (i + 1) = l.take i ++ [x] := by
  intro l
  induction l with
  | nil =>
    intro i x h
    simp at h
  | cons a as ih =>
    intro i x h
    cases i with
    | zero => rfl
    | succ i =>
      simp only [List.set_cons_succ, List.take_succ_cons]
      rw [ih x (by simpa using h)]
      rfl

/-- `Ctx2 disk root dep nh c q sep loh hih K1 K2 L1 L2 P1 P2`: a tree of
depth `dep` rooted at `root`, complete except for two adjacent child
slots at level `nh` of one directory node: the left slot holds `c` over
`[loh, sep)` and the right slot holds `q` over `[sep, hih)`; the intact
part contributes `K1`/`K2` (records), `L1`/`L2` (leaves), `P1`/`P2`
(pages) around the two slots. -/
def Ctx2 (disk : List Page) (root dep nh c q sep : Nat) (loh hih : Option Nat)
    (K1 K2 : List (Nat × Nat)) (L1 L2 P1 P2 : List Nat) : Prop :=
  ∃ (ss : List Nat) (P : Nat) (loP hiP : Option Nat)
    (K1p K2p : List (Nat × Nat)) (L1p L2p P1p P2p : List Nat)
    (d : DirectoryPage) (j : Nat) (cd : List (List (Nat × Nat) × List Nat × List Nat)),
    Ctx disk ss root (nh + 1) P loP hiP K1p K2p L1p L2p P1p P2p ∧
    nh + 1 + ss.length = dep ∧
    getDir disk P = some d ∧
    d.keys.length = DIR_KEY_COUNT ∧
    d.pointers.length = DIR_PTR_COUNT ∧
    d.count ≤ DIR_KEY_COUNT ∧
    (d.keys.take d.count).Pairwise (· < ·) ∧
    (∀ k ∈ d.keys.take d.count, okBnd loP hiP k) ∧
    cd.length = d.count + 1 ∧
    j + 1 ≤ d.count ∧
    d.pointers.getD j 0 = c ∧
    d.pointers.getD (j + 1) 0 = q ∧
    d.keys.getD j 0 = sep ∧
    (if j = 0 then loP else some (d.keys.getD (j - 1) 0)) = loh ∧
    (if j + 1 < d.count then some (d.keys.getD (j + 1) 0) else hiP) = hih ∧
    (∀ i, i ≤ d.count → i ≠ j → i ≠ j + 1 →
      Rep disk nh (d.pointers.getD i 0)
        (if i = 0 then loP else some (d.keys.getD (i - 1) 0))
        (if i < d.count then some (d.keys.getD i 0) else hiP)
        (cd.getD i ([], [], [])).1 (cd.getD i ([], [], [])).2.1 (cd.getD i ([], [], [])).2.2) ∧
    K1 = K1p ++ ((cd.take j).map (·.1)).join ∧
    K2 = ((cd.drop (j + 2)).map (·.1)).join ++ K2p ∧
    L1 = L1p ++ ((cd.take j).map (·.2.1)).join ∧
    L2 = ((cd.drop (j + 2)).map (·.2.1)).join ++ L2p ∧
    P1 = P1p ++ P :: ((cd.take j).map (·.2.2)).join ∧
    P2 = ((cd.drop (j + 2)).map (·.2.2)).join ++ P2p

/-- Fill the right slot of a two-slot context: a one-slot context around
the left slot. -/
theorem ctx2_left {disk : List Page} {root dep nh c q sep : Nat} {loh hih : Option Nat}
    {K1 K2 : List (Nat × Nat)} {L1 L2 P1 P2 : List Nat}
    (h : Ctx2 disk root dep nh c q sep loh hih K1 K2 L1 L2 P1 P2)
    {kvb : List (Nat × Nat)} {lvb pgb : List Nat}
    (hq : Rep disk nh q (some sep) hih kvb lvb pgb) :
    ∃ ss', Ctx disk ss' root nh c loh (some sep) K1 (kvb ++ K2) L1 (lvb ++ L2) P1 (pgb ++ P2) ∧
      nh + ss'.length = dep := by
  obtain ⟨ss, P, loP, hiP, K1p, K2p, L1p, L2p, P1p, P2p, d, j, cd,
    hctx, hdep, hget, hkl, hpl, hcnt, hsort, hbnd, hcd, hj1, hcA, hqp, hsep, hloh, hhih,
    hsib, hK1, hK2, hL1, hL2, hP1, hP2⟩ := h
  have hjlt : j + 1 < cd.length := by omega
  have hstep := Ctx.step ss root nh P loP hiP K1p K2p L1p L2p P1p P2p d j c
    (cd.set (j + 1) (kvb, lvb, pgb)) hctx hget hkl hpl hcnt hsort hbnd
    (by rw [List.length_set]; exact hcd) (by omega) hcA ?sib
  case sib =>
    intro i hile hij
    by_cases hijp : i = j + 1
    · subst hijp
      rw [getD_set_self _ _ hjlt]
      have hlo : (if j + 1 = 0 then loP else some (d.keys.getD (j + 1 - 1) 0)) = some sep := by
        rw [if_neg (by omega)]
        have : j + 1 - 1 = j := by omega
        rw [this, hsep]
      rw [hlo, hhih, hqp]
      exact hq
    · rw [getD_set_ne _ _ (fun h => hijp h.symm)]
      exact hsib i hile hij hijp
  refine ⟨ss ++ [P], ?_, by simp only [List.length_append, List.length_cons, List.length_nil]; omega⟩
  have htk : (cd.set (j + 1) (kvb, lvb, pgb)).take j = cd.take j := take_set_of_le _ _ (by omega)
  have hdr : (cd.set (j + 1) (kvb, lvb, pgb)).drop (j + 1) = (kvb, lvb, pgb) :: cd.drop (j + 2) :=
    drop_set_self _ _ hjlt
  have hhi : (if j < d.count then some (d.keys.getD j 0) else hiP) = some sep := by
    rw [if_pos (by omega), hsep]
  rw [htk, hdr, hhi, hloh] at hstep
  simp only [List.map_cons, List.join_cons] at hstep
  rw [hK1, hK2, hL1, hL2, hP1, hP2]
  simpa [List.append_assoc] using hstep

/-- Fill the left slot of a two-slot context: a one-slot context around
the right slot. -/
theorem ctx2_right {disk : List Page} {root dep nh c q sep : Nat} {loh hih : Option Nat}
    {K1 K2 : List (Nat × Nat)} {L1 L2 P1 P2 : List Nat}
    (h : Ctx2 disk root dep nh c q sep loh hih K1 K2 L1 L2 P1 P2)
    {kva : List (Nat × Nat)} {lva pga : List Nat}
    (hc : Rep disk nh c loh (some sep) kva lva pga) :
    ∃ ss', Ctx disk ss' root nh q (some sep) hih (K1 ++ kva) K2 (L1 ++ lva) L2 (P1 ++ pga) P2 ∧
      nh + ss'.length = dep := by
  obtain ⟨ss, P, loP, hiP, K1p, K2p, L1p, L2p, P1p, P2p, d, j, cd,
    hctx, hdep, hget, hkl, hpl, hcnt, hsort, hbnd, hcd, hj1, hcB, hqp, hsep, hloh, hhih,
    hsib, hK1, hK2, hL1, hL2, hP1, hP2⟩ := h
  have hjlt : j < cd.length := by omega
  have hstep := Ctx.step ss root nh P loP hiP K1p K2p L1p L2p P1p P2p d (j + 1) q
    (cd.set j (kva, lva, pga)) hctx hget hkl hpl hcnt hsort hbnd
    (by rw [List.length_set]; exact hcd) (by omega) hqp ?sib
  case sib =>
    intro i hile hij
    by_cases hijp : i = j
    · rw [hijp, getD_set_self _ _ hjlt]
      have hlo : (if j = 0 then loP else some (d.keys.getD (j - 1) 0)) = loh := hloh
      have hhi : (if j < d.count then some (d.keys.getD j 0) else hiP) = some sep := by
        rw [if_pos (by omega), hsep]
      rw [hlo, hhi, hcB]
      exact hc
    · rw [getD_set_ne _ _ (fun h => hijp h.symm)]
      exact hsib i hile hijp hij
  refine ⟨ss ++ [P], ?_, by simp only [List.length_append, List.length_cons, List.length_nil]; omega⟩
  have htk : (cd.set j (kva, lva, pga)).take (j + 1) = cd.take j ++ [(kva, lva, pga)] :=
    take_set_succ _ _ hjlt
  have hdr : (cd.set j (kva, lva, pga)).drop (j + 1 + 1) = cd.drop (j + 2) :=
    drop_set_of_lt _ _ (by omega)
  have hlo2 : (if j + 1 = 0 then loP else some (d.keys.getD (j + 1 - 1) 0)) = some sep := by
    rw [if_neg (by omega)]
    have : j + 1 - 1 = j := by omega
    rw [this, hsep]
  rw [htk, hdr, hlo2, hhih] at hstep
  simp only [List.map_append, List.join_append, List.map_cons, List.join_cons,
    List.map_nil, List.join_nil, List.append_nil] at hstep
  rw [hK1, hK2, hL1, hL2, hP1, hP2]
  simpa [List.append_assoc] using hstep

/-! ## Reassembling the two halves of a split directory as subtrees -/

theorem split_page_left_keys_len (d : DirectoryPage)
    (hkl : d.keys.length = DIR_KEY_COUNT) :
    (d.split_page).2.1.keys.length = DIR_KEY_COUNT := by
  have hD : DIR_KEY_COUNT = 335 := rfl
  show (d.keys.take (DIR_KEY_COUNT / 2 + 1) ++
    List.replicate (DIR_KEY_COUNT - (DIR_KEY_COUNT / 2 + 1)) 0).length = DIR_KEY_COUNT
  simp only [List.length_append, List.length_take, List.length_replicate, hkl]
  omega

theorem split_page_left_ptrs_len (d : DirectoryPage)
    (hpl : d.pointers.length = DIR_PTR_COUNT) :
    (d.split_page).2.1.pointers.length = DIR_PTR_COUNT := by
  have hD : DIR_KEY_COUNT = 335 := rfl
  have hP : DIR_PTR_COUNT = 336 := rfl
  show (d.pointers.take (DIR_KEY_COUNT / 2 + 1) ++
    List.replicate (DIR_PTR_COUNT - (DIR_KEY_COUNT / 2 + 1)) NULL_IDX).length = DIR_PTR_COUNT
  simp only [List.length_append, List.length_take, List.length_replicate, hpl]
  omega

theorem split_page_right_keys_len (d : DirectoryPage)
    (hkl : d.keys.length = DIR_KEY_COUNT) :
    (d.split_page).2.2.keys.length = DIR_KEY_COUNT := by
  have hD : DIR_KEY_COUNT = 335 := rfl
  show (setRange (List.replicate DIR_KEY_COUNT 0) 0
    ((d.keys.drop (DIR_KEY_COUNT / 2 + 1)).take (DIR_KEY_COUNT - (DIR_KEY_COUNT / 2 + 1)))).length
    = DIR_KEY_COUNT
  rw [setRange_length]
  · simp
  · simp only [List.length_take, List.length_drop, List.length_replicate, hkl]
    omega

theorem split_page_right_ptrs_len (d : DirectoryPage)
    (hpl : d.pointers.length = DIR_PTR_COUNT) :
    (d.split_page).2.2.pointers.length = DIR_PTR_COUNT := by
  have hD : DIR_KEY_COUNT = 335 := rfl
  have hP : DIR_PTR_COUNT = 336 := rfl
  show (setRange (List.replicate DIR_PTR_COUNT NULL_IDX) 0
    ((d.pointers.drop (DIR_KEY_COUNT / 2 + 1)).take (DIR_PTR_COUNT - (DIR_KEY_COUNT / 2 + 1)))).length
    = DIR_PTR_COUNT
  rw [setRange_length]
  · simp
  · simp only [List.length_take, List.length_drop, List.length_replicate, hpl]
    omega

/-- The right half of a split full directory is a valid subtree over
`[separator, hiP)`, built from the children at slots `168..335`. -/
theorem rep_half_right {disk' : List Page} (d : DirectoryPage) {newp : Nat}
    {loP hiP : Option Nat} {nh : Nat}
    (cd : List (List (Nat × Nat) × List Nat × List Nat)) {j : Nat}
    (hkl : d.keys.length = DIR_KEY_COUNT) (hpl : d.pointers.length = DIR_PTR_COUNT)
    (hfull : d.count = DIR_KEY_COUNT)
    (hsort : (d.keys.take d.count).Pairwise (· < ·))
    (hbnd : ∀ k ∈ d.keys.take d.count, okBnd loP hiP k)
    (hcd : cd.length = d.count + 1)
    (hj : j ≤ DIR_KEY_COUNT / 2)
    (hget : getDir disk' newp = some (d.split_page).2.2)
    (hch : ∀ i, i ≤ d.count → i ≠ j →
      Rep disk' nh (d.pointers.getD i 0)
        (if i = 0 then loP else some (d.keys.getD (i - 1) 0))
        (if i < d.count then some (d.keys.getD i 0) else hiP)
        (cd.getD i ([], [], [])).1 (cd.getD i ([], [], [])).2.1 (cd.getD i ([], [], [])).2.2) :
    Rep disk' (nh + 1) newp (some (d.keys.getD (DIR_KEY_COUNT / 2) 0)) hiP
      (((cd.drop (DIR_KEY_COUNT / 2 + 1)).map (·.1)).join)
      (((cd.drop (DIR_KEY_COUNT / 2 + 1)).map (·.2.1)).join)
      (newp :: ((cd.drop (DIR_KEY_COUNT / 2 + 1)).map (·.2.2)).join) := by
  have hD : DIR_KEY_COUNT = 335 := rfl
  have hsortpos := pairwise_take_getD (by omega) hsort
  have hcnt2 : (d.split_page).2.2.count = DIR_KEY_COUNT - DIR_KEY_COUNT / 2 - 1 :=
    split_page_right_count d
  refine ⟨(d.split_page).2.2, cd.drop (DIR_KEY_COUNT / 2 + 1), hget,
    split_page_right_keys_len d hkl, split_page_right_ptrs_len d hpl,
    by rw [hcnt2]; omega, ?_, ?_, ?_, ?_, rfl, rfl, rfl⟩
  · -- sortedness of the right half's keys
    refine pairwise_take_of_getD (by rw [split_page_right_keys_len d hkl, hcnt2]; omega) ?_
    intro b hb a hab
    rw [hcnt2] at hb
    rw [split_page_right_keys d hkl (by omega), split_page_right_keys d hkl (by omega)]
    exact hsortpos (DIR_KEY_COUNT / 2 + 1 + b) (by omega) _ (by omega)
  · -- bounds of the right half's keys
    intro k hk
    obtain ⟨i, hi, rfl⟩ := mem_take_getD
      (by rw [split_page_right_keys_len d hkl, hcnt2]; omega) hk
    rw [hcnt2] at hi
    rw [split_page_right_keys d hkl (by omega)]
    constructor
    · show okLo (some (d.keys.getD (DIR_KEY_COUNT / 2) 0)) _
      show d.keys.getD (DIR_KEY_COUNT / 2) 0 ≤ _
      exact Nat.le_of_lt (hsortpos (DIR_KEY_COUNT / 2 + 1 + i) (by omega) _ (by omega))
    · exact (hbnd _ (getD_mem_take (by omega) (by omega))).2
  · simp only [List.length_drop, hcd, hcnt2]
    omega
  · intro i hile
    rw [hcnt2] at hile
    have hich := hch (DIR_KEY_COUNT / 2 + 1 + i) (by omega) (by omega)
    have hptr : (d.split_page).2.2.pointers.getD i 0
        = d.pointers.getD (DIR_KEY_COUNT / 2 + 1 + i) 0 :=
      split_page_right_ptrs d hpl (by omega)
    have hcdi : (cd.drop (DIR_KEY_COUNT / 2 + 1)).getD i ([], [], [])
        = cd.getD (DIR_KEY_COUNT / 2 + 1 + i) ([], [], []) := by
      rw [getD_drop]
    have hlo : (if i = 0 then some (d.keys.getD (DIR_KEY_COUNT / 2) 0)
        else some ((d.split_page).2.2.keys.getD (i - 1) 0))
        = (if DIR_KEY_COUNT / 2 + 1 + i = 0 then loP
          else some (d.keys.getD (DIR_KEY_COUNT / 2 + 1 + i - 1) 0)) := by
      rw [if_neg (by omega : ¬ DIR_KEY_COUNT / 2 + 1 + i = 0)]
      by_cases hi0 : i = 0
      · subst hi0
        rw [if_pos rfl]
        have h1 : DIR_KEY_COUNT / 2 + 1 + 0 - 1 = DIR_KEY_COUNT / 2 := by omega
        rw [h1]
      · rw [if_neg hi0, split_page_right_keys d hkl (by omega)]
        have h1 : DIR_KEY_COUNT / 2 + 1 + (i - 1) = DIR_KEY_COUNT / 2 + 1 + i - 1 := by omega
        rw [h1]
    have hhi : (if i < (d.split_page).2.2.count then some ((d.split_page).2.2.keys.getD i 0) else hiP)
        = (if DIR_KEY_COUNT / 2 + 1 + i < d.count then some (d.keys.getD (DIR_KEY_COUNT / 2 + 1 + i) 0)
          else hiP) := by
      rw [hcnt2]
      by_cases hic : i < DIR_KEY_COUNT - DIR_KEY_COUNT / 2 - 1
      · rw [if_pos hic, if_pos (by omega), split_page_right_keys d hkl (by omega)]
      · rw [if_neg hic, if_neg (by omega)]
    rw [hptr, hcdi, hlo, hhi]
    exact hich

/-- The left half of a split full directory is a valid subtree over
`[loP, separator)`, built from the children at slots `0..167`. -/
theorem rep_half_left {disk' : List Page} (d : DirectoryPage) {p : Nat}
    {loP hiP : Option Nat} {nh : Nat}
    (cd : List (List (Nat × Nat) × List Nat × List Nat)) {j : Nat}
    (hkl : d.keys.length = DIR_KEY_COUNT) (hpl : d.pointers.length = DIR_PTR_COUNT)
    (hfull : d.count = DIR_KEY_COUNT)
    (hsort : (d.keys.take d.count).Pairwise (· < ·))
    (hbnd : ∀ k ∈ d.keys.take d.count, okBnd loP hiP k)
    (hcd : cd.length = d.count + 1)
    (hj : DIR_KEY_COUNT / 2 < j)
    (hget : getDir disk' p = some (d.split_page).2.1)
    (hch : ∀ i, i ≤ d.count → i ≠ j →
      Rep disk' nh (d.pointers.getD i 0)
        (if i = 0 then loP else some (d.keys.getD (i - 1) 0))
        (if i < d.count then some (d.keys.getD i 0) else hiP)
        (cd.getD i ([], [], [])).1 (cd.getD i ([], [], [])).2.1 (cd.getD i ([], [], [])).2.2) :
    Rep disk' (nh + 1) p loP (some (d.keys.getD (DIR_KEY_COUNT / 2) 0))
      (((cd.take (DIR_KEY_COUNT / 2 + 1)).map (·.1)).join)
      (((cd.take (DIR_KEY_COUNT / 2 + 1)).map (·.2.1)).join)
      (p :: ((cd.take (DIR_KEY_COUNT / 2 + 1)).map (·.2.2)).join) := by
  have hD : DIR_KEY_COUNT = 335 := rfl
  have hsortpos := pairwise_take_getD (by omega) hsort
  have hcnt1 : (d.split_page).2.1.count = DIR_KEY_COUNT / 2 := split_page_left_count d
  refine ⟨(d.split_page).2.1, cd.take (DIR_KEY_COUNT / 2 + 1), hget,
    split_page_left_keys_len d hkl, split_page_left_ptrs_len d hpl,
    by rw [hcnt1]; omega, ?_, ?_, ?_, ?_, rfl, rfl, rfl⟩
  · refine pairwise_take_of_getD (by rw [split_page_left_keys_len d hkl, hcnt1]; omega) ?_
    intro b hb a hab
    rw [hcnt1] at hb
    rw [split_page_left_keys d hkl (by omega), split_page_left_keys d hkl (by omega)]
    exact hsortpos b (by omega) a hab
  · intro k hk
    obtain ⟨i, hi, rfl⟩ := mem_take_getD
      (by rw [split_page_left_keys_len d hkl, hcnt1]; omega) hk
    rw [hcnt1] at hi
    rw [split_page_left_keys d hkl (by omega)]
    constructor
    · exact (hbnd _ (getD_mem_take (by omega) (by omega))).1
    · show okHi (some (d.keys.getD (DIR_KEY_COUNT / 2) 0)) _
      show _ < d.keys.getD (DIR_KEY_COUNT / 2) 0
      exact hsortpos (DIR_KEY_COUNT / 2) (by omega) i (by omega)
  · simp only [List.length_take, hcd, hcnt1]
    omega
  · intro i hile
    rw [hcnt1] at hile
    have hich := hch i (by omega) (by omega)
    have hptr : (d.split_page).2.1.pointers.getD i 0 = d.pointers.getD i 0 :=
      split_page_left_ptrs d hpl (by omega)
    have hcdi : (cd.take (DIR_KEY_COUNT / 2 + 1)).getD i ([], [], [])
        = cd.getD i ([], [], []) := getD_take _ (by omega)
    have hlo : (if i = 0 then loP else some ((d.split_page).2.1.keys.getD (i - 1) 0))
        = (if i = 0 then loP else some (d.keys.getD (i - 1) 0)) := by
      by_cases hi0 : i = 0
      · rw [if_pos hi0, if_pos hi0]
      · rw [if_neg hi0, if_neg hi0, split_page_left_keys d hkl (by omega)]
    have hhi : (if i < (d.split_page).2.1.count then some ((d.split_page).2.1.keys.getD i 0) else
        some (d.keys.getD (DIR_KEY_COUNT / 2) 0))
        = (if i < d.count then some (d.keys.getD i 0) else hiP) := by
      rw [hcnt1]
      by_cases hic : i < DIR_KEY_COUNT / 2
      · rw [if_pos hic, if_pos (by omega), split_page_left_keys d hkl (by omega)]
      · have hie : i = DIR_KEY_COUNT / 2 := by omega
        rw [if_neg hic, if_pos (by omega), hie]
    rw [hptr, hcdi, hlo, hhi]
    exact hich

theorem drop_append_add {l r : List α} (k : Nat) : (l ++ r).drop (l.length + k) = r.drop k := by
  induction l with
  | nil => simp
  | cons a as ih =>
    simp only [List.cons_append, List.length_cons]
    have h1 : as.length + 1 + k = (as.length + k) + 1 := by omega
    rw [h1, List.drop_succ_cons, ih]

/-- Inserting a pushed-up separator/pointer pair into a (non-full)
directory node sitting in a context produces a two-slot context around
the two children. -/
theorem ctx2_of_insert {disk : List Page} {ss : List Nat} {root p nh : Nat}
    {loP hiP : Option Nat} {K1p K2p : List (Nat × Nat)} {L1p L2p P1p P2p : List Nat}
    (dd : DirectoryPage) (cd0 : List (List (Nat × Nat) × List Nat × List Nat))
    {jj c sep q dep : Nat}
    (hctx : Ctx disk ss root (nh + 1) p loP hiP K1p K2p L1p L2p P1p P2p)
    (hdep : nh + 1 + ss.length = dep)
    (hkl : dd.keys.length = DIR_KEY_COUNT) (hpl : dd.pointers.length = DIR_PTR_COUNT)
    (hcnt : dd.count < DIR_KEY_COUNT)
    (hsort : (dd.keys.take dd.count).Pairwise (· < ·))
    (hbnd : ∀ k ∈ dd.keys.take dd.count, okBnd loP hiP k)
    (hcd : cd0.length = dd.count + 1)
    (hj : jj ≤ dd.count)
    (hptr : dd.pointers.getD jj 0 = c)
    (hseplo : 0 < jj → dd.keys.getD (jj - 1) 0 < sep)
    (hsephi : jj < dd.count → sep < dd.keys.getD jj 0)
    (hsepbnd : okBnd loP hiP sep)
    (hch : ∀ i, i ≤ dd.count → i ≠ jj →
      Rep disk nh (dd.pointers.getD i 0)
        (if i = 0 then loP else some (dd.keys.getD (i - 1) 0))
        (if i < dd.count then some (dd.keys.getD i 0) else hiP)
        (cd0.getD i ([], [], [])).1 (cd0.getD i ([], [], [])).2.1 (cd0.getD i ([], [], [])).2.2)
    (hp1 : p ∉ P1p) (hp2 : p ∉ P2p)
    (hchp : ∀ i, i ≤ dd.count → i ≠ jj → p ∉ (cd0.getD i ([], [], [])).2.2) :
    ∃ d', dd.split_at_ptr c sep q = some d' ∧
      Ctx2 (writePage disk p (.dir d')) root dep nh c q sep
        (if jj = 0 then loP else some (dd.keys.getD (jj - 1) 0))
        (if jj < dd.count then some (dd.keys.getD jj 0) else hiP)
        (K1p ++ ((cd0.take jj).map (·.1)).join)
        (((cd0.drop (jj + 1)).map (·.1)).join ++ K2p)
        (L1p ++ ((cd0.take jj).map (·.2.1)).join)
        (((cd0.drop (jj + 1)).map (·.2.1)).join ++ L2p)
        (P1p ++ p :: ((cd0.take jj).map (·.2.2)).join)
        (((cd0.drop (jj + 1)).map (·.2.2)).join ++ P2p) := by
  have hD : DIR_KEY_COUNT = 335 := rfl
  have hsortpos := pairwise_take_getD (by omega) hsort
  have hfpi : dd.find_pointer_idx sep = jj :=
    find_pointer_idx_unique dd sep jj hsortpos hj
      (fun h0 => Nat.le_of_lt (hseplo h0)) hsephi
  obtain ⟨d', hsap, hc', hkl', hpl', hkL, hkJ, hkR, hpL, hpQ, hpR⟩ :=
    split_at_ptr_spec dd hkl hpl hcnt hfpi hj hptr
  refine ⟨d', hsap, ?_⟩
  unfold Ctx2
  refine ⟨ss, p, loP, hiP, K1p, K2p, L1p, L2p, P1p, P2p, d', jj,
    cd0.take jj ++ ([], [], []) :: ([], [], []) :: cd0.drop (jj + 1),
    ?hCtx, hdep, getDir_write_self d', hkl', hpl', by omega, ?hPw, ?hBnd, ?hLen,
    by omega, ?hPc, ?hPq, ?hKj, ?hLoh, ?hHih, ?hSib, ?hKK1, ?hKK2, ?hLL1, ?hLL2, ?hPP1, ?hPP2⟩
  case hCtx =>
    refine ctx_frame hctx ?_
    intro x hx
    have hxp : x ≠ p := by
      rcases hx with h | h
      · exact fun he => hp1 (he ▸ h)
      · exact fun he => hp2 (he ▸ h)
    rw [readPage_writePage, if_neg hxp]
  case hPw =>
    refine pairwise_take_of_getD (by omega) ?_
    intro b hb a hab
    rw [hc'] at hb
    rcases Nat.lt_trichotomy b jj with hbj | hbj | hbj
    · rw [hkL b (by omega), hkL a (by omega)]
      exact hsortpos b (by omega) a hab
    · subst hbj
      rw [hkJ, hkL a hab]
      have h1 : dd.keys.getD a 0 ≤ dd.keys.getD (b - 1) 0 := by
        rcases Nat.lt_or_ge a (b - 1) with h | h
        · exact Nat.le_of_lt (hsortpos (b - 1) (by omega) a h)
        · have : a = b - 1 := by omega
          rw [this]
      have h2 := hseplo (by omega)
      omega
    · rw [hkR b (by omega) (by omega)]
      rcases Nat.lt_trichotomy a jj with haj | haj | haj
      · rw [hkL a (by omega)]
        exact hsortpos (b - 1) (by omega) a (by omega)
      · subst haj
        rw [hkJ]
        have h1 := hsephi (by omega)
        have h2 : dd.keys.getD a 0 ≤ dd.keys.getD (b - 1) 0 := by
          rcases Nat.lt_or_ge a (b - 1) with h | h
          · exact Nat.le_of_lt (hsortpos (b - 1) (by omega) a h)
          · have : a = b - 1 := by omega
            rw [this]
        omega
      · rw [hkR a (by omega) (by omega)]
        exact hsortpos (b - 1) (by omega) (a - 1) (by omega)
  case hBnd =>
    intro k hk
    obtain ⟨i, hi, rfl⟩ := mem_take_getD (by omega) hk
    rw [hc'] at hi
    rcases Nat.lt_trichotomy i jj with hij | hij | hij
    · rw [hkL i (by omega)]
      exact hbnd _ (getD_mem_take (by omega) (by omega))
    · subst hij
      rw [hkJ]
      exact hsepbnd
    · rw [hkR i (by omega) (by omega)]
      exact hbnd _ (getD_mem_take (by omega) (by omega))
  case hLen =>
    simp only [List.length_append, List.length_take, List.length_cons, List.length_drop,
      hcd, hc']
    omega
  case hPc =>
    rw [hpL jj (by omega), hptr]
  case hPq =>
    rw [hpQ]
  case hKj =>
    rw [hkJ]
  case hLoh =>
    by_cases hj0 : jj = 0
    · rw [if_pos hj0, if_pos hj0]
    · rw [if_neg hj0, if_neg hj0, hkL (jj - 1) (by omega)]
  case hHih =>
    rw [hc']
    by_cases hjc : jj + 1 < dd.count + 1
    · rw [if_pos hjc, if_pos (by omega), hkR (jj + 1) (by omega) (by omega)]
      have h1 : jj + 1 - 1 = jj := by omega
      rw [h1]
    · rw [if_neg hjc, if_neg (by omega)]
  case hSib =>
    intro i hile hij hijp
    rw [hc'] at hile
    have htklen : (cd0.take jj).length = jj := by
      simp only [List.length_take]
      omega
    rcases Nat.lt_trichotomy i jj with hlt | heq | hgt
    · -- old child left of the insertion point
      have hspec := hch i (by omega) (by omega)
      have hcd2 : (cd0.take jj ++ ([], [], []) :: ([], [], []) :: cd0.drop (jj + 1)).getD i ([], [], [])
          = cd0.getD i ([], [], []) := by
        rw [getD_append_left _ (by omega), getD_take _ hlt]
      have hptr2 : d'.pointers.getD i 0 = dd.pointers.getD i 0 := hpL i (by omega)
      have hlo2 : (if i = 0 then loP else some (d'.keys.getD (i - 1) 0))
          = (if i = 0 then loP else some (dd.keys.getD (i - 1) 0)) := by
        by_cases hi0 : i = 0
        · rw [if_pos hi0, if_pos hi0]
        · rw [if_neg hi0, if_neg hi0, hkL (i - 1) (by omega)]
      have hhi2 : (if i < d'.count then some (d'.keys.getD i 0) else hiP)
          = (if i < dd.count then some (dd.keys.getD i 0) else hiP) := by
        rw [hc', if_pos (by omega), if_pos (by omega), hkL i (by omega)]
      rw [hcd2, hptr2, hlo2, hhi2]
      refine rep_frame hspec ?_
      intro x hx
      have hxp : x ≠ p := fun he => hchp i (by omega) (by omega) (he ▸ hx)
      rw [readPage_writePage, if_neg hxp]
    · exact absurd heq hij
    · -- old child right of the insertion point (shifted by one)
      have hgt2 : jj + 1 < i := by omega
      have hspec := hch (i - 1) (by omega) (by omega)
      have hcd2 : (cd0.take jj ++ ([], [], []) :: ([], [], []) :: cd0.drop (jj + 1)).getD i ([], [], [])
          = cd0.getD (i - 1) ([], [], []) := by
        rw [getD_append_right _ (by omega), htklen]
        have h1 : i - jj = (i - jj - 2) + 2 := by omega
        rw [h1]
        show (cd0.drop (jj + 1)).getD (i - jj - 2) ([], [], []) = _
        rw [getD_drop]
        have h2 : jj + 1 + (i - jj - 2) = i - 1 := by omega
        rw [h2]
      have hptr2 : d'.pointers.getD i 0 = dd.pointers.getD (i - 1) 0 := hpR i (by omega) (by omega)
      have hlo2 : (if i = 0 then loP else some (d'.keys.getD (i - 1) 0))
          = (if i - 1 = 0 then loP else some (dd.keys.getD (i - 1 - 1) 0)) := by
        rw [if_neg (by omega), if_neg (by omega), hkR (i - 1) (by omega) (by omega)]
      have hhi2 : (if i < d'.count then some (d'.keys.getD i 0) else hiP)
          = (if i - 1 < dd.count then some (dd.keys.getD (i - 1) 0) else hiP) := by
        rw [hc']
        by_cases hic : i < dd.count + 1
        · rw [if_pos hic, if_pos (by omega), hkR i (by omega) (by omega)]
        · rw [if_neg hic, if_neg (by omega)]
      rw [hcd2, hptr2, hlo2, hhi2]
      refine rep_frame hspec ?_
      intro x hx
      have hxp : x ≠ p := fun he => hchp (i - 1) (by omega) (by omega) (he ▸ hx)
      rw [readPage_writePage, if_neg hxp]
  case hKK1 =>
    rw [take_append_len (by simp only [List.length_take]; omega)]
  case hKK2 =>
    have h1 : (cd0.take jj ++ ([], [], []) :: ([], [], []) :: cd0.drop (jj + 1)).drop (jj + 2)
        = cd0.drop (jj + 1) := by
      have h2 : jj + 2 = (cd0.take jj).length + 2 := by
        simp only [List.length_take]
        omega
      rw [h2, drop_append_add]
      rfl
    rw [h1]
  case hLL1 =>
    rw [take_append_len (by simp only [List.length_take]; omega)]
  case hLL2 =>
    have h1 : (cd0.take jj ++ ([], [], []) :: ([], [], []) :: cd0.drop (jj + 1)).drop (jj + 2)
        = cd0.drop (jj + 1) := by
      have h2 : jj + 2 = (cd0.take jj).length + 2 := by
        simp only [List.length_take]
        omega
      rw [h2, drop_append_add]
      rfl
    rw [h1]
  case hPP1 =>
    rw [take_append_len (by simp only [List.length_take]; omega)]
  case hPP2 =>
    have h1 : (cd0.take jj ++ ([], [], []) :: ([], [], []) :: cd0.drop (jj + 1)).drop (jj + 2)
        = cd0.drop (jj + 1) := by
      have h2 : jj + 2 = (cd0.take jj).length + 2 := by
        simp only [List.length_take]
        omega
      rw [h2, drop_append_add]
      rfl
    rw [h1]

/-! ## Inserting the pushed-up pair into one half of a split directory -/

/-- Insert `(sep, q)` into the left half of a split full directory that
sits (at page `p`) in a context covering `[loPX, psep)`. -/
theorem sde_insert_left {disk : List Page} {ssP : List Nat} {rootX p nh : Nat}
    {loPX : Option Nat} {K1X K2X : List (Nat × Nat)} {L1X L2X P1X P2X : List Nat}
    (d : DirectoryPage) (cd : List (List (Nat × Nat) × List Nat × List Nat))
    {j c sep q dep : Nat}
    (hctxP : Ctx disk ssP rootX (nh + 1) p loPX (some (d.keys.getD (DIR_KEY_COUNT / 2) 0))
      K1X K2X L1X L2X P1X P2X)
    (hdep : nh + 1 + ssP.length = dep)
    (hkl : d.keys.length = DIR_KEY_COUNT) (hpl : d.pointers.length = DIR_PTR_COUNT)
    (hfull : d.count = DIR_KEY_COUNT)
    (hsort : (d.keys.take d.count).Pairwise (· < ·))
    (hlo_all : ∀ k ∈ d.keys.take d.count, okLo loPX k)
    (hcd : cd.length = d.count + 1)
    (hj : j ≤ DIR_KEY_COUNT / 2)
    (hptr : d.pointers.getD j 0 = c)
    (hstrict : ∀ a, (if j = 0 then loPX else some (d.keys.getD (j - 1) 0)) = some a → a < sep)
    (hsepj : sep < d.keys.getD j 0)
    (hch : ∀ i, i ≤ DIR_KEY_COUNT / 2 → i ≠ j →
      Rep disk nh (d.pointers.getD i 0)
        (if i = 0 then loPX else some (d.keys.getD (i - 1) 0))
        (some (d.keys.getD i 0))
        (cd.getD i ([], [], [])).1 (cd.getD i ([], [], [])).2.1 (cd.getD i ([], [], [])).2.2)
    (hp1 : p ∉ P1X) (hp2 : p ∉ P2X)
    (hchp : ∀ i, i ≤ DIR_KEY_COUNT / 2 → i ≠ j → p ∉ (cd.getD i ([], [], [])).2.2) :
    ∃ d1', (d.split_page).2.1.split_at_ptr c sep q = some d1' ∧
      Ctx2 (writePage disk p (.dir d1')) rootX dep nh c q sep
        (if j = 0 then loPX else some (d.keys.getD (j - 1) 0))
        (some (d.keys.getD j 0))
        (K1X ++ ((cd.take j).map (·.1)).join)
        ((((cd.take (DIR_KEY_COUNT / 2 + 1)).drop (j + 1)).map (·.1)).join ++ K2X)
        (L1X ++ ((cd.take j).map (·.2.1)).join)
        ((((cd.take (DIR_KEY_COUNT / 2 + 1)).drop (j + 1)).map (·.2.1)).join ++ L2X)
        (P1X ++ p :: ((cd.take j).map (·.2.2)).join)
        ((((cd.take (DIR_KEY_COUNT / 2 + 1)).drop (j + 1)).map (·.2.2)).join ++ P2X) := by
  have hD : DIR_KEY_COUNT = 335 := rfl
  have hsortpos := pairwise_take_getD (by omega) hsort
  have hcnt1 : (d.split_page).2.1.count = DIR_KEY_COUNT / 2 := split_page_left_count d
  have hklen1 := split_page_left_keys_len d hkl
  have hplen1 := split_page_left_ptrs_len d hpl
  have hcdlen : (cd.take (DIR_KEY_COUNT / 2 + 1)).length = (d.split_page).2.1.count + 1 := by
    simp only [List.length_take, hcd, hcnt1]
    omega
  have hsephalf : sep < d.keys.getD (DIR_KEY_COUNT / 2) 0 := by
    rcases Nat.lt_or_ge j (DIR_KEY_COUNT / 2) with h | h
    · exact Nat.lt_trans hsepj (hsortpos (DIR_KEY_COUNT / 2) (by omega) j (by omega))
    · have hje : j = DIR_KEY_COUNT / 2 := by omega
      rw [← hje]
      exact hsepj
  have hseplo' : 0 < j → (d.split_page).2.1.keys.getD (j - 1) 0 < sep := by
    intro h0
    rw [split_page_left_keys d hkl (by omega)]
    exact hstrict _ (by rw [if_neg (by omega)])
  have hsephi' : j < (d.split_page).2.1.count → sep < (d.split_page).2.1.keys.getD j 0 := by
    intro hlt
    rw [hcnt1] at hlt
    rw [split_page_left_keys d hkl (by omega)]
    exact hsepj
  have hsortd1 : ((d.split_page).2.1.keys.take (d.split_page).2.1.count).Pairwise (· < ·) := by
    refine pairwise_take_of_getD (by rw [hklen1, hcnt1]; omega) ?_
    intro b hb a hab
    rw [hcnt1] at hb
    rw [split_page_left_keys d hkl (by omega), split_page_left_keys d hkl (by omega)]
    exact hsortpos b (by omega) a hab
  have hbndd1 : ∀ k ∈ (d.split_page).2.1.keys.take (d.split_page).2.1.count,
      okBnd loPX (some (d.keys.getD (DIR_KEY_COUNT / 2) 0)) k := by
    intro k hk
    obtain ⟨i, hi, rfl⟩ := mem_take_getD (by rw [hklen1, hcnt1]; omega) hk
    rw [hcnt1] at hi
    rw [split_page_left_keys d hkl (by omega)]
    constructor
    · exact hlo_all _ (getD_mem_take (by omega) (by omega))
    · show _ < d.keys.getD (DIR_KEY_COUNT / 2) 0
      exact hsortpos (DIR_KEY_COUNT / 2) (by omega) i (by omega)
  have hsepbnd : okBnd loPX (some (d.keys.getD (DIR_KEY_COUNT / 2) 0)) sep := by
    constructor
    · by_cases hj0 : j = 0
      · cases hLo : loPX with
        | none => trivial
        | some a =>
          show a ≤ sep
          have := hstrict a (by rw [if_pos hj0, hLo])
          omega
      · cases hLo : loPX with
        | none => trivial
        | some a =>
          show a ≤ sep
          have h1 : okLo loPX (d.keys.getD (j - 1) 0) :=
            hlo_all _ (getD_mem_take (by omega) (by omega))
          rw [hLo] at h1
          have h2 := hstrict (d.keys.getD (j - 1) 0) (by rw [if_neg hj0])
          have h3 : a ≤ d.keys.getD (j - 1) 0 := h1
          omega
    · show sep < d.keys.getD (DIR_KEY_COUNT / 2) 0
      exact hsephalf
  have hchd1 : ∀ i, i ≤ (d.split_page).2.1.count → i ≠ j →
      Rep disk nh ((d.split_page).2.1.pointers.getD i 0)
        (if i = 0 then loPX else some ((d.split_page).2.1.keys.getD (i - 1) 0))
        (if i < (d.split_page).2.1.count then some ((d.split_page).2.1.keys.getD i 0)
          else some (d.keys.getD (DIR_KEY_COUNT / 2) 0))
        ((cd.take (DIR_KEY_COUNT / 2 + 1)).getD i ([], [], [])).1
        ((cd.take (DIR_KEY_COUNT / 2 + 1)).getD i ([], [], [])).2.1
        ((cd.take (DIR_KEY_COUNT / 2 + 1)).getD i ([], [], [])).2.2 := by
    intro i hile hij
    rw [hcnt1] at hile
    have hicd : (cd.take (DIR_KEY_COUNT / 2 + 1)).getD i ([], [], []) = cd.getD i ([], [], []) :=
      getD_take _ (by omega)
    have hiptr : (d.split_page).2.1.pointers.getD i 0 = d.pointers.getD i 0 :=
      split_page_left_ptrs d hpl (by omega)
    have hilo : (if i = 0 then loPX else some ((d.split_page).2.1.keys.getD (i - 1) 0))
        = (if i = 0 then loPX else some (d.keys.getD (i - 1) 0)) := by
      by_cases hi0 : i = 0
      · rw [if_pos hi0, if_pos hi0]
      · rw [if_neg hi0, if_neg hi0, split_page_left_keys d hkl (by omega)]
    have hihi : (if i < (d.split_page).2.1.count then some ((d.split_page).2.1.keys.getD i 0)
        else some (d.keys.getD (DIR_KEY_COUNT / 2) 0)) = some (d.keys.getD i 0) := by
      rw [hcnt1]
      by_cases hic : i < DIR_KEY_COUNT / 2
      · rw [if_pos hic, split_page_left_keys d hkl (by omega)]
      · rw [if_neg hic, show i = DIR_KEY_COUNT / 2 from by omega]
    rw [hicd, hiptr, hilo, hihi]
    exact hch i (by omega) hij
  have hchpd1 : ∀ i, i ≤ (d.split_page).2.1.count → i ≠ j →
      p ∉ ((cd.take (DIR_KEY_COUNT / 2 + 1)).getD i ([], [], [])).2.2 := by
    intro i hile hij
    rw [hcnt1] at hile
    rw [getD_take _ (by omega)]
    exact hchp i (by omega) hij
  have hptrd1 : (d.split_page).2.1.pointers.getD j 0 = c := by
    rw [split_page_left_ptrs d hpl (by omega)]
    exact hptr
  have happ : ∃ d1', (d.split_page).2.1.split_at_ptr c sep q = some d1' ∧
      Ctx2 (writePage disk p (.dir d1')) rootX dep nh c q sep
        (if j = 0 then loPX else some ((d.split_page).2.1.keys.getD (j - 1) 0))
        (if j < (d.split_page).2.1.count then some ((d.split_page).2.1.keys.getD j 0)
          else some (d.keys.getD (DIR_KEY_COUNT / 2) 0))
        (K1X ++ (((cd.take (DIR_KEY_COUNT / 2 + 1)).take j).map (·.1)).join)
        ((((cd.take (DIR_KEY_COUNT / 2 + 1)).drop (j + 1)).map (·.1)).join ++ K2X)
        (L1X ++ (((cd.take (DIR_KEY_COUNT / 2 + 1)).take j).map (·.2.1)).join)
        ((((cd.take (DIR_KEY_COUNT / 2 + 1)).drop (j + 1)).map (·.2.1)).join ++ L2X)
        (P1X ++ p :: (((cd.take (DIR_KEY_COUNT / 2 + 1)).take j).map (·.2.2)).join)
        ((((cd.take (DIR_KEY_COUNT / 2 + 1)).drop (j + 1)).map (·.2.2)).join ++ P2X) :=
    ctx2_of_insert (d.split_page).2.1 (cd.take (DIR_KEY_COUNT / 2 + 1))
      hctxP hdep hklen1 hplen1 (by rw [hcnt1]; omega) hsortd1 hbndd1 hcdlen
      (by rw [hcnt1]; omega) hptrd1 hseplo' hsephi' hsepbnd hchd1 hp1 hp2 hchpd1
  obtain ⟨d1', hsap, hctx2⟩ := happ
  refine ⟨d1', hsap, ?_⟩
  have htt : (cd.take (DIR_KEY_COUNT / 2 + 1)).take j = cd.take j := by
    rw [List.take_take, Nat.min_eq_left (by omega)]
  have hih2 : (if j < (d.split_page).2.1.count then some ((d.split_page).2.1.keys.getD j 0)
      else some (d.keys.getD (DIR_KEY_COUNT / 2) 0)) = some (d.keys.getD j 0) := by
    rw [hcnt1]
    by_cases hic : j < DIR_KEY_COUNT / 2
    · rw [if_pos hic, split_page_left_keys d hkl (by omega)]
    · rw [if_neg hic, show j = DIR_KEY_COUNT / 2 from by omega]
  have hlo2 : (if j = 0 then loPX else some ((d.split_page).2.1.keys.getD (j - 1) 0))
      = (if j = 0 then loPX else some (d.keys.getD (j - 1) 0)) := by
    by_cases hj0 : j = 0
    · rw [if_pos hj0, if_pos hj0]
    · rw [if_neg hj0, if_neg hj0, split_page_left_keys d hkl (by omega)]
  rw [htt, hih2, hlo2] at hctx2
  exact hctx2

/-- Insert `(sep, q)` into the right half of a split full directory that
sits (at page `newp`) in a context covering `[psep, hiPX)`. -/
theorem sde_insert_right {disk : List Page} {ssP : List Nat} {rootX newp nh : Nat}
    {hiPX : Option Nat} {K1X K2X : List (Nat × Nat)} {L1X L2X P1X P2X : List Nat}
    (d : DirectoryPage) (cd : List (List (Nat × Nat) × List Nat × List Nat))
    {j c sep q dep : Nat}
    (hctxP : Ctx disk ssP rootX (nh + 1) newp (some (d.keys.getD (DIR_KEY_COUNT / 2) 0)) hiPX
      K1X K2X L1X L2X P1X P2X)
    (hdep : nh + 1 + ssP.length = dep)
    (hkl : d.keys.length = DIR_KEY_COUNT) (hpl : d.pointers.length = DIR_PTR_COUNT)
    (hfull : d.count = DIR_KEY_COUNT)
    (hsort : (d.keys.take d.count).Pairwise (· < ·))
    (hhi_all : ∀ k ∈ d.keys.take d.count, okHi hiPX k)
    (hcd : cd.length = d.count + 1)
    (hjlow : DIR_KEY_COUNT / 2 < j) (hj : j ≤ d.count)
    (hptr : d.pointers.getD j 0 = c)
    (hseplo : d.keys.getD (j - 1) 0 < sep)
    (hsepj : j < d.count → sep < d.keys.getD j 0)
    (hsepPbnd : okHi hiPX sep)
    (hch : ∀ i, DIR_KEY_COUNT / 2 + 1 ≤ i → i ≤ d.count → i ≠ j →
      Rep disk nh (d.pointers.getD i 0)
        (some (d.keys.getD (i - 1) 0))
        (if i < d.count then some (d.keys.getD i 0) else hiPX)
        (cd.getD i ([], [], [])).1 (cd.getD i ([], [], [])).2.1 (cd.getD i ([], [], [])).2.2)
    (hp1 : newp ∉ P1X) (hp2 : newp ∉ P2X)
    (hchp : ∀ i, DIR_KEY_COUNT / 2 + 1 ≤ i → i ≤ d.count → i ≠ j →
      newp ∉ (cd.getD i ([], [], [])).2.2) :
    ∃ d2', (d.split_page).2.2.split_at_ptr c sep q = some d2' ∧
      Ctx2 (writePage disk newp (.dir d2')) rootX dep nh c q sep
        (some (d.keys.getD (j - 1) 0))
        (if j < d.count then some (d.keys.getD j 0) else hiPX)
        (K1X ++ (((cd.drop (DIR_KEY_COUNT / 2 + 1)).take (j - (DIR_KEY_COUNT / 2 + 1))).map (·.1)).join)
        (((cd.drop (j + 1)).map (·.1)).join ++ K2X)
        (L1X ++ (((cd.drop (DIR_KEY_COUNT / 2 + 1)).take (j - (DIR_KEY_COUNT / 2 + 1))).map (·.2.1)).join)
        (((cd.drop (j + 1)).map (·.2.1)).join ++ L2X)
        (P1X ++ newp :: (((cd.drop (DIR_KEY_COUNT / 2 + 1)).take (j - (DIR_KEY_COUNT / 2 + 1))).map (·.2.2)).join)
        (((cd.drop (j + 1)).map (·.2.2)).join ++ P2X) := by
  have hD : DIR_KEY_COUNT = 335 := rfl
  have hsortpos := pairwise_take_getD (by omega) hsort
  have hcnt2 : (d.split_page).2.2.count = DIR_KEY_COUNT - DIR_KEY_COUNT / 2 - 1 :=
    split_page_right_count d
  have hklen2 := split_page_right_keys_len d hkl
  have hplen2 := split_page_right_ptrs_len d hpl
  have hcdlen : (cd.drop (DIR_KEY_COUNT / 2 + 1)).length = (d.split_page).2.2.count + 1 := by
    simp only [List.length_drop, hcd, hcnt2]
    omega
  have hj2 : j - (DIR_KEY_COUNT / 2 + 1) ≤ (d.split_page).2.2.count := by
    rw [hcnt2]
    omega
  have hsortd2 : ((d.split_page).2.2.keys.take (d.split_page).2.2.count).Pairwise (· < ·) := by
    refine pairwise_take_of_getD (by rw [hklen2, hcnt2]; omega) ?_
    intro b hb a hab
    rw [hcnt2] at hb
    rw [split_page_right_keys d hkl (by omega), split_page_right_keys d hkl (by omega)]
    exact hsortpos _ (by omega) _ (by omega)
  have hbndd2 : ∀ k ∈ (d.split_page).2.2.keys.take (d.split_page).2.2.count,
      okBnd (some (d.keys.getD (DIR_KEY_COUNT / 2) 0)) hiPX k := by
    intro k hk
    obtain ⟨i, hi, rfl⟩ := mem_take_getD (by rw [hklen2, hcnt2]; omega) hk
    rw [hcnt2] at hi
    rw [split_page_right_keys d hkl (by omega)]
    constructor
    · show d.keys.getD (DIR_KEY_COUNT / 2) 0 ≤ _
      exact Nat.le_of_lt (hsortpos _ (by omega) _ (by omega))
    · exact hhi_all _ (getD_mem_take (by omega) (by omega))
  have hseplo' : 0 < j - (DIR_KEY_COUNT / 2 + 1) →
      (d.split_page).2.2.keys.getD (j - (DIR_KEY_COUNT / 2 + 1) - 1) 0 < sep := by
    intro h0
    rw [split_page_right_keys d hkl (by omega)]
    have h1 : DIR_KEY_COUNT / 2 + 1 + (j - (DIR_KEY_COUNT / 2 + 1) - 1) = j - 1 := by omega
    rw [h1]
    exact hseplo
  have hsephi' : j - (DIR_KEY_COUNT / 2 + 1) < (d.split_page).2.2.count →
      sep < (d.split_page).2.2.keys.getD (j - (DIR_KEY_COUNT / 2 + 1)) 0 := by
    intro hlt
    rw [hcnt2] at hlt
    rw [split_page_right_keys d hkl (by omega)]
    have h1 : DIR_KEY_COUNT / 2 + 1 + (j - (DIR_KEY_COUNT / 2 + 1)) = j := by omega
    rw [h1]
    exact hsepj (by omega)
  have hsepbnd : okBnd (some (d.keys.getD (DIR_KEY_COUNT / 2) 0)) hiPX sep := by
    constructor
    · show d.keys.getD (DIR_KEY_COUNT / 2) 0 ≤ sep
      have h1 : d.keys.getD (DIR_KEY_COUNT / 2) 0 ≤ d.keys.getD (j - 1) 0 := by
        rcases Nat.lt_or_ge (DIR_KEY_COUNT / 2) (j - 1) with h | h
        · exact Nat.le_of_lt (hsortpos (j - 1) (by omega) _ h)
        · rw [show DIR_KEY_COUNT / 2 = j - 1 from by omega]
      omega
    · exact hsepPbnd
  have hptrd2 : (d.split_page).2.2.pointers.getD (j - (DIR_KEY_COUNT / 2 + 1)) 0 = c := by
    rw [split_page_right_ptrs d hpl (by omega)]
    have h1 : DIR_KEY_COUNT / 2 + 1 + (j - (DIR_KEY_COUNT / 2 + 1)) = j := by omega
    rw [h1]
    exact hptr
  have hchd2 : ∀ i, i ≤ (d.split_page).2.2.count → i ≠ j - (DIR_KEY_COUNT / 2 + 1) →
      Rep disk nh ((d.split_page).2.2.pointers.getD i 0)
        (if i = 0 then some (d.keys.getD (DIR_KEY_COUNT / 2) 0)
          else some ((d.split_page).2.2.keys.getD (i - 1) 0))
        (if i < (d.split_page).2.2.count then some ((d.split_page).2.2.keys.getD i 0) else hiPX)
        ((cd.drop (DIR_KEY_COUNT / 2 + 1)).getD i ([], [], [])).1
        ((cd.drop (DIR_KEY_COUNT / 2 + 1)).getD i ([], [], [])).2.1
        ((cd.drop (DIR_KEY_COUNT / 2 + 1)).getD i ([], [], [])).2.2 := by
    intro i hile hij
    rw [hcnt2] at hile
    have hicd : (cd.drop (DIR_KEY_COUNT / 2 + 1)).getD i ([], [], [])
        = cd.getD (DIR_KEY_COUNT / 2 + 1 + i) ([], [], []) := by
      rw [getD_drop]
    have hiptr : (d.split_page).2.2.pointers.getD i 0
        = d.pointers.getD (DIR_KEY_COUNT / 2 + 1 + i) 0 :=
      split_page_right_ptrs d hpl (by omega)
    have hilo : (if i = 0 then some (d.keys.getD (DIR_KEY_COUNT / 2) 0)
        else some ((d.split_page).2.2.keys.getD (i - 1) 0))
        = some (d.keys.getD (DIR_KEY_COUNT / 2 + 1 + i - 1) 0) := by
      by_cases hi0 : i = 0
      · subst hi0
        rw [if_pos rfl]
        have h1 : DIR_KEY_COUNT / 2 + 1 + 0 - 1 = DIR_KEY_COUNT / 2 := by omega
        rw [h1]
      · rw [if_neg hi0, split_page_right_keys d hkl (by omega)]
        have h1 : DIR_KEY_COUNT / 2 + 1 + (i - 1) = DIR_KEY_COUNT / 2 + 1 + i - 1 := by omega
        rw [h1]
    have hihi : (if i < (d.split_page).2.2.count then some ((d.split_page).2.2.keys.getD i 0) else hiPX)
        = (if DIR_KEY_COUNT / 2 + 1 + i < d.count then some (d.keys.getD (DIR_KEY_COUNT / 2 + 1 + i) 0)
          else hiPX) := by
      rw [hcnt2]
      by_cases hic : i < DIR_KEY_COUNT - DIR_KEY_COUNT / 2 - 1
      · rw [if_pos hic, if_pos (by omega), split_page_right_keys d hkl (by omega)]
      · rw [if_neg hic, if_neg (by omega)]
    rw [hicd, hiptr, hilo, hihi]
    exact hch (DIR_KEY_COUNT / 2 + 1 + i) (by omega) (by omega) (by omega)
  have hchpd2 : ∀ i, i ≤ (d.split_page).2.2.count → i ≠ j - (DIR_KEY_COUNT / 2 + 1) →
      newp ∉ ((cd.drop (DIR_KEY_COUNT / 2 + 1)).getD i ([], [], [])).2.2 := by
    intro i hile hij
    rw [hcnt2] at hile
    rw [getD_drop]
    exact hchp (DIR_KEY_COUNT / 2 + 1 + i) (by omega) (by omega) (by omega)
  have happ : ∃ d2', (d.split_page).2.2.split_at_ptr c sep q = some d2' ∧
      Ctx2 (writePage disk newp (.dir d2')) rootX dep nh c q sep
        (if j - (DIR_KEY_COUNT / 2 + 1) = 0 then some (d.keys.getD (DIR_KEY_COUNT / 2) 0)
          else some ((d.split_page).2.2.keys.getD (j - (DIR_KEY_COUNT / 2 + 1) - 1) 0))
        (if j - (DIR_KEY_COUNT / 2 + 1) < (d.split_page).2.2.count
          then some ((d.split_page).2.2.keys.getD (j - (DIR_KEY_COUNT / 2 + 1)) 0) else hiPX)
        (K1X ++ (((cd.drop (DIR_KEY_COUNT / 2 + 1)).take (j - (DIR_KEY_COUNT / 2 + 1))).map (·.1)).join)
        ((((cd.drop (DIR_KEY_COUNT / 2 + 1)).drop (j - (DIR_KEY_COUNT / 2 + 1) + 1)).map (·.1)).join ++ K2X)
        (L1X ++ (((cd.drop (DIR_KEY_COUNT / 2 + 1)).take (j - (DIR_KEY_COUNT / 2 + 1))).map (·.2.1)).join)
        ((((cd.drop (DIR_KEY_COUNT / 2 + 1)).drop (j - (DIR_KEY_COUNT / 2 + 1) + 1)).map (·.2.1)).join ++ L2X)
        (P1X ++ newp :: (((cd.drop (DIR_KEY_COUNT / 2 + 1)).take (j - (DIR_KEY_COUNT / 2 + 1))).map (·.2.2)).join)
        ((((cd.drop (DIR_KEY_COUNT / 2 + 1)).drop (j - (DIR_KEY_COUNT / 2 + 1) + 1)).map (·.2.2)).join ++ P2X) :=
    ctx2_of_insert (d.split_page).2.2 (cd.drop (DIR_KEY_COUNT / 2 + 1))
      hctxP hdep hklen2 hplen2 (by rw [hcnt2]; omega) hsortd2 hbndd2 hcdlen
      hj2 hptrd2 hseplo' hsephi' hsepbnd hchd2 hp1 hp2 hchpd2
  obtain ⟨d2', hsap, hctx2⟩ := happ
  refine ⟨d2', hsap, ?_⟩
  have hlo3 : (if j - (DIR_KEY_COUNT / 2 + 1) = 0 then some (d.keys.getD (DIR_KEY_COUNT / 2) 0)
      else some ((d.split_page).2.2.keys.getD (j - (DIR_KEY_COUNT / 2 + 1) - 1) 0))
      = some (d.keys.getD (j - 1) 0) := by
    by_cases hj0 : j - (DIR_KEY_COUNT / 2 + 1) = 0
    · rw [if_pos hj0, show DIR_KEY_COUNT / 2 = j - 1 from by omega]
    · rw [if_neg hj0, split_page_right_keys d hkl (by omega)]
      have h1 : DIR_KEY_COUNT / 2 + 1 + (j - (DIR_KEY_COUNT / 2 + 1) - 1) = j - 1 := by omega
      rw [h1]
  have hhi3 : (if j - (DIR_KEY_COUNT / 2 + 1) < (d.split_page).2.2.count
      then some ((d.split_page).2.2.keys.getD (j - (DIR_KEY_COUNT / 2 + 1)) 0) else hiPX)
      = (if j < d.count then some (d.keys.getD j 0) else hiPX) := by
    rw [hcnt2]
    by_cases hic : j - (DIR_KEY_COUNT / 2 + 1) < DIR_KEY_COUNT - DIR_KEY_COUNT / 2 - 1
    · rw [if_pos hic, if_pos (by omega), split_page_right_keys d hkl (by omega)]
      have h1 : DIR_KEY_COUNT / 2 + 1 + (j - (DIR_KEY_COUNT / 2 + 1)) = j := by omega
      rw [h1]
    · rw [if_neg hic, if_neg (by omega)]
  have hdd : (cd.drop (DIR_KEY_COUNT / 2 + 1)).drop (j - (DIR_KEY_COUNT / 2 + 1) + 1)
      = cd.drop (j + 1) := by
    rw [List.drop_drop]
    have h1 : DIR_KEY_COUNT / 2 + 1 + (j - (DIR_KEY_COUNT / 2 + 1) + 1) = j + 1 := by omega
    rw [h1]
  rw [hlo3, hhi3, hdd] at hctx2
  exact hctx2

/-! ## The split cascade (`split_dir_entry` / `split_dir`) -/

/-- One-step inversion of a context. -/
theorem ctx_inv {disk : List Page} {ss : List Nat} {root nh c : Nat} {loh hih : Option Nat}
    {K1 K2 : List (Nat × Nat)} {L1 L2 P1 P2 : List Nat}
    (h : Ctx disk ss root nh c loh hih K1 K2 L1 L2 P1 P2) :
    (ss = [] ∧ root = c ∧ loh = none ∧ hih = none ∧ K1 = [] ∧ K2 = [] ∧ L1 = [] ∧
      L2 = [] ∧ P1 = [] ∧ P2 = []) ∨
    (∃ (ss0 : List Nat) (p : Nat) (loP hiP : Option Nat) (K1p K2p : List (Nat × Nat))
      (L1p L2p P1p P2p : List Nat) (d : DirectoryPage) (j : Nat)
      (cd : List (List (Nat × Nat) × List Nat × List Nat)),
      ss = ss0 ++ [p] ∧
      Ctx disk ss0 root (nh + 1) p loP hiP K1p K2p L1p L2p P1p P2p ∧
      getDir disk p = some d ∧
      d.keys.length = DIR_KEY_COUNT ∧ d.pointers.length = DIR_PTR_COUNT ∧
      d.count ≤ DIR_KEY_COUNT ∧
      (d.keys.take d.count).Pairwise (· < ·) ∧
      (∀ k ∈ d.keys.take d.count, okBnd loP hiP k) ∧
      cd.length = d.count + 1 ∧
      j ≤ d.count ∧
      d.pointers.getD j 0 = c ∧
      (∀ i, i ≤ d.count → i ≠ j →
        Rep disk nh (d.pointers.getD i 0)
          (if i = 0 then loP else some (d.keys.getD (i - 1) 0))
          (if i < d.count then some (d.keys.getD i 0) else hiP)
          (cd.getD i ([], [], [])).1 (cd.getD i ([], [], [])).2.1
          (cd.getD i ([], [], [])).2.2) ∧
      loh = (if j = 0 then loP else some (d.keys.getD (j - 1) 0)) ∧
      hih = (if j < d.count then some (d.keys.getD j 0) else hiP) ∧
      K1 = K1p ++ ((cd.take j).map (·.1)).join ∧
      K2 = ((cd.drop (j + 1)).map (·.1)).join ++ K2p ∧
      L1 = L1p ++ ((cd.take j).map (·.2.1)).join ∧
      L2 = ((cd.drop (j + 1)).map (·.2.1)).join ++ L2p ∧
      P1 = P1p ++ p :: ((cd.take j).map (·.2.2)).join ∧
      P2 = ((cd.drop (j + 1)).map (·.2.2)).join ++ P2p) := by
  cases h with
  | top n c => exact Or.inl ⟨rfl, rfl, rfl, rfl, rfl, rfl, rfl, rfl, rfl, rfl⟩
  | step ss root nh p loh hih K1 K2 L1 L2 P1 P2 d j c cd
      hctx hget hkl hpl hcnt hsort hbnd hcd hj hc hsib =>
    exact Or.inr ⟨ss, p, loh, hih, K1, K2, L1, L2, P1, P2, d, j, cd, rfl, hctx, hget,
      hkl, hpl, hcnt, hsort, hbnd, hcd, hj, hc, hsib, rfl, rfl, rfl, rfl, rfl, rfl, rfl, rfl⟩

theorem stack_getD_last {ss : List Nat} {p c : Nat} :
    (ss ++ [p, c]).getD ((ss ++ [p, c]).length - 1) 0 = c := by
  have hlen : (ss ++ [p, c]).length = ss.length + 2 := by simp
  rw [hlen, getD_append_right _ (by omega)]
  have h1 : ss.length + 2 - 1 - ss.length = 1 := by omega
  rw [h1]
  rfl

theorem stack_getD_penult {ss : List Nat} {p c : Nat} :
    (ss ++ [p, c]).getD ((ss ++ [p, c]).length - 2) 0 = p := by
  have hlen : (ss ++ [p, c]).length = ss.length + 2 := by simp
  rw [hlen, getD_append_right _ (by omega)]
  have h1 : ss.length + 2 - 2 - ss.length = 0 := by omega
  rw [h1]
  rfl

theorem stack_take_init {ss : List Nat} {p c : Nat} :
    (ss ++ [p, c]).take ((ss ++ [p, c]).length - 1) = ss ++ [p] := by
  have hsplit : ss ++ [p, c] = (ss ++ [p]) ++ [c] := by simp
  rw [hsplit]
  have hl : ((ss ++ [p]) ++ [c]).length - 1 = (ss ++ [p]).length := by simp
  rw [hl, List.take_left]

theorem drop_take_drop (l : List α) (m n : Nat) (h : n ≤ m) :
    (l.take m).drop n ++ l.drop m = l.drop n := by
  induction l generalizing m n with
  | nil => simp
  | cons a as ih =>
    cases m with
    | zero =>
      have hn : n = 0 := by omega
      subst hn
      simp
    | succ m =>
      cases n with
      | zero =>
        simp only [List.take_succ_cons, List.drop_zero, List.cons_append, List.drop_succ_cons]
        rw [show as.take m ++ as.drop m = as.drop 0 from ih m 0 (by omega)]
        rfl
      | succ n =>
        simp only [List.take_succ_cons, List.drop_succ_cons]
        exact ih m n (by omega)

theorem take_split_at (l : List α) (m j : Nat) (h : m ≤ j) :
    l.take j = l.take m ++ (l.drop m).take (j - m) := by
  induction l generalizing m j with
  | nil => simp
  | cons a as ih =>
    cases m with
    | zero => simp
    | succ m =>
      cases j with
      | zero => omega
      | succ j =>
        simp only [List.take_succ_cons, List.drop_succ_cons, List.cons_append]
        have h1 : j + 1 - (m + 1) = j - m := by omega
        rw [h1, ← ih m j (by omega)]

theorem nodup_middle_inv {a : α} {pre suf : List α} (h : (pre ++ a :: suf).Nodup) :
    a ∉ pre ∧ a ∉ suf ∧ (pre ++ suf).Nodup := by
  have h2 : (a :: (pre ++ suf)).Nodup := List.perm_middle.nodup h
  rcases List.nodup_cons.mp h2 with ⟨hna, hnd⟩
  exact ⟨fun hx => hna (List.mem_append_left _ hx),
    fun hx => hna (List.mem_append_right _ hx), hnd⟩

theorem nodup_of_cons_middle {a : α} {pre suf : List α}
    (h : (a :: (pre ++ suf)).Nodup) : (pre ++ a :: suf).Nodup :=
  List.perm_middle.symm.nodup h

theorem mem_middle_iff {a x : α} {pre suf : List α} :
    x ∈ pre ++ a :: suf ↔ x ∈ a :: (pre ++ suf) :=
  List.perm_middle.mem_iff

theorem freeChain_reads {disk : List Page} : ∀ {h0 : Nat} {fs : List Nat},
    FreeChain disk h0 fs → ∀ y ∈ fs, ∃ f, getFree disk y = some f := by
  intro h0 fs h
  induction h with
  | nil =>
    intro y hy
    simp at hy
  | cons p f rest hp hg hrest ih =>
    intro y hy
    rcases List.mem_cons.mp hy with h | h
    · subst h
      exact ⟨f, hg⟩
    · exact ih y h

/-- `alloc_page` packaged against an abstract list `OCC` of occupied pages. -/
theorem alloc_pack (t : Tree) (pg : Page) {fs OCC : List Nat}
    (hfc : FreeChain t.disk t.meta.next_free_page fs)
    (hnd : (OCC ++ fs).Nodup)
    (hbd : ∀ x ∈ OCC ++ fs, x ≠ 0 ∧ x < t.meta.pages_allocated)
    (hpa : 0 < t.meta.pages_allocated)
    (hdl : t.disk.length = t.meta.pages_allocated) :
    ∃ q t1 fs1,
      t.alloc_page pg = some (q, t1) ∧
      t1.meta.root_page = t.meta.root_page ∧
      t1.meta.depth = t.meta.depth ∧
      t1.meta.data_head = t.meta.data_head ∧
      t1.meta.data_tail = t.meta.data_tail ∧
      t.meta.pages_allocated ≤ t1.meta.pages_allocated ∧
      t1.disk.length = t1.meta.pages_allocated ∧
      FreeChain t1.disk t1.meta.next_free_page fs1 ∧
      ((q :: OCC) ++ fs1).Nodup ∧
      (∀ x ∈ (q :: OCC) ++ fs1, x ≠ 0 ∧ x < t1.meta.pages_allocated) ∧
      (∀ x ∈ fs1, x ∈ fs) ∧
      (∀ x, x ≠ 0 → x ∉ fs → x < t.meta.pages_allocated →
        readPage t1.disk x = readPage t.disk x) ∧
      (∀ x lf, readPage t.disk x = Page.leaf lf → x ≠ 0 →
        readPage t1.disk x = Page.leaf lf) ∧
      readPage t1.disk q = pg ∧
      (q ∈ fs ∨ q = t.meta.pages_allocated) := by
  have hMETA : METADATA_IDX = 0 := rfl
  have hndOCC : OCC.Nodup := (List.nodup_append.mp hnd).1
  have hndfs : fs.Nodup := (List.nodup_append.mp hnd).2.1
  obtain ⟨q, t1, fs1, halloc, hdisk, hroot, hdepth, hhead, htail, hq0, hqlt, hfc1, hbr⟩ :=
    alloc_spec t pg hfc (fun x hx => (hbd x (List.mem_append_right _ hx)).1) hndfs
      (fun x hx => (hbd x (List.mem_append_right _ hx)).2)
      hpa
  have hqx : q ∈ fs ∨ (q = t.meta.pages_allocated ∧ fs1 = fs ∧
      t1.meta.pages_allocated = t.meta.pages_allocated + 1) := by
    rcases hbr with ⟨hpa1, hfsq⟩ | ⟨hpa1, hqeq, hfs1⟩
    · exact Or.inl (hfsq ▸ List.mem_cons_self _ _)
    · exact Or.inr ⟨hqeq, hfs1, hpa1⟩
  have hqOCC : q ∉ OCC := by
    rcases hqx with hqfs | ⟨hqeq, _, _⟩
    · intro hmem
      exact (List.disjoint_of_nodup_append hnd) hmem hqfs
    · intro hmem
      have := (hbd q (List.mem_append_left _ hmem)).2
      omega
  have hpale : t.meta.pages_allocated ≤ t1.meta.pages_allocated := by
    rcases hbr with ⟨hpa1, _⟩ | ⟨hpa1, _, _⟩ <;> omega
  have hfs1sub : ∀ x ∈ fs1, x ∈ fs := by
    rcases hbr with ⟨_, hfsq⟩ | ⟨_, _, hfs1⟩
    · intro x hx
      rw [hfsq]
      exact List.mem_cons_of_mem _ hx
    · intro x hx
      rw [← hfs1]
      exact hx
  have hqfs1 : q ∉ fs1 := by
    rcases hbr with ⟨_, hfsq⟩ | ⟨_, hqeq, hfs1⟩
    · rw [hfsq] at hndfs
      exact (List.nodup_cons.mp hndfs).1
    · intro hmem
      have := (hbd q (List.mem_append_right _ (hfs1 ▸ hmem))).2
      omega
  have hlen1 : t1.disk.length = t1.meta.pages_allocated := by
    have h0len : (writePage t.disk METADATA_IDX (.meta t1.meta)).length = t.disk.length := by
      rw [writePage_length, if_pos (by omega)]
    rcases hbr with ⟨hpa1, hfsq⟩ | ⟨hpa1, hqeq, _⟩
    · have hqlt' : q < t.meta.pages_allocated :=
        (hbd q (List.mem_append_right _ (hfsq ▸ List.mem_cons_self _ _))).2
      rw [hdisk, writePage_length, h0len, if_pos (by omega)]
      omega
    · rw [hdisk, writePage_length, h0len, if_neg (by omega)]
      omega
  have hframe : ∀ x, x ≠ 0 → x ∉ fs → x < t.meta.pages_allocated →
      readPage t1.disk x = readPage t.disk x := by
    intro x hx0 hxfs hxlt
    have hxq : x ≠ q := by
      rcases hqx with hqfs | ⟨hqeq, _, _⟩
      · intro h
        exact hxfs (h ▸ hqfs)
      · omega
    rw [hdisk, readPage_writePage, if_neg hxq, readPage_writePage, if_neg (by omega)]
  have hreadq : readPage t1.disk q = pg := by
    rw [hdisk, readPage_writePage, if_pos rfl]
  have hleaf : ∀ x lf, readPage t.disk x = Page.leaf lf → x ≠ 0 →
      readPage t1.disk x = Page.leaf lf := by
    intro x lf hx hx0
    have hxq : x ≠ q := by
      intro h
      rcases hqx with hqfs | ⟨hqeq, _, _⟩
      · obtain ⟨f, hgf⟩ := freeChain_reads hfc q hqfs
        rw [getFree_eq_iff] at hgf
        rw [← h, hx] at hgf
        cases hgf
      · have hzl : readPage t.disk x = zeroPage := by
          unfold readPage
          rw [List.getD_eq_getElem?_getD, List.getElem?_eq_none (by omega)]
          rfl
        rw [hx] at hzl
        cases hzl
    rw [hdisk, readPage_writePage, if_neg hxq, readPage_writePage, if_neg (by omega), hx]
  have hnd1 : ((q :: OCC) ++ fs1).Nodup := by
    have hq1 : q ∉ OCC ++ fs1 := by
      intro hmem
      rcases List.mem_append.mp hmem with h | h
      · exact hqOCC h
      · exact hqfs1 h
    have hrest : (OCC ++ fs1).Nodup := by
      rcases hbr with ⟨_, hfsq⟩ | ⟨_, _, hfs1⟩
      · rw [hfsq] at hnd
        exact (nodup_middle_inv hnd).2.2
      · rw [hfs1]
        exact hnd
    rw [List.cons_append]
    exact List.nodup_cons.mpr ⟨hq1, hrest⟩
  have hbd1 : ∀ x ∈ (q :: OCC) ++ fs1, x ≠ 0 ∧ x < t1.meta.pages_allocated := by
    intro x hx
    rw [List.cons_append, List.mem_cons] at hx
    rcases hx with hx | hx
    · subst hx
      exact ⟨hq0, hqlt⟩
    · rcases List.mem_append.mp hx with h | h
      · have := hbd x (List.mem_append_left _ h)
        exact ⟨this.1, by omega⟩
      · have := hbd x (List.mem_append_right _ (hfs1sub x h))
        exact ⟨this.1, by omega⟩
  refine ⟨q, t1, fs1, halloc, hroot, hdepth, hhead, htail, hpale, hlen1, hfc1,
    hnd1, hbd1, hfs1sub, hframe, hleaf, hreadq, ?_⟩
  rcases hqx with h | ⟨h, _, _⟩
  · exact Or.inl h
  · exact Or.inr h

theorem mem_join_map_take {l : List α} (f : α → List β) (dflt : α) {i n : Nat}
    (hn : n ≤ l.length) (hi : i < n) {x : β} (hx : x ∈ f (l.getD i dflt)) :
    x ∈ ((l.take n).map f).join :=
  List.mem_join.mpr ⟨f (l.getD i dflt),
    List.mem_map.mpr ⟨l.getD i dflt, getD_mem_take' dflt hn hi, rfl⟩, hx⟩

theorem mem_join_map_drop {l : List α} (f : α → List β) (dflt : α) {i n : Nat}
    (hn : n ≤ i) (hi : i < l.length) {x : β} (hx : x ∈ f (l.getD i dflt)) :
    x ∈ ((l.drop n).map f).join := by
  refine List.mem_join.mpr ⟨f (l.getD i dflt), List.mem_map.mpr ⟨l.getD i dflt, ?_, rfl⟩, hx⟩
  rw [getD_drop_rev _ hn]
  exact getD_mem _ (by simp only [List.length_drop]; omega)

/-- Hypotheses of the `split_dir_entry` specification: the parent `p` of
the freshly split child sits in a context; slot `j` of `p` still holds
the old child pointer `c`; the eventual new sibling `q` is reached over
separator `sep`; the pages the two half-subtrees will occupy are the
abstract lists `pga`/`pgb`. -/
structure SDEH (t : Tree) (ssP : List Nat) (p c j sep q nh : Nat)
    (loP hiP : Option Nat) (K1 K2 : List (Nat × Nat)) (L1 L2 P1 P2 : List Nat)
    (d : DirectoryPage) (cd : List (List (Nat × Nat) × List Nat × List Nat))
    (fs pga pgb : List Nat) : Prop where
  hctx : Ctx t.disk ssP t.meta.root_page (nh + 1) p loP hiP K1 K2 L1 L2 P1 P2
  hdep : nh + 1 + ssP.length = t.meta.depth
  hdir : getDir t.disk p = some d
  hkl : d.keys.length = DIR_KEY_COUNT
  hpl : d.pointers.length = DIR_PTR_COUNT
  hcnt : d.count ≤ DIR_KEY_COUNT
  hsort : (d.keys.take d.count).Pairwise (· < ·)
  hbnd : ∀ k ∈ d.keys.take d.count, okBnd loP hiP k
  hcd : cd.length = d.count + 1
  hj : j ≤ d.count
  hptr : d.pointers.getD j 0 = c
  hstrict : ∀ a, (if j = 0 then loP else some (d.keys.getD (j - 1) 0)) = some a → a < sep
  hsephi : j < d.count → sep < d.keys.getD j 0
  hsepbnd : okBnd loP hiP sep
  hch : ∀ i, i ≤ d.count → i ≠ j →
    Rep t.disk nh (d.pointers.getD i 0)
      (if i = 0 then loP else some (d.keys.getD (i - 1) 0))
      (if i < d.count then some (d.keys.getD i 0) else hiP)
      (cd.getD i ([], [], [])).1 (cd.getD i ([], [], [])).2.1 (cd.getD i ([], [], [])).2.2
  hfree : FreeChain t.disk t.meta.next_free_page fs
  hdl : t.disk.length = t.meta.pages_allocated
  hnd : (P1 ++ p :: (((cd.take j).map (·.2.2)).join ++ pga ++ pgb ++
    ((cd.drop (j + 1)).map (·.2.2)).join ++ P2 ++ fs)).Nodup
  hbd : ∀ x ∈ P1 ++ p :: (((cd.take j).map (·.2.2)).join ++ pga ++ pgb ++
    ((cd.drop (j + 1)).map (·.2.2)).join ++ P2 ++ fs),
    x ≠ 0 ∧ x < t.meta.pages_allocated

/-- Conclusion of the `split_dir_entry` specification: afterwards the
two slots `c`/`q` sit in a two-slot context carrying the untouched
records, leaves and free chain, with freshness and read-framing
guarantees. -/
def SDEC (t : Tree) (ssP : List Nat) (p c j sep q nh : Nat)
    (loP hiP : Option Nat) (K1 K2 : List (Nat × Nat)) (L1 L2 : List Nat)
    (d : DirectoryPage) (cd : List (List (Nat × Nat) × List Nat × List Nat))
    (fs pga pgb : List Nat) (t' : Tree) : Prop :=
  ∃ fs' P1' P2',
    Ctx2 t'.disk t'.meta.root_page t'.meta.depth nh c q sep
      (if j = 0 then loP else some (d.keys.getD (j - 1) 0))
      (if j < d.count then some (d.keys.getD j 0) else hiP)
      (K1 ++ ((cd.take j).map (·.1)).join)
      (((cd.drop (j + 1)).map (·.1)).join ++ K2)
      (L1 ++ ((cd.take j).map (·.2.1)).join)
      (((cd.drop (j + 1)).map (·.2.1)).join ++ L2)
      P1' P2' ∧
    FreeChain t'.disk t'.meta.next_free_page fs' ∧
    t'.disk.length = t'.meta.pages_allocated ∧
    t.meta.pages_allocated ≤ t'.meta.pages_allocated ∧
    t'.meta.data_head = t.meta.data_head ∧
    t'.meta.data_tail = t.meta.data_tail ∧
    t.meta.depth ≤ t'.meta.depth ∧
    ((P1' ++ pga ++ pgb ++ P2') ++ fs').Nodup ∧
    (∀ x ∈ (P1' ++ pga ++ pgb ++ P2') ++ fs', x ≠ 0 ∧ x < t'.meta.pages_allocated) ∧
    (∀ x, x ≠ 0 → x ∉ ssP → x ≠ p → x ∉ fs → x < t.meta.pages_allocated →
      readPage t'.disk x = readPage t.disk x) ∧
    (∀ x lf, readPage t.disk x = Page.leaf lf → x ≠ 0 → readPage t'.disk x = Page.leaf lf)

/-- The non-full branch of `split_dir_entry`. -/
theorem sde_nonfull {t : Tree} {ssP : List Nat} {p c j sep q nh : Nat}
    {loP hiP : Option Nat} {K1 K2 : List (Nat × Nat)} {L1 L2 P1 P2 : List Nat}
    {d : DirectoryPage} {cd : List (List (Nat × Nat) × List Nat × List Nat)}
    {fs pga pgb : List Nat}
    (H : SDEH t ssP p c j sep q nh loP hiP K1 K2 L1 L2 P1 P2 d cd fs pga pgb)
    (hlt : d.count < DIR_KEY_COUNT) :
    ∃ t', t.split_dir_entry (ssP ++ [p, c]) sep q = some t' ∧
      SDEC t ssP p c j sep q nh loP hiP K1 K2 L1 L2 d cd fs pga pgb t' := by
  obtain ⟨hctx, hdep, hdir, hkl, hpl, hcnt, hsort, hbnd, hcd, hj, hptr, hstrict,
    hsephi, hsepbnd, hch, hfree, hdl, hnd, hbd⟩ := H
  have hD : DIR_KEY_COUNT = 335 := rfl
  have hMETA : METADATA_IDX = 0 := rfl
  obtain ⟨hpP1, hpsuf, _⟩ := nodup_middle_inv hnd
  have hpP2 : p ∉ P2 := by
    intro hx
    exact hpsuf (by
      refine List.mem_append_left _ (List.mem_append_right _ hx))
  have hpOK : p ≠ 0 ∧ p < t.meta.pages_allocated :=
    hbd p (List.mem_append_right _ (List.mem_cons_self _ _))
  have hchp : ∀ i, i ≤ d.count → i ≠ j → p ∉ (cd.getD i ([], [], [])).2.2 := by
    intro i hile hij hx
    rcases Nat.lt_or_ge i j with hlti | hgei
    · exact hpsuf (List.mem_append_left _ (List.mem_append_left _ (List.mem_append_left _
        (List.mem_append_left _ (List.mem_append_left _
          (mem_join_map_take _ ([], [], []) (by omega) hlti hx))))))
    · have hgt : j + 1 ≤ i := by omega
      exact hpsuf (List.mem_append_left _ (List.mem_append_left _ (List.mem_append_right _
        (mem_join_map_drop _ ([], [], []) hgt (by omega) hx))))
  have hseplo : 0 < j → d.keys.getD (j - 1) 0 < sep := by
    intro h0
    exact hstrict _ (by rw [if_neg (by omega)])
  have happ : ∃ d', d.split_at_ptr c sep q = some d' ∧
      Ctx2 (writePage t.disk p (.dir d')) t.meta.root_page t.meta.depth nh c q sep
        (if j = 0 then loP else some (d.keys.getD (j - 1) 0))
        (if j < d.count then some (d.keys.getD j 0) else hiP)
        (K1 ++ ((cd.take j).map (·.1)).join)
        (((cd.drop (j + 1)).map (·.1)).join ++ K2)
        (L1 ++ ((cd.take j).map (·.2.1)).join)
        (((cd.drop (j + 1)).map (·.2.1)).join ++ L2)
        (P1 ++ p :: ((cd.take j).map (·.2.2)).join)
        (((cd.drop (j + 1)).map (·.2.2)).join ++ P2) :=
    ctx2_of_insert d cd hctx hdep hkl hpl hlt hsort hbnd hcd
      hj hptr hseplo hsephi hsepbnd hch hpP1 hpP2 hchp
  obtain ⟨d', hsap, hctx2⟩ := happ
  have hnf : d.is_full = false := by
    simp only [DirectoryPage.is_full]
    simp only [ge_iff_le, decide_eq_false_iff_not, not_le]
    omega
  have hlen2 : ¬ (ssP ++ [p, c]).length < 2 := by
    simp only [List.length_append, List.length_cons, List.length_nil]
    omega
  refine ⟨t.put_page p (.dir d'), ?_, ?_⟩
  · show Tree.split_dir_entry t (ssP ++ [p, c]) sep q = _
    unfold Tree.split_dir_entry
    rw [if_neg hlen2]
    rw [stack_getD_last, stack_getD_penult]
    simp only [hdir, hnf, Bool.false_eq_true, if_false, hsap]
  · refine ⟨fs, P1 ++ p :: ((cd.take j).map (·.2.2)).join,
      ((cd.drop (j + 1)).map (·.2.2)).join ++ P2, hctx2, ?_, ?_, Nat.le_refl _, rfl, rfl,
      Nat.le_refl _, ?_, ?_, ?_, ?_⟩
    · refine freeChain_frame hfree ?_
      intro y hy
      have hyp : y ≠ p := by
        intro h
        subst h
        exact hpsuf (List.mem_append_right _ hy)
      show readPage (writePage t.disk p (.dir d')) y = _
      rw [readPage_writePage, if_neg hyp]
    · show (writePage t.disk p (.dir d')).length = t.meta.pages_allocated
      rw [writePage_length, if_pos (by omega)]
      exact hdl
    · have heq : ((P1 ++ p :: ((cd.take j).map (·.2.2)).join) ++ pga ++ pgb ++
          (((cd.drop (j + 1)).map (·.2.2)).join ++ P2)) ++ fs
          = P1 ++ p :: (((cd.take j).map (·.2.2)).join ++ pga ++ pgb ++
            ((cd.drop (j + 1)).map (·.2.2)).join ++ P2 ++ fs) := by
        simp only [List.append_assoc, List.cons_append]
      rw [heq]
      exact hnd
    · intro x hx
      refine hbd x ?_
      have heq : ((P1 ++ p :: ((cd.take j).map (·.2.2)).join) ++ pga ++ pgb ++
          (((cd.drop (j + 1)).map (·.2.2)).join ++ P2)) ++ fs
          = P1 ++ p :: (((cd.take j).map (·.2.2)).join ++ pga ++ pgb ++
            ((cd.drop (j + 1)).map (·.2.2)).join ++ P2 ++ fs) := by
        simp only [List.append_assoc, List.cons_append]
      rw [← heq]
      exact hx
    · intro x hx0 hxss hxp hxfs hxlt
      show readPage (writePage t.disk p (.dir d')) x = _
      rw [readPage_writePage, if_neg hxp]
    · intro x lf hx hx0
      have hxp : x ≠ p := by
        intro h
        subst h
        rw [getDir_eq_iff] at hdir
        rw [hx] at hdir
        cases hdir
      show readPage (writePage t.disk p (.dir d')) x = _
      rw [readPage_writePage, if_neg hxp, hx]

theorem join_map_drop_split (l : List α) (f : α → List β) {m n : Nat} (h : n ≤ m) :
    ((l.drop n).map f).join = (((l.take m).drop n).map f).join ++ ((l.drop m).map f).join := by
  rw [← drop_take_drop l m n h]
  simp only [List.map_append, List.join_append]

theorem join_map_take_split (l : List α) (f : α → List β) {m n : Nat} (h : m ≤ n) :
    ((l.take n).map f).join = ((l.take m).map f).join
      ++ (((l.drop m).take (n - m)).map f).join := by
  rw [take_split_at l m n h]
  simp only [List.map_append, List.join_append]

/-- The root directory page built by `split_dir` when the root is split
(`new_root` in the source). -/
def new_root_page (sk dir_ptr new_dir_ptr : Nat) : DirectoryPage :=
  { count := 1
    keys := DirectoryPage.init.keys.set 0 sk
    pointers := (DirectoryPage.init.pointers.set 0 dir_ptr).set 1 new_dir_ptr }

/-- Reduction of `split_dir_entry` on a full parent, given the result of
the inner `split_dir` call. -/
theorem sde_full_eq (t : Tree) (ss : List Nat) (p c sep q : Nat) (d : DirectoryPage)
    (hdir : getDir t.disk p = some d) (hful : d.is_full = true)
    {psk ndp : Nat} {ndpg dpg : DirectoryPage} {t1 : Tree}
    (hsd : t.split_dir d (ss ++ [p]) = some (psk, ndp, ndpg, dpg, t1)) :
    t.split_dir_entry (ss ++ [p, c]) sep q =
      (if dpg.is_full = true ∨ ndpg.is_full = true then none
      else if sep < psk then
        match dpg.split_at_ptr c sep q with
        | none => none
        | some d' => some (t1.put_page p (.dir d'))
      else
        match ndpg.split_at_ptr c sep q with
        | none => none
        | some d' => some (t1.put_page ndp (.dir d'))) := by
  unfold Tree.split_dir_entry
  rw [if_neg (by simp only [List.length_append, List.length_cons, List.length_nil]; omega)]
  rw [stack_getD_last, stack_getD_penult, stack_take_init]
  simp only [hdir]
  rw [hful, if_pos rfl, hsd]

/-- Reduction of `split_dir` at the root. -/
theorem split_dir_root_eq (t : Tree) (dir : DirectoryPage) (p : Nat)
    {newp : Nat} {t1 : Tree}
    (halloc1 : t.alloc_page (.dir (dir.split_page).2.2) = some (newp, t1))
    {nrp : Nat} {t3 : Tree}
    (halloc2 : (t1.put_page p (.dir (dir.split_page).2.1)).alloc_page
      (.dir (new_root_page (dir.split_page).1 p newp)) = some (nrp, t3)) :
    t.split_dir dir [p] = some ((dir.split_page).1, newp, (dir.split_page).2.2,
      (dir.split_page).2.1,
      Tree.put_meta { t3 with meta := { t3.meta with root_page := nrp, depth := t3.meta.depth + 1 } }) := by
  unfold Tree.split_dir
  rw [if_neg (by simp), if_pos (by simp)]
  show (match t.alloc_page (.dir (dir.split_page).2.2) with
    | none => none
    | some (new_dir_ptr, t1) =>
      match (t1.put_page p (.dir (dir.split_page).2.1)).alloc_page
        (.dir (new_root_page (dir.split_page).1 p new_dir_ptr)) with
      | none => none
      | some (new_root_ptr, t3) =>
        some ((dir.split_page).1, new_dir_ptr, (dir.split_page).2.2, (dir.split_page).2.1,
          Tree.put_meta { t3 with meta := { t3.meta with root_page := new_root_ptr, depth := t3.meta.depth + 1 } })) = _
  rw [halloc1]
  show (match (t1.put_page p (.dir (dir.split_page).2.1)).alloc_page
      (.dir (new_root_page (dir.split_page).1 p newp)) with
    | none => none
    | some (new_root_ptr, t3) =>
      some ((dir.split_page).1, newp, (dir.split_page).2.2, (dir.split_page).2.1,
        Tree.put_meta { t3 with meta := { t3.meta with root_page := new_root_ptr, depth := t3.meta.depth + 1 } })) = _
  rw [halloc2]

/-- Reduction of `split_dir` below the root, given the allocation of the
new right half and the result of the recursive `split_dir_entry`. -/
theorem split_dir_rec_eq (t : Tree) (dir : DirectoryPage) (ss : List Nat) (gp p : Nat)
    {newp : Nat} {t1 : Tree}
    (halloc : t.alloc_page (.dir (dir.split_page).2.2) = some (newp, t1))
    {t3 : Tree}
    (hrec : (t1.put_page p (.dir (dir.split_page).2.1)).split_dir_entry (ss ++ [gp, p])
      (dir.split_page).1 newp = some t3) :
    t.split_dir dir (ss ++ [gp, p]) = some ((dir.split_page).1, newp, (dir.split_page).2.2,
      (dir.split_page).2.1, t3) := by
  unfold Tree.split_dir
  rw [if_neg (by simp only [List.length_append, List.length_cons, List.length_nil]; omega),
    if_neg (by simp only [List.length_append, List.length_cons, List.length_nil]; omega)]
  rw [show (ss ++ [gp, p]).getD ((ss ++ [gp, p]).length - 1) 0 = p from stack_getD_last]
  show (match t.alloc_page (.dir (dir.split_page).2.2) with
    | none => none
    | some (new_dir_ptr, t1) =>
      match (t1.put_page p (.dir (dir.split_page).2.1)).split_dir_entry (ss ++ [gp, p])
          (dir.split_page).1 new_dir_ptr with
      | none => none
      | some t3 => some ((dir.split_page).1, new_dir_ptr, (dir.split_page).2.2,
          (dir.split_page).2.1, t3)) = _
  rw [halloc]
  show (match (t1.put_page p (.dir (dir.split_page).2.1)).split_dir_entry (ss ++ [gp, p])
      (dir.split_page).1 newp with
    | none => none
    | some t3 => some ((dir.split_page).1, newp, (dir.split_page).2.2,
        (dir.split_page).2.1, t3)) = _
  rw [hrec]

set_option maxHeartbeats 3200000 in
/-- The root-split branch of `split_dir_entry`: the full parent is the
root; it is halved, a new root is allocated, and the pushed-up pair is
inserted into whichever half covers it. -/
theorem sde_root {t : Tree} {p c j sep q nh : Nat}
    {loP hiP : Option Nat} {K1 K2 : List (Nat × Nat)} {L1 L2 P1 P2 : List Nat}
    {d : DirectoryPage} {cd : List (List (Nat × Nat) × List Nat × List Nat)}
    {fs pga pgb : List Nat}
    (H : SDEH t [] p c j sep q nh loP hiP K1 K2 L1 L2 P1 P2 d cd fs pga pgb)
    (hfull : d.count = DIR_KEY_COUNT) :
    ∃ t', t.split_dir_entry ([] ++ [p, c]) sep q = some t' ∧
      SDEC t [] p c j sep q nh loP hiP K1 K2 L1 L2 d cd fs pga pgb t' := by
  obtain ⟨hctx, hdep, hdir, hkl, hpl, hcnt, hsort, hbnd, hcd, hj, hptr, hstrict,
    hsephi, hsepbnd, hch, hfree, hdl, hnd, hbd⟩ := H
  have hD : DIR_KEY_COUNT = 335 := rfl
  have hMETA : METADATA_IDX = 0 := rfl
  have hsortpos := pairwise_take_getD (by omega) hsort
  rcases ctx_inv hctx with ⟨-, hrootp, hloP, hhiP, hK1, hK2, hL1, hL2, hP1, hP2⟩ |
    ⟨ss0, p0, b1, b2, b3, b4, b5, b6, b7, b8, b9, b10, b11, habs, -⟩
  swap
  · exfalso
    simp at habs
  subst hloP
  subst hhiP
  subst hK1
  subst hK2
  subst hL1
  subst hL2
  subst hP1
  subst hP2
  -- occupancy bookkeeping on the original disk
  have hpmem : p ∈ [] ++ p :: (((cd.take j).map (·.2.2)).join ++ pga ++ pgb ++
      ((cd.drop (j + 1)).map (·.2.2)).join ++ [] ++ fs) :=
    List.mem_append_right _ (List.mem_cons_self _ _)
  have hpOK := hbd p hpmem
  have hpa0 : 0 < t.meta.pages_allocated := by omega
  have heqOCC : (p :: (((cd.take j).map (·.2.2)).join ++ pga ++ pgb ++
      ((cd.drop (j + 1)).map (·.2.2)).join)) ++ fs
      = [] ++ p :: (((cd.take j).map (·.2.2)).join ++ pga ++ pgb ++
        ((cd.drop (j + 1)).map (·.2.2)).join ++ [] ++ fs) := by
    simp only [List.append_assoc, List.cons_append, List.nil_append, List.append_nil]
  have hndA : ((p :: (((cd.take j).map (·.2.2)).join ++ pga ++ pgb ++
      ((cd.drop (j + 1)).map (·.2.2)).join)) ++ fs).Nodup := by
    rw [heqOCC]
    exact hnd
  have hbdA : ∀ x ∈ (p :: (((cd.take j).map (·.2.2)).join ++ pga ++ pgb ++
      ((cd.drop (j + 1)).map (·.2.2)).join)) ++ fs, x ≠ 0 ∧ x < t.meta.pages_allocated := by
    intro x hx
    refine hbd x ?_
    rw [← heqOCC]
    exact hx
  have hndAc : (p :: ((((cd.take j).map (·.2.2)).join ++ pga ++ pgb ++
      ((cd.drop (j + 1)).map (·.2.2)).join) ++ fs)).Nodup := by
    rw [← List.cons_append]
    exact hndA
  rcases List.nodup_cons.mp hndAc with ⟨hpnm, hndAr⟩
  have hdisjA := List.disjoint_of_nodup_append hndAr
  have hpfs : p ∉ fs := fun h => hpnm (List.mem_append_right _ h)
  -- first allocation: the right half page
  obtain ⟨newp, t1, fs1, halloc1, hroot1, hdepth1, hhead1, htail1, hpale1, hlen1, hfc1,
    hnd1, hbd1, hfs1sub, hframe1, hleaf1, hread1, hqx1⟩ :=
    alloc_pack t (.dir (d.split_page).2.2) hfree hndA hbdA hpa0 hdl
  have hnd1c : (newp :: ((p :: (((cd.take j).map (·.2.2)).join ++ pga ++ pgb ++
      ((cd.drop (j + 1)).map (·.2.2)).join)) ++ fs1)).Nodup := by
    rw [← List.cons_append]
    exact hnd1
  rcases List.nodup_cons.mp hnd1c with ⟨hnewpnm, hnd1r⟩
  have hnewp_p : newp ≠ p :=
    fun h => hnewpnm (by rw [h]; exact List.mem_append_left _ (List.mem_cons_self _ _))
  have hnewpfs1 : newp ∉ fs1 := fun h => hnewpnm (List.mem_append_right _ h)
  have hdisj1 := List.disjoint_of_nodup_append hnd1r
  have hpfs1 : p ∉ fs1 := fun h => hdisj1 (List.mem_cons_self _ _) h
  have hnewpOK : newp ≠ 0 ∧ newp < t1.meta.pages_allocated :=
    hbd1 newp (List.mem_append_left _ (List.mem_cons_self _ _))
  -- write the left half at p
  have hfc2 : FreeChain (t1.put_page p (.dir (d.split_page).2.1)).disk
      (t1.put_page p (.dir (d.split_page).2.1)).meta.next_free_page fs1 := by
    show FreeChain (writePage t1.disk p (.dir (d.split_page).2.1)) t1.meta.next_free_page fs1
    refine freeChain_frame hfc1 ?_
    intro y hy
    have hyp : ¬ y = p := fun h => hpfs1 (h ▸ hy)
    rw [readPage_writePage, if_neg hyp]
  have hlen2 : (t1.put_page p (.dir (d.split_page).2.1)).disk.length
      = (t1.put_page p (.dir (d.split_page).2.1)).meta.pages_allocated := by
    show (writePage t1.disk p (.dir (d.split_page).2.1)).length = t1.meta.pages_allocated
    rw [writePage_length, if_pos (by rw [hlen1]; omega)]
    exact hlen1
  -- second allocation: the new root page
  obtain ⟨nrp, t3, fs2, halloc2, hroot2, hdepth2, hhead2, htail2, hpale2, hlen3, hfc3,
    hnd3, hbd3, hfs2sub, hframe2, hleaf2, hread2, hqx2⟩ :=
    alloc_pack (t1.put_page p (.dir (d.split_page).2.1))
      (.dir (new_root_page (d.split_page).1 p newp))
      hfc2 hnd1 hbd1 (by show 0 < t1.meta.pages_allocated; omega) hlen2
  have hnd3c : (nrp :: ((newp :: (p :: (((cd.take j).map (·.2.2)).join ++ pga ++ pgb ++
      ((cd.drop (j + 1)).map (·.2.2)).join))) ++ fs2)).Nodup := by
    rw [← List.cons_append]
    exact hnd3
  rcases List.nodup_cons.mp hnd3c with ⟨hnrpnm, hnd3r⟩
  have hnrp_new : nrp ≠ newp :=
    fun h => hnrpnm (by rw [h]; exact List.mem_append_left _ (List.mem_cons_self _ _))
  have hnrp_p : nrp ≠ p :=
    fun h => hnrpnm (by
      rw [h]
      exact List.mem_append_left _ (List.mem_cons_of_mem _ (List.mem_cons_self _ _)))
  have hnrpOK : nrp ≠ 0 ∧ nrp < t3.meta.pages_allocated :=
    hbd3 nrp (List.mem_append_left _ (List.mem_cons_self _ _))
  have hpale2' : t1.meta.pages_allocated ≤ t3.meta.pages_allocated := hpale2
  have hdepth2' : t3.meta.depth = t1.meta.depth := hdepth2
  have hhead2' : t3.meta.data_head = t1.meta.data_head := hhead2
  have htail2' : t3.meta.data_tail = t1.meta.data_tail := htail2
  -- the tree after the root update
  set t5 : Tree := Tree.put_meta { t3 with meta := { t3.meta with root_page := nrp, depth := t3.meta.depth + 1 } } with ht5
  have hfc5 : FreeChain t5.disk t5.meta.next_free_page fs2 := by
    show FreeChain (writePage t3.disk METADATA_IDX _) t3.meta.next_free_page fs2
    refine freeChain_frame hfc3 ?_
    intro y hy
    have hy0 : y ≠ 0 := (hbd3 y (List.mem_append_right _ hy)).1
    rw [readPage_writePage, if_neg (by omega)]
  have hlen5 : t5.disk.length = t3.meta.pages_allocated := by
    show (writePage t3.disk METADATA_IDX _).length = _
    rw [writePage_length, if_pos (by rw [hlen3]; omega)]
    exact hlen3
  -- frames down to `t5`
  have hframe05 : ∀ x, x ≠ 0 → x ≠ p → x ∉ fs → x < t.meta.pages_allocated →
      readPage t5.disk x = readPage t.disk x := by
    intro x hx0 hxp hxfs hxlt
    show readPage (writePage t3.disk METADATA_IDX _) x = _
    rw [readPage_writePage, if_neg (by omega)]
    rw [hframe2 x hx0 (fun h => hxfs (hfs1sub x h))
      (by show x < t1.meta.pages_allocated; omega)]
    show readPage (writePage t1.disk p _) x = _
    rw [readPage_writePage, if_neg hxp]
    exact hframe1 x hx0 hxfs hxlt
  have hleaf05 : ∀ x lf, readPage t.disk x = Page.leaf lf → x ≠ 0 →
      readPage t5.disk x = Page.leaf lf := by
    intro x lf hx hx0
    have hxp : x ≠ p := by
      intro h
      subst h
      rw [getDir_eq_iff] at hdir
      rw [hx] at hdir
      cases hdir
    have h2 : readPage (t1.put_page p (.dir (d.split_page).2.1)).disk x = Page.leaf lf := by
      show readPage (writePage t1.disk p _) x = _
      rw [readPage_writePage, if_neg hxp]
      exact hleaf1 x lf hx hx0
    have h3 := hleaf2 x lf h2 hx0
    show readPage (writePage t3.disk METADATA_IDX _) x = _
    rw [readPage_writePage, if_neg (by omega), h3]
  -- children of the old root, framed to `t5`
  have hch5 : ∀ i, i ≤ d.count → i ≠ j →
      Rep t5.disk nh (d.pointers.getD i 0)
        (if i = 0 then none else some (d.keys.getD (i - 1) 0))
        (if i < d.count then some (d.keys.getD i 0) else none)
        (cd.getD i ([], [], [])).1 (cd.getD i ([], [], [])).2.1
        (cd.getD i ([], [], [])).2.2 := by
    intro i hile hij
    refine rep_frame (hch i hile hij) ?_
    intro y hy
    have hyX : y ∈ ((cd.take j).map (·.2.2)).join ++ pga ++ pgb ++
        ((cd.drop (j + 1)).map (·.2.2)).join := by
      rcases Nat.lt_or_ge i j with hlt | hge
      · exact List.mem_append_left _ (List.mem_append_left _ (List.mem_append_left _
          (mem_join_map_take (·.2.2) ([], [], []) (show j ≤ cd.length by omega) hlt hy)))
      · have hgt : j + 1 ≤ i := by omega
        exact List.mem_append_right _
          (mem_join_map_drop (·.2.2) ([], [], []) hgt (show i < cd.length by omega) hy)
    have hyb := hbdA y (List.mem_append_left _ (List.mem_cons_of_mem _ hyX))
    have hyp : y ≠ p := by
      intro h
      subst h
      exact hpnm (List.mem_append_left _ hyX)
    have hyfs : y ∉ fs := fun h => hdisjA hyX h
    exact hframe05 y hyb.1 hyp hyfs hyb.2
  -- reads of the three fresh/rewritten directory pages at `t5`
  have hreadnewp5 : readPage t5.disk newp = .dir (d.split_page).2.2 := by
    show readPage (writePage t3.disk METADATA_IDX _) newp = _
    rw [readPage_writePage, if_neg (by omega)]
    rw [hframe2 newp hnewpOK.1 hnewpfs1 (by show newp < t1.meta.pages_allocated; omega)]
    show readPage (writePage t1.disk p _) newp = _
    rw [readPage_writePage, if_neg hnewp_p, hread1]
  have hreadp5 : readPage t5.disk p = .dir (d.split_page).2.1 := by
    show readPage (writePage t3.disk METADATA_IDX _) p = _
    rw [readPage_writePage, if_neg (by omega)]
    rw [hframe2 p hpOK.1 hpfs1 (by show p < t1.meta.pages_allocated; omega)]
    show readPage (writePage t1.disk p _) p = _
    rw [readPage_writePage, if_pos rfl]
  have hreadnrp5 : readPage t5.disk nrp = .dir (new_root_page (d.split_page).1 p newp) := by
    show readPage (writePage t3.disk METADATA_IDX _) nrp = _
    rw [readPage_writePage, if_neg (by omega), hread2]
  -- reduction facts about the program
  have hful : d.is_full = true := by
    simp only [DirectoryPage.is_full, ge_iff_le, decide_eq_true_eq]
    omega
  have hnf1 : (d.split_page).2.1.is_full = false := rfl
  have hnf2 : (d.split_page).2.2.is_full = false := rfl
  have hsd := split_dir_root_eq t d p halloc1 halloc2
  have heq1 := sde_full_eq t [] p c sep q d hdir hful
    (by rw [List.nil_append]; exact hsd)
  rw [hnf1, hnf2, if_neg (by simp)] at heq1
  -- facts about the new root node
  have hk0 : (new_root_page (d.split_page).1 p newp).keys.getD 0 0 = (d.split_page).1 := by
    show ((List.replicate DIR_KEY_COUNT 0).set 0 (d.split_page).1).getD 0 0 = _
    rw [getD_set_self _ _ (by rw [List.length_replicate]; omega)]
  have hp0get : (new_root_page (d.split_page).1 p newp).pointers.getD 0 0 = p := by
    show (((List.replicate DIR_PTR_COUNT NULL_IDX).set 0 p).set 1 newp).getD 0 0 = _
    rw [getD_set_ne _ _ (by omega)]
    rw [getD_set_self _ _ (by rw [List.length_replicate]; show 0 < DIR_PTR_COUNT; decide)]
  have hp1get : (new_root_page (d.split_page).1 p newp).pointers.getD 1 0 = newp := by
    show (((List.replicate DIR_PTR_COUNT NULL_IDX).set 0 p).set 1 newp).getD 1 0 = _
    rw [getD_set_self _ _ (by rw [List.length_set, List.length_replicate]; show 1 < DIR_PTR_COUNT; decide)]
  have hcntNR : (new_root_page (d.split_page).1 p newp).count = 1 := rfl
  have hklNR : (new_root_page (d.split_page).1 p newp).keys.length = DIR_KEY_COUNT := by
    show ((List.replicate DIR_KEY_COUNT 0).set 0 (d.split_page).1).length = _
    rw [List.length_set, List.length_replicate]
  have hplNR : (new_root_page (d.split_page).1 p newp).pointers.length = DIR_PTR_COUNT := by
    show (((List.replicate DIR_PTR_COUNT NULL_IDX).set 0 p).set 1 newp).length = _
    rw [List.length_set, List.length_set, List.length_replicate]
  -- final metadata facts
  have hdep0 : nh + 1 = t.meta.depth := by simpa using hdep
  have hdepth5 : t5.meta.depth = nh + 2 := by
    show t3.meta.depth + 1 = nh + 2
    have h1 : t1.meta.depth = t.meta.depth := hdepth1
    omega
  have hpa5 : t5.meta.pages_allocated = t3.meta.pages_allocated := rfl
  have hpa_le5 : t.meta.pages_allocated ≤ t3.meta.pages_allocated := by omega
  by_cases hsplt : sep < (d.split_page).1
  · -- the pushed-up pair lands in the left half
    have hsplt' : sep < d.keys.getD (DIR_KEY_COUNT / 2) 0 := by
      rw [← split_page_sep d]
      exact hsplt
    have hjle : j ≤ DIR_KEY_COUNT / 2 := by
      by_contra hgt
      push_neg at hgt
      have hstr := hstrict (d.keys.getD (j - 1) 0) (by rw [if_neg (by omega)])
      have hle : d.keys.getD (DIR_KEY_COUNT / 2) 0 ≤ d.keys.getD (j - 1) 0 := by
        rcases Nat.lt_or_ge (DIR_KEY_COUNT / 2) (j - 1) with h | h
        · exact Nat.le_of_lt (hsortpos (j - 1) (by omega) _ h)
        · have he : DIR_KEY_COUNT / 2 = j - 1 := by omega
          rw [he]
      omega
    have hB22 := join_map_drop_split cd (·.2.2) (show j + 1 ≤ DIR_KEY_COUNT / 2 + 1 by omega)
    have hB1k := join_map_drop_split cd (·.1) (show j + 1 ≤ DIR_KEY_COUNT / 2 + 1 by omega)
    have hB21 := join_map_drop_split cd (·.2.1) (show j + 1 ≤ DIR_KEY_COUNT / 2 + 1 by omega)
    -- the right half as a subtree of `t5`
    have hrepR : Rep t5.disk (nh + 1) newp (some (d.keys.getD (DIR_KEY_COUNT / 2) 0)) none
        (((cd.drop (DIR_KEY_COUNT / 2 + 1)).map (·.1)).join)
        (((cd.drop (DIR_KEY_COUNT / 2 + 1)).map (·.2.1)).join)
        (newp :: ((cd.drop (DIR_KEY_COUNT / 2 + 1)).map (·.2.2)).join) := by
      refine rep_half_right d cd hkl hpl hfull hsort hbnd hcd hjle ?_ hch5
      rw [getDir_eq_iff]
      exact hreadnewp5
    -- one-step context around `p` under the new root
    have hstep := Ctx.step [] nrp (nh + 1) nrp none none [] [] [] [] [] []
      (new_root_page (d.split_page).1 p newp) 0 p
      [([], [], []), (((cd.drop (DIR_KEY_COUNT / 2 + 1)).map (·.1)).join,
        ((cd.drop (DIR_KEY_COUNT / 2 + 1)).map (·.2.1)).join,
        newp :: ((cd.drop (DIR_KEY_COUNT / 2 + 1)).map (·.2.2)).join)]
      (Ctx.top (nh + 1 + 1) nrp) (by rw [getDir_eq_iff]; exact hreadnrp5)
      hklNR hplNR (by show 1 ≤ DIR_KEY_COUNT; decide)
      (by
        refine pairwise_take_of_getD (by rw [hklNR]; show 1 ≤ DIR_KEY_COUNT; decide) ?_
        intro b hb a hab
        have hb1 : b < 1 := hb
        exact absurd hab (by omega))
      (fun k _ => ⟨trivial, trivial⟩) rfl (by show 0 ≤ 1; omega) hp0get ?sibL
    case sibL =>
      intro i hile hij
      have hile' : i ≤ 1 := hile
      have hi1 : i = 1 := by omega
      subst hi1
      rw [hcntNR, hp1get, if_neg (show ¬ (1 : Nat) = 0 by omega),
        if_neg (show ¬ (1 : Nat) < 1 by omega), hk0, split_page_sep d]
      exact hrepR
    rw [if_pos rfl] at hstep
    have hif2 : (if 0 < (new_root_page (d.split_page).1 p newp).count
        then some ((new_root_page (d.split_page).1 p newp).keys.getD 0 0)
        else none) = some (d.keys.getD (DIR_KEY_COUNT / 2) 0) := by
      rw [hcntNR, if_pos (show (0 : Nat) < 1 by omega), hk0, split_page_sep d]
    rw [hif2] at hstep
    simp only [List.take_zero, List.map_nil, List.join_nil, List.nil_append,
      List.append_nil, List.drop_succ_cons, List.drop_zero, List.map_cons,
      List.join_cons] at hstep
    -- insert into the left half
    have hchL : ∀ i, i ≤ DIR_KEY_COUNT / 2 → i ≠ j →
        Rep t5.disk nh (d.pointers.getD i 0)
          (if i = 0 then none else some (d.keys.getD (i - 1) 0))
          (some (d.keys.getD i 0))
          (cd.getD i ([], [], [])).1 (cd.getD i ([], [], [])).2.1
          (cd.getD i ([], [], [])).2.2 := by
      intro i hile hij
      have hh := hch5 i (by omega) hij
      rw [if_pos (show i < d.count by omega)] at hh
      exact hh
    have hp1L : p ∉ ([nrp] : List Nat) := by
      intro h
      rcases List.mem_singleton.mp h with h
      exact hnrp_p h.symm
    have hp2L : p ∉ newp :: ((cd.drop (DIR_KEY_COUNT / 2 + 1)).map (·.2.2)).join := by
      intro h
      rcases List.mem_cons.mp h with h | h
      · exact hnewp_p h.symm
      · refine hpnm (List.mem_append_left _ (List.mem_append_right _ ?_))
        rw [hB22]
        exact List.mem_append_right _ h
    have hchpL : ∀ i, i ≤ DIR_KEY_COUNT / 2 → i ≠ j →
        p ∉ (cd.getD i ([], [], [])).2.2 := by
      intro i hile hij hx
      rcases Nat.lt_or_ge i j with hlt | hge
      · exact hpnm (List.mem_append_left _ (List.mem_append_left _ (List.mem_append_left _
          (List.mem_append_left _
            (mem_join_map_take (·.2.2) ([], [], []) (show j ≤ cd.length by omega) hlt hx)))))
      · have hgt : j + 1 ≤ i := by omega
        exact hpnm (List.mem_append_left _ (List.mem_append_right _
          (mem_join_map_drop (·.2.2) ([], [], []) hgt (show i < cd.length by omega) hx)))
    have happL : ∃ d1', (d.split_page).2.1.split_at_ptr c sep q = some d1' ∧
        Ctx2 (writePage t5.disk p (.dir d1')) nrp (nh + 2) nh c q sep
          (if j = 0 then none else some (d.keys.getD (j - 1) 0))
          (some (d.keys.getD j 0))
          ([] ++ ((cd.take j).map (·.1)).join)
          ((((cd.take (DIR_KEY_COUNT / 2 + 1)).drop (j + 1)).map (·.1)).join ++
            ((cd.drop (DIR_KEY_COUNT / 2 + 1)).map (·.1)).join)
          ([] ++ ((cd.take j).map (·.2.1)).join)
          ((((cd.take (DIR_KEY_COUNT / 2 + 1)).drop (j + 1)).map (·.2.1)).join ++
            ((cd.drop (DIR_KEY_COUNT / 2 + 1)).map (·.2.1)).join)
          ([nrp] ++ p :: ((cd.take j).map (·.2.2)).join)
          ((((cd.take (DIR_KEY_COUNT / 2 + 1)).drop (j + 1)).map (·.2.2)).join ++
            (newp :: ((cd.drop (DIR_KEY_COUNT / 2 + 1)).map (·.2.2)).join)) :=
      sde_insert_left d cd hstep (show nh + 1 + ([nrp] : List Nat).length = nh + 2 from rfl)
        hkl hpl hfull hsort (fun k _ => trivial) hcd hjle hptr
        hstrict (hsephi (by omega)) hchL hp1L hp2L hchpL
    obtain ⟨d1', hsapL, hctx2L⟩ := happL
    rw [if_pos hsplt, hsapL] at heq1
    refine ⟨_, heq1.trans rfl, ?_⟩
    refine ⟨fs2, [nrp] ++ p :: ((cd.take j).map (·.2.2)).join,
      (((cd.take (DIR_KEY_COUNT / 2 + 1)).drop (j + 1)).map (·.2.2)).join ++
        (newp :: ((cd.drop (DIR_KEY_COUNT / 2 + 1)).map (·.2.2)).join),
      ?_, ?_, ?_, ?_, ?_, ?_, ?_, ?_, ?_, ?_, ?_⟩
    · -- the two-slot context
      show Ctx2 (writePage t5.disk p (.dir d1')) nrp (t3.meta.depth + 1) nh c q sep _ _ _ _ _ _ _ _
      rw [show t3.meta.depth + 1 = nh + 2 from hdepth5]
      rw [show (if j < d.count then some (d.keys.getD j 0) else (none : Option Nat))
        = some (d.keys.getD j 0) from if_pos (by omega)]
      rw [show (((cd.drop (j + 1)).map (·.1)).join ++ ([] : List (Nat × Nat)))
        = ((cd.drop (j + 1)).map (·.1)).join from List.append_nil _]
      rw [show (((cd.drop (j + 1)).map (·.2.1)).join ++ ([] : List Nat))
        = ((cd.drop (j + 1)).map (·.2.1)).join from List.append_nil _]
      rw [hB1k, hB21]
      exact hctx2L
    · -- free chain
      show FreeChain (writePage t5.disk p (.dir d1')) t5.meta.next_free_page fs2
      refine freeChain_frame hfc5 ?_
      intro y hy
      have hyp : y ≠ p := fun h => hpfs (h ▸ hfs1sub y (hfs2sub y hy))
      rw [readPage_writePage, if_neg hyp]
    · show (writePage t5.disk p (.dir d1')).length = t5.meta.pages_allocated
      rw [writePage_length, if_pos (by rw [hlen5]; omega), hlen5]
      rfl
    · show t.meta.pages_allocated ≤ t3.meta.pages_allocated
      omega
    · show t3.meta.data_head = t.meta.data_head
      rw [hhead2']
      exact hhead1
    · show t3.meta.data_tail = t.meta.data_tail
      rw [htail2']
      exact htail1
    · show t.meta.depth ≤ t3.meta.depth + 1
      have h1 : t1.meta.depth = t.meta.depth := hdepth1
      omega
    · -- occupancy: a permutation of the allocator's book-keeping list
      have hseqL : ((([nrp] ++ p :: ((cd.take j).map (·.2.2)).join) ++ pga ++ pgb ++
          ((((cd.take (DIR_KEY_COUNT / 2 + 1)).drop (j + 1)).map (·.2.2)).join ++
            (newp :: ((cd.drop (DIR_KEY_COUNT / 2 + 1)).map (·.2.2)).join))) ++ fs2)
          = (nrp : Nat) :: ((p :: (((cd.take j).map (·.2.2)).join ++ pga ++ pgb ++
            (((cd.take (DIR_KEY_COUNT / 2 + 1)).drop (j + 1)).map (·.2.2)).join)) ++
            newp :: (((cd.drop (DIR_KEY_COUNT / 2 + 1)).map (·.2.2)).join ++ fs2)) := by
        simp only [List.append_assoc, List.cons_append, List.nil_append]
      have hseq2 : ((p : Nat) :: (((cd.take j).map (·.2.2)).join ++ pga ++ pgb ++
          (((cd.take (DIR_KEY_COUNT / 2 + 1)).drop (j + 1)).map (·.2.2)).join)) ++
          (((cd.drop (DIR_KEY_COUNT / 2 + 1)).map (·.2.2)).join ++ fs2)
          = (p :: (((cd.take j).map (·.2.2)).join ++ pga ++ pgb ++
            ((cd.drop (j + 1)).map (·.2.2)).join)) ++ fs2 := by
        rw [hB22]
        simp only [List.append_assoc, List.cons_append]
      rw [hseqL, List.nodup_cons]
      constructor
      · intro hmem
        have hmem2 := mem_middle_iff.mp hmem
        refine hnrpnm ?_
        rcases List.mem_cons.mp hmem2 with h | h
        · rw [h]
          exact List.mem_append_left _ (List.mem_cons_self _ _)
        · rw [hseq2] at h
          rcases List.mem_append.mp h with h | h
          · exact List.mem_append_left _ (List.mem_cons_of_mem _ h)
          · exact List.mem_append_right _ h
      · refine nodup_of_cons_middle ?_
        rw [hseq2, ← List.cons_append]
        exact hnd3r
    · -- bounds
      intro x hx
      have hseqL : ((([nrp] ++ p :: ((cd.take j).map (·.2.2)).join) ++ pga ++ pgb ++
          ((((cd.take (DIR_KEY_COUNT / 2 + 1)).drop (j + 1)).map (·.2.2)).join ++
            (newp :: ((cd.drop (DIR_KEY_COUNT / 2 + 1)).map (·.2.2)).join))) ++ fs2)
          = (nrp : Nat) :: ((p :: (((cd.take j).map (·.2.2)).join ++ pga ++ pgb ++
            (((cd.take (DIR_KEY_COUNT / 2 + 1)).drop (j + 1)).map (·.2.2)).join)) ++
            newp :: (((cd.drop (DIR_KEY_COUNT / 2 + 1)).map (·.2.2)).join ++ fs2)) := by
        simp only [List.append_assoc, List.cons_append, List.nil_append]
      have hseq2 : ((p : Nat) :: (((cd.take j).map (·.2.2)).join ++ pga ++ pgb ++
          (((cd.take (DIR_KEY_COUNT / 2 + 1)).drop (j + 1)).map (·.2.2)).join)) ++
          (((cd.drop (DIR_KEY_COUNT / 2 + 1)).map (·.2.2)).join ++ fs2)
          = (p :: (((cd.take j).map (·.2.2)).join ++ pga ++ pgb ++
            ((cd.drop (j + 1)).map (·.2.2)).join)) ++ fs2 := by
        rw [hB22]
        simp only [List.append_assoc, List.cons_append]
      rw [hseqL] at hx
      rcases List.mem_cons.mp hx with h | h
      · subst h
        exact hbd3 _ (List.mem_append_left _ (List.mem_cons_self _ _))
      · have h2 := mem_middle_iff.mp h
        rcases List.mem_cons.mp h2 with h3 | h3
        · subst h3
          exact hbd3 _ (List.mem_append_left _ (List.mem_cons_of_mem _ (List.mem_cons_self _ _)))
        · rw [hseq2] at h3
          rcases List.mem_append.mp h3 with h4 | h4
          · exact hbd3 _ (List.mem_append_left _ (List.mem_cons_of_mem _ (List.mem_cons_of_mem _ h4)))
          · exact hbd3 _ (List.mem_append_right _ h4)
    · -- read frame
      intro x hx0 hxss hxp hxfs hxlt
      show readPage (writePage t5.disk p (.dir d1')) x = _
      rw [readPage_writePage, if_neg hxp]
      exact hframe05 x hx0 hxp hxfs hxlt
    · -- leaf frame
      intro x lf hx hx0
      have hxp : x ≠ p := by
        intro h
        subst h
        rw [getDir_eq_iff] at hdir
        rw [hx] at hdir
        cases hdir
      show readPage (writePage t5.disk p (.dir d1')) x = _
      rw [readPage_writePage, if_neg hxp]
      exact hleaf05 x lf hx hx0
  · -- the pushed-up pair lands in the right half
    have hsplt' : d.keys.getD (DIR_KEY_COUNT / 2) 0 ≤ sep := by
      rw [← split_page_sep d]
      omega
    have hjgt : DIR_KEY_COUNT / 2 < j := by
      by_contra hle
      push_neg at hle
      have hlt := hsephi (by omega)
      have hle2 : d.keys.getD j 0 ≤ d.keys.getD (DIR_KEY_COUNT / 2) 0 := by
        rcases Nat.lt_or_ge j (DIR_KEY_COUNT / 2) with h | h
        · exact Nat.le_of_lt (hsortpos (DIR_KEY_COUNT / 2) (by omega) _ h)
        · have he : j = DIR_KEY_COUNT / 2 := by omega
          rw [he]
      omega
    have hA22 := join_map_take_split cd (·.2.2) (show DIR_KEY_COUNT / 2 + 1 ≤ j by omega)
    have hA1k := join_map_take_split cd (·.1) (show DIR_KEY_COUNT / 2 + 1 ≤ j by omega)
    have hA21 := join_map_take_split cd (·.2.1) (show DIR_KEY_COUNT / 2 + 1 ≤ j by omega)
    -- the left half as a subtree of `t5`
    have hrepL : Rep t5.disk (nh + 1) p none (some (d.keys.getD (DIR_KEY_COUNT / 2) 0))
        (((cd.take (DIR_KEY_COUNT / 2 + 1)).map (·.1)).join)
        (((cd.take (DIR_KEY_COUNT / 2 + 1)).map (·.2.1)).join)
        (p :: ((cd.take (DIR_KEY_COUNT / 2 + 1)).map (·.2.2)).join) := by
      refine rep_half_left d cd hkl hpl hfull hsort hbnd hcd hjgt ?_ hch5
      rw [getDir_eq_iff]
      exact hreadp5
    -- one-step context around `newp` under the new root
    have hstep := Ctx.step [] nrp (nh + 1) nrp none none [] [] [] [] [] []
      (new_root_page (d.split_page).1 p newp) 1 newp
      [(((cd.take (DIR_KEY_COUNT / 2 + 1)).map (·.1)).join,
        ((cd.take (DIR_KEY_COUNT / 2 + 1)).map (·.2.1)).join,
        p :: ((cd.take (DIR_KEY_COUNT / 2 + 1)).map (·.2.2)).join), ([], [], [])]
      (Ctx.top (nh + 1 + 1) nrp) (by rw [getDir_eq_iff]; exact hreadnrp5)
      hklNR hplNR (by show 1 ≤ DIR_KEY_COUNT; decide)
      (by
        refine pairwise_take_of_getD (by rw [hklNR]; show 1 ≤ DIR_KEY_COUNT; decide) ?_
        intro b hb a hab
        have hb1 : b < 1 := hb
        exact absurd hab (by omega))
      (fun k _ => ⟨trivial, trivial⟩) rfl (by show 1 ≤ 1; omega) hp1get ?sibR
    case sibR =>
      intro i hile hij
      have hile' : i ≤ 1 := hile
      have hi0 : i = 0 := by omega
      subst hi0
      rw [hcntNR, hp0get, if_pos rfl, if_pos (show (0 : Nat) < 1 by omega), hk0,
        split_page_sep d]
      exact hrepL
    have hif1R : (if (1 : Nat) = 0 then (none : Option Nat)
        else some ((new_root_page (d.split_page).1 p newp).keys.getD (1 - 1) 0))
        = some (d.keys.getD (DIR_KEY_COUNT / 2) 0) := by
      rw [if_neg (by omega)]
      show some _ = _
      rw [show (1 : Nat) - 1 = 0 from rfl, hk0, split_page_sep d]
    have hif2R : (if 1 < (new_root_page (d.split_page).1 p newp).count
        then some ((new_root_page (d.split_page).1 p newp).keys.getD 1 0)
        else none) = (none : Option Nat) := by
      rw [hcntNR, if_neg (show ¬ (1 : Nat) < 1 by omega)]
    rw [hif1R, hif2R] at hstep
    simp only [List.take_succ_cons, List.take_zero, List.map_nil, List.join_nil,
      List.nil_append, List.append_nil, List.drop_succ_cons, List.drop_zero,
      List.map_cons, List.join_cons] at hstep
    -- insert into the right half
    have hchR : ∀ i, DIR_KEY_COUNT / 2 + 1 ≤ i → i ≤ d.count → i ≠ j →
        Rep t5.disk nh (d.pointers.getD i 0)
          (some (d.keys.getD (i - 1) 0))
          (if i < d.count then some (d.keys.getD i 0) else none)
          (cd.getD i ([], [], [])).1 (cd.getD i ([], [], [])).2.1
          (cd.getD i ([], [], [])).2.2 := by
      intro i hilow hile hij
      have hh := hch5 i hile hij
      rw [if_neg (show ¬ i = 0 by omega)] at hh
      exact hh
    have hp1R : newp ∉ (nrp : Nat) :: p :: ((cd.take (DIR_KEY_COUNT / 2 + 1)).map (·.2.2)).join := by
      intro h
      rcases List.mem_cons.mp h with h | h
      · exact hnrp_new h.symm
      rcases List.mem_cons.mp h with h | h
      · exact hnewp_p h
      · refine hnewpnm (List.mem_append_left _ (List.mem_cons_of_mem _
          (List.mem_append_left _ (List.mem_append_left _ (List.mem_append_left _ ?_)))))
        rw [hA22]
        exact List.mem_append_left _ h
    have hp2R : newp ∉ ([] : List Nat) := by simp
    have hchpR : ∀ i, DIR_KEY_COUNT / 2 + 1 ≤ i → i ≤ d.count → i ≠ j →
        newp ∉ (cd.getD i ([], [], [])).2.2 := by
      intro i hilow hile hij hx
      rcases Nat.lt_or_ge i j with hlt | hge
      · refine hnewpnm (List.mem_append_left _ (List.mem_cons_of_mem _
          (List.mem_append_left _ (List.mem_append_left _ (List.mem_append_left _
            (mem_join_map_take (·.2.2) ([], [], []) (show j ≤ cd.length by omega) hlt hx))))))
      · have hgt : j + 1 ≤ i := by omega
        refine hnewpnm (List.mem_append_left _ (List.mem_cons_of_mem _
          (List.mem_append_right _
            (mem_join_map_drop (·.2.2) ([], [], []) hgt (show i < cd.length by omega) hx))))
    have happR : ∃ d2', (d.split_page).2.2.split_at_ptr c sep q = some d2' ∧
        Ctx2 (writePage t5.disk newp (.dir d2')) nrp (nh + 2) nh c q sep
          (some (d.keys.getD (j - 1) 0))
          (if j < d.count then some (d.keys.getD j 0) else none)
          ((((cd.take (DIR_KEY_COUNT / 2 + 1)).map (·.1)).join) ++
            (((cd.drop (DIR_KEY_COUNT / 2 + 1)).take (j - (DIR_KEY_COUNT / 2 + 1))).map (·.1)).join)
          (((cd.drop (j + 1)).map (·.1)).join ++ [])
          ((((cd.take (DIR_KEY_COUNT / 2 + 1)).map (·.2.1)).join) ++
            (((cd.drop (DIR_KEY_COUNT / 2 + 1)).take (j - (DIR_KEY_COUNT / 2 + 1))).map (·.2.1)).join)
          (((cd.drop (j + 1)).map (·.2.1)).join ++ [])
          (((nrp : Nat) :: p :: ((cd.take (DIR_KEY_COUNT / 2 + 1)).map (·.2.2)).join) ++
            newp :: (((cd.drop (DIR_KEY_COUNT / 2 + 1)).take (j - (DIR_KEY_COUNT / 2 + 1))).map (·.2.2)).join)
          (((cd.drop (j + 1)).map (·.2.2)).join ++ []) :=
      sde_insert_right d cd hstep (show nh + 1 + ([nrp] : List Nat).length = nh + 2 from rfl)
        hkl hpl hfull hsort (fun k _ => trivial) hcd hjgt hj
        hptr (hstrict _ (by rw [if_neg (by omega)])) hsephi trivial hchR hp1R hp2R hchpR
    obtain ⟨d2', hsapR, hctx2R⟩ := happR
    rw [if_neg hsplt, hsapR] at heq1
    refine ⟨_, heq1.trans rfl, ?_⟩
    refine ⟨fs2, ((nrp : Nat) :: p :: ((cd.take (DIR_KEY_COUNT / 2 + 1)).map (·.2.2)).join) ++
        newp :: (((cd.drop (DIR_KEY_COUNT / 2 + 1)).take (j - (DIR_KEY_COUNT / 2 + 1))).map (·.2.2)).join,
      ((cd.drop (j + 1)).map (·.2.2)).join ++ [],
      ?_, ?_, ?_, ?_, ?_, ?_, ?_, ?_, ?_, ?_, ?_⟩
    · show Ctx2 (writePage t5.disk newp (.dir d2')) nrp (t3.meta.depth + 1) nh c q sep _ _ _ _ _ _ _ _
      rw [show t3.meta.depth + 1 = nh + 2 from hdepth5]
      rw [show (if j = 0 then (none : Option Nat) else some (d.keys.getD (j - 1) 0))
        = some (d.keys.getD (j - 1) 0) from if_neg (by omega)]
      rw [show ([] : List (Nat × Nat)) ++ ((cd.take j).map (·.1)).join
        = ((cd.take j).map (·.1)).join from List.nil_append _]
      rw [show ([] : List Nat) ++ ((cd.take j).map (·.2.1)).join
        = ((cd.take j).map (·.2.1)).join from List.nil_append _]
      rw [hA1k, hA21]
      exact hctx2R
    · show FreeChain (writePage t5.disk newp (.dir d2')) t5.meta.next_free_page fs2
      refine freeChain_frame hfc5 ?_
      intro y hy
      have hyp : y ≠ newp := fun h => hnewpfs1 (h ▸ hfs2sub y hy)
      rw [readPage_writePage, if_neg hyp]
    · show (writePage t5.disk newp (.dir d2')).length = t5.meta.pages_allocated
      have hnewplt : newp < t3.meta.pages_allocated := by
        have h1 : newp < t1.meta.pages_allocated := hnewpOK.2
        omega
      rw [writePage_length, if_pos (by rw [hlen5]; omega), hlen5]
      rfl
    · show t.meta.pages_allocated ≤ t3.meta.pages_allocated
      omega
    · show t3.meta.data_head = t.meta.data_head
      rw [hhead2']
      exact hhead1
    · show t3.meta.data_tail = t.meta.data_tail
      rw [htail2']
      exact htail1
    · show t.meta.depth ≤ t3.meta.depth + 1
      have h1 : t1.meta.depth = t.meta.depth := hdepth1
      omega
    · -- occupancy
      have hseq : (((((nrp : Nat) :: p :: ((cd.take (DIR_KEY_COUNT / 2 + 1)).map (·.2.2)).join) ++
          newp :: (((cd.drop (DIR_KEY_COUNT / 2 + 1)).take (j - (DIR_KEY_COUNT / 2 + 1))).map (·.2.2)).join) ++
          pga ++ pgb ++ (((cd.drop (j + 1)).map (·.2.2)).join ++ [])) ++ fs2)
          = (nrp : Nat) :: ((p :: ((cd.take (DIR_KEY_COUNT / 2 + 1)).map (·.2.2)).join) ++
            newp :: ((((cd.drop (DIR_KEY_COUNT / 2 + 1)).take (j - (DIR_KEY_COUNT / 2 + 1))).map (·.2.2)).join ++
              pga ++ pgb ++ ((cd.drop (j + 1)).map (·.2.2)).join ++ fs2)) := by
        simp only [List.append_assoc, List.cons_append, List.nil_append, List.append_nil]
      rw [hseq]
      rw [List.nodup_cons]
      constructor
      · intro hmem
        refine hnrpnm ?_
        have hmem2 := mem_middle_iff.mp hmem
        rcases List.mem_cons.mp hmem2 with h | h
        · subst h
          exact List.mem_append_left _ (List.mem_cons_self _ _)
        · have hseq2 : ((p : Nat) :: ((cd.take (DIR_KEY_COUNT / 2 + 1)).map (·.2.2)).join) ++
              ((((cd.drop (DIR_KEY_COUNT / 2 + 1)).take (j - (DIR_KEY_COUNT / 2 + 1))).map (·.2.2)).join ++
                pga ++ pgb ++ ((cd.drop (j + 1)).map (·.2.2)).join ++ fs2)
              = (p :: (((cd.take j).map (·.2.2)).join ++ pga ++ pgb ++
                ((cd.drop (j + 1)).map (·.2.2)).join)) ++ fs2 := by
            rw [hA22]
            simp only [List.append_assoc, List.cons_append]
          rw [hseq2] at h
          rcases List.mem_append.mp h with h | h
          · exact List.mem_append_left _ (List.mem_cons_of_mem _ h)
          · exact List.mem_append_right _ h
      · refine nodup_of_cons_middle ?_
        have hseq2 : ((p : Nat) :: ((cd.take (DIR_KEY_COUNT / 2 + 1)).map (·.2.2)).join) ++
            ((((cd.drop (DIR_KEY_COUNT / 2 + 1)).take (j - (DIR_KEY_COUNT / 2 + 1))).map (·.2.2)).join ++
              pga ++ pgb ++ ((cd.drop (j + 1)).map (·.2.2)).join ++ fs2)
            = (p :: (((cd.take j).map (·.2.2)).join ++ pga ++ pgb ++
              ((cd.drop (j + 1)).map (·.2.2)).join)) ++ fs2 := by
          rw [hA22]
          simp only [List.append_assoc, List.cons_append]
        rw [hseq2, ← List.cons_append]
        exact hnd3r
    · -- bounds
      intro x hx
      have hseq : (((((nrp : Nat) :: p :: ((cd.take (DIR_KEY_COUNT / 2 + 1)).map (·.2.2)).join) ++
          newp :: (((cd.drop (DIR_KEY_COUNT / 2 + 1)).take (j - (DIR_KEY_COUNT / 2 + 1))).map (·.2.2)).join) ++
          pga ++ pgb ++ (((cd.drop (j + 1)).map (·.2.2)).join ++ [])) ++ fs2)
          = (nrp : Nat) :: ((p :: ((cd.take (DIR_KEY_COUNT / 2 + 1)).map (·.2.2)).join) ++
            newp :: ((((cd.drop (DIR_KEY_COUNT / 2 + 1)).take (j - (DIR_KEY_COUNT / 2 + 1))).map (·.2.2)).join ++
              pga ++ pgb ++ ((cd.drop (j + 1)).map (·.2.2)).join ++ fs2)) := by
        simp only [List.append_assoc, List.cons_append, List.nil_append, List.append_nil]
      rw [hseq] at hx
      rcases List.mem_cons.mp hx with h | h
      · subst h
        exact hbd3 x (List.mem_append_left _ (List.mem_cons_self _ _))
      · have h2 := mem_middle_iff.mp h
        rcases List.mem_cons.mp h2 with h3 | h3
        · subst h3
          exact hbd3 x (List.mem_append_left _ (List.mem_cons_of_mem _ (List.mem_cons_self _ _)))
        · have hseq2 : ((p : Nat) :: ((cd.take (DIR_KEY_COUNT / 2 + 1)).map (·.2.2)).join) ++
              ((((cd.drop (DIR_KEY_COUNT / 2 + 1)).take (j - (DIR_KEY_COUNT / 2 + 1))).map (·.2.2)).join ++
                pga ++ pgb ++ ((cd.drop (j + 1)).map (·.2.2)).join ++ fs2)
              = (p :: (((cd.take j).map (·.2.2)).join ++ pga ++ pgb ++
                ((cd.drop (j + 1)).map (·.2.2)).join)) ++ fs2 := by
            rw [hA22]
            simp only [List.append_assoc, List.cons_append]
          rw [hseq2] at h3
          rcases List.mem_append.mp h3 with h4 | h4
          · exact hbd3 x (List.mem_append_left _ (List.mem_cons_of_mem _ (List.mem_cons_of_mem _ h4)))
          · exact hbd3 x (List.mem_append_right _ h4)
    · -- read frame
      intro x hx0 hxss hxp hxfs hxlt
      show readPage (writePage t5.disk newp (.dir d2')) x = _
      have hxnewp : x ≠ newp := by
        rcases hqx1 with h | h
        · intro he
          exact hxfs (he ▸ h)
        · omega
      rw [readPage_writePage, if_neg hxnewp]
      exact hframe05 x hx0 hxp hxfs hxlt
    · -- leaf frame
      intro x lf hx hx0
      have hxlen : x < t.disk.length := by
        by_contra hge
        push_neg at hge
        have : readPage t.disk x = zeroPage := by
          unfold readPage
          rw [List.getD_eq_getElem?_getD, List.getElem?_eq_none (by omega)]
          rfl
        rw [hx] at this
        cases this
      have hxnewp : x ≠ newp := by
        rcases hqx1 with h | h
        · intro he
          subst he
          obtain ⟨f, hgf⟩ := freeChain_reads hfree x h
          rw [getFree_eq_iff] at hgf
          rw [hx] at hgf
          cases hgf
        · rw [hdl] at hxlen
          omega
      show readPage (writePage t5.disk newp (.dir d2')) x = _
      rw [readPage_writePage, if_neg hxnewp]
      exact hleaf05 x lf hx hx0

/-- Dissection of the four-part occupancy list. -/
theorem nodup_parts {P1 pa pb P2 fs : List α}
    (h : ((P1 ++ pa ++ pb ++ P2) ++ fs).Nodup) :
    (∀ x ∈ pa, x ∉ P1 ∧ x ∉ pb ∧ x ∉ P2 ∧ x ∉ fs) ∧
    (∀ x ∈ pb, x ∉ P1 ∧ x ∉ pa ∧ x ∉ P2 ∧ x ∉ fs) ∧
    pa.Nodup ∧ pb.Nodup := by
  have hdisj_fs := List.disjoint_of_nodup_append h
  have h1 : (P1 ++ pa ++ pb ++ P2).Nodup := (List.nodup_append.mp h).1
  have hdisj_P2 := List.disjoint_of_nodup_append h1
  have h2 : (P1 ++ pa ++ pb).Nodup := (List.nodup_append.mp h1).1
  have hdisj_pb := List.disjoint_of_nodup_append h2
  have h3 : (P1 ++ pa).Nodup := (List.nodup_append.mp h2).1
  have hdisj_P1 := List.disjoint_of_nodup_append h3
  have hpbnd : pb.Nodup := (List.nodup_append.mp h2).2.1
  have hpand : pa.Nodup := (List.nodup_append.mp h3).2.1
  refine ⟨?_, ?_, hpand, hpbnd⟩
  · intro x hx
    refine ⟨?_, ?_, ?_, ?_⟩
    · intro hP1
      exact hdisj_P1 hP1 hx
    · intro hpb
      exact hdisj_pb (List.mem_append_right _ hx) hpb
    · intro hP2
      exact hdisj_P2 (List.mem_append_left _ (List.mem_append_right _ hx)) hP2
    · intro hfs
      exact hdisj_fs (List.mem_append_left _ (List.mem_append_left _
        (List.mem_append_right _ hx))) hfs
  · intro x hx
    refine ⟨?_, ?_, ?_, ?_⟩
    · intro hP1
      exact hdisj_pb (List.mem_append_left _ hP1) hx
    · intro hpa
      exact hdisj_pb (List.mem_append_right _ hpa) hx
    · intro hP2
      exact hdisj_P2 (List.mem_append_right _ hx) hP2
    · intro hfs
      exact hdisj_fs (List.mem_append_left _ (List.mem_append_right _ hx)) hfs

end BPlus
